import Mathlib

/-!
Verification development for the `mazes` repository (Rust).

The Rust sources are shallowly embedded below:
* `src/map.rs`    : block types, the traversal `Map`, neighbour lookup, solution stamping;
* `src/lib.rs`    : search states and nodes, the A* search `a_star`;
* `src/maze_generation.rs` : maze cells, walls, `connect_cells`, `generate_maze`.

Machine integers are modelled as `Nat` with explicit reduction modulo `2^32`
where the Rust code performs `u32` arithmetic (release-mode wrapping
semantics), and `usize::MAX` is the 64-bit value `2^64 - 1`; the cast
`usize::MAX as u32` therefore yields `2^32 - 1`.
-/

namespace Mazes

/-- Reduction modulo `2^32`, the behaviour of wrapping `u32` arithmetic. -/
def u32 (n : Nat) : Nat := n % 2 ^ 32

/-- Two's-complement truncation into `i32` (the behaviour of an `as i32`
cast and of wrapping `i32` arithmetic in release mode). -/
def i32 (n : Int) : Int := (n + 2 ^ 31) % 2 ^ 32 - 2 ^ 31

theorem i32_eq_self {n : Int} (h1 : -(2 ^ 31) ≤ n) (h2 : n < 2 ^ 31) : i32 n = n := by
  unfold i32
  omega

/-- The value `usize::MAX` on a 64-bit target. -/
def usizeMax : Nat := 2 ^ 64 - 1

/-- Embedding of `enum BlockType` from `src/map.rs`. -/
inductive BlockType where
  | White
  | Black
  | Orange
  | Blue
  | Green
  | Yellow
  | Border
  | Solution
deriving DecidableEq, Repr

/-- Embedding of `struct Block` from `src/map.rs`.  The derived Rust
`PartialEq` compares all three fields, matching the derived `DecidableEq`. -/
structure Block where
  x : Nat
  y : Nat
  block_type : BlockType
deriving DecidableEq, Repr

/-- Embedding of `Block::is_walkable`: everything except `Black` and `White`. -/
def Block.is_walkable (b : Block) : Bool :=
  !(b.block_type = BlockType.Black || b.block_type = BlockType.White)

/-- Embedding of `Block::speed` (the movement cost; smaller is better).
`usize::MAX` is the infinite sentinel. -/
def Block.speed (b : Block) : Nat :=
  match b.block_type with
  | BlockType.White => usizeMax
  | BlockType.Black => usizeMax
  | BlockType.Orange => 5
  | BlockType.Blue => 2
  | BlockType.Green => 1
  | BlockType.Yellow => 7
  | BlockType.Border => usizeMax
  | BlockType.Solution => usizeMax

/-- The cast `block.speed() as u32` used by `a_star` when accumulating cost. -/
def Block.speed32 (b : Block) : Nat := u32 b.speed

/-- Embedding of `struct Map` from `src/map.rs`: a row-major grid of blocks
with the `width`/`height` fields it caches. -/
structure Map where
  width : Nat
  height : Nat
  blocks : List (List Block)
deriving DecidableEq, Repr

/-- Embedding of `Map::new`: the width comes from the first row, the height is
the row count.  The Rust code panics on an empty block list; this is modelled
with `Option`. -/
def Map.new (blocks : List (List Block)) : Option Map :=
  match blocks.head? with
  | none => none
  | some row => some { width := row.length, height := blocks.length, blocks := blocks }

/-- Embedding of `Map::get_block`: bounds-checked row-then-column lookup. -/
def Map.get_block (m : Map) (x y : Nat) : Option Block :=
  m.blocks[y]?.bind (fun row => row[x]?)

/-- Embedding of `Map::get_reachable`: the up-to-four axis neighbours that
exist (the `Option`s that survive) filtered to the walkable ones, in the
order left, top, right, bottom. -/
def Map.get_reachable (m : Map) (x y : Nat) : List Block :=
  (((if x > 0 then [m.get_block (x - 1) y] else []) ++
    (if y > 0 then [m.get_block x (y - 1)] else []) ++
    (if x < m.width then [m.get_block (x + 1) y] else []) ++
    (if y < m.height then [m.get_block x (y + 1)] else [])).filterMap id).filter
    (fun b => b.is_walkable)

/-- Embedding of `Map::enter_solution`: every block equal (as a `Block`, the
derived equality) to a member of `locations` is retagged `Solution`. -/
def Map.enter_solution (m : Map) (locations : List Block) : Map :=
  { m with
    blocks := m.blocks.map (fun row => row.map (fun b =>
      if locations.contains b then { b with block_type := BlockType.Solution } else b)) }

/-- Embedding of `struct State` from `src/lib.rs`. -/
structure State where
  location : Block
deriving DecidableEq, Repr

/-- Embedding of `struct Node` from `src/lib.rs`.  The Rust node is a
`(state, parent : Option<Arc<Node>>, cost)` triple, i.e. a non-empty chain of
`(state, cost)` pairs; it is flattened here into the head data plus the list
of ancestor `(state, cost)` pairs (`[]` standing for `parent = None`), which
is an isomorphic representation on which equality derives structurally. -/
structure Node where
  state : State
  cost : Nat
  parentChain : List (State × Nat)
deriving DecidableEq, Repr

/-- The parent of a node, as in the Rust `parent` field. -/
def Node.parent (n : Node) : Option Node :=
  match n.parentChain with
  | [] => none
  | (s, c) :: rest => some { state := s, cost := c, parentChain := rest }

/-- Building a child node: `Node::new(state, Some(node), cost)`. -/
def Node.child (n : Node) (s : State) (c : Nat) : Node :=
  { state := s, cost := c, parentChain := (n.state, n.cost) :: n.parentChain }

/-- Embedding of `Node::get_steps`: push the states walking up the parent
chain, then reverse, yielding root-to-node order. -/
def Node.get_steps (n : Node) : List State :=
  ((n.state :: n.parentChain.map Prod.fst).reverse)

/-- The largest `j ≤ k` with `j * j ≤ n` (an executable floor square root
search). -/
def sqrtLoop (n : Nat) : Nat → Nat
  | 0 => 0
  | k + 1 => if (k + 1) * (k + 1) ≤ n then k + 1 else sqrtLoop n k

/-- The floor square root, executable by structural recursion; identified
with Mathlib's `Nat.sqrt` by `floorSqrt_eq` below. -/
def floorSqrt (n : Nat) : Nat := sqrtLoop n n

theorem sqrtLoop_eq (n : Nat) : ∀ k, Nat.sqrt n ≤ k → sqrtLoop n k = Nat.sqrt n := by
  intro k
  induction k with
  | zero =>
    intro h
    have h0 : Nat.sqrt n = 0 := Nat.le_zero.mp h
    rw [h0]
    rfl
  | succ k ih =>
    intro h
    show (if (k + 1) * (k + 1) ≤ n then k + 1 else sqrtLoop n k) = Nat.sqrt n
    by_cases hle : (k + 1) * (k + 1) ≤ n
    · rw [if_pos hle]
      have h1 : k + 1 ≤ Nat.sqrt n := Nat.le_sqrt.mpr hle
      omega
    · rw [if_neg hle]
      apply ih
      have h2 : Nat.sqrt n < k + 1 := Nat.sqrt_lt.mpr (by omega)
      omega

theorem floorSqrt_eq (n : Nat) : floorSqrt n = Nat.sqrt n :=
  sqrtLoop_eq n n (Nat.sqrt_le_self n)

/-- The computation pipeline of `Node::euclidean_distance` on the four
coordinates: each `usize` coordinate is cast to `i32` (truncating), the
difference, the squarings (`.pow(2)`) and the sum are wrapping `i32`
operations (release mode), the resulting `i32` is converted exactly to `f64`
and its square root cast to `u32`.  A negative radicand yields `NaN`, which
the `as u32` cast saturates to 0; a non-negative radicand (< `2^31` < `2^53`)
has its correctly rounded `f64` square root truncate to exactly the floor
square root. -/
def euclidPipe (x1 y1 x2 y2 : Nat) : Nat :=
  let dx := i32 (i32 x1 - i32 x2)
  let dy := i32 (i32 y1 - i32 y2)
  let r := i32 (i32 (dx * dx) + i32 (dy * dy))
  if r < 0 then 0 else floorSqrt r.toNat

/-- Embedding of `Node::euclidean_distance` (src/lib.rs lines 60-64):
`(((x1 as i32 - x2 as i32).pow(2) + (y1 as i32 - y2 as i32).pow(2)) as f64)
.sqrt() as u32`, through the wrapping pipeline above. -/
def Node.euclidean_distance (n : Node) (destination : Block) : Nat :=
  euclidPipe n.state.location.x n.state.location.y destination.x destination.y

/-- Below coordinate `2^15` every step of the pipeline is exact, and the
heuristic is the floor of the true Euclidean distance. -/
theorem euclidPipe_exact (x1 y1 x2 y2 : Nat)
    (hx1 : x1 < 2 ^ 15) (hy1 : y1 < 2 ^ 15) (hx2 : x2 < 2 ^ 15) (hy2 : y2 < 2 ^ 15) :
    euclidPipe x1 y1 x2 y2 =
      Nat.sqrt (((x1 : Int) - x2).natAbs ^ 2 + ((y1 : Int) - y2).natAbs ^ 2) := by
  unfold euclidPipe
  dsimp only
  have e1 : i32 (x1 : Int) = (x1 : Int) := i32_eq_self (by omega) (by omega)
  have e2 : i32 (y1 : Int) = (y1 : Int) := i32_eq_self (by omega) (by omega)
  have e3 : i32 (x2 : Int) = (x2 : Int) := i32_eq_self (by omega) (by omega)
  have e4 : i32 (y2 : Int) = (y2 : Int) := i32_eq_self (by omega) (by omega)
  rw [e1, e2, e3, e4]
  have es1 : i32 ((x1 : Int) - x2) = (x1 : Int) - x2 := i32_eq_self (by omega) (by omega)
  have es2 : i32 ((y1 : Int) - y2) = (y1 : Int) - y2 := i32_eq_self (by omega) (by omega)
  rw [es1, es2]
  have hns1 : ((((x1 : Int) - x2).natAbs * ((x1 : Int) - x2).natAbs : Nat) : Int) =
      ((x1 : Int) - x2) * ((x1 : Int) - x2) := Int.natAbs_mul_self
  have hns2 : ((((y1 : Int) - y2).natAbs * ((y1 : Int) - y2).natAbs : Nat) : Int) =
      ((y1 : Int) - y2) * ((y1 : Int) - y2) := Int.natAbs_mul_self
  have h230 : (2 : Nat) ^ 30 = 1073741824 := by norm_num
  have hbx : ((x1 : Int) - x2).natAbs * ((x1 : Int) - x2).natAbs < 2 ^ 30 := by
    have := Nat.mul_le_mul
      (Nat.le_of_lt_succ (by omega : ((x1 : Int) - x2).natAbs < 32768))
      (Nat.le_of_lt_succ (by omega : ((x1 : Int) - x2).natAbs < 32768))
    omega
  have hby : ((y1 : Int) - y2).natAbs * ((y1 : Int) - y2).natAbs < 2 ^ 30 := by
    have := Nat.mul_le_mul
      (Nat.le_of_lt_succ (by omega : ((y1 : Int) - y2).natAbs < 32768))
      (Nat.le_of_lt_succ (by omega : ((y1 : Int) - y2).natAbs < 32768))
    omega
  have eq1 : i32 (((x1 : Int) - x2) * ((x1 : Int) - x2)) =
      ((x1 : Int) - x2) * ((x1 : Int) - x2) := i32_eq_self (by omega) (by omega)
  have eq2 : i32 (((y1 : Int) - y2) * ((y1 : Int) - y2)) =
      ((y1 : Int) - y2) * ((y1 : Int) - y2) := i32_eq_self (by omega) (by omega)
  rw [eq1, eq2]
  have eqs : i32 (((x1 : Int) - x2) * ((x1 : Int) - x2) +
      ((y1 : Int) - y2) * ((y1 : Int) - y2)) =
      ((x1 : Int) - x2) * ((x1 : Int) - x2) + ((y1 : Int) - y2) * ((y1 : Int) - y2) :=
    i32_eq_self (by omega) (by omega)
  rw [eqs]
  rw [if_neg (by omega)]
  rw [floorSqrt_eq]
  have htn : (((x1 : Int) - x2) * ((x1 : Int) - x2) +
      ((y1 : Int) - y2) * ((y1 : Int) - y2)).toNat =
      ((x1 : Int) - x2).natAbs ^ 2 + ((y1 : Int) - y2).natAbs ^ 2 := by
    rw [pow_two, pow_two]
    omega
  rw [htn]

/-- Embedding of `Node::f`: heuristic plus accumulated cost, in `u32`. -/
def Node.fval (n : Node) (destination : Block) : Nat :=
  u32 (n.euclidean_distance destination + n.cost)

/-- Embedding of `struct Solution` from `src/lib.rs`. -/
structure Solution where
  states : List State
  map : Map
  cost : Nat
deriving DecidableEq, Repr

/-- Embedding of `Solution::new`: record the steps and the cost and stamp the
step locations into a copy of the map. -/
def Solution.new (node : Node) (m : Map) : Solution :=
  { states := node.get_steps
    map := m.enter_solution (node.get_steps.map (fun s => s.location))
    cost := node.cost }

/-- The frontier, `PriorityQueue<Arc<Node>, Reverse<u32>>`, modelled as an
association list of nodes with their stored priority (the `f` value; the
`Reverse` wrapper makes the crate's pop-max return the minimum `f`). -/
abbrev Frontier : Type := List (Node × Nat)

/-- The reached index, `HashMap<State, Arc<Node>>`, as an association list. -/
abbrev Reached : Type := List (State × Node)

/-- Lookup in the reached index (`HashMap` lookup). -/
def reachedFind (r : Reached) (s : State) : Option Node :=
  (List.find? (fun e => decide (e.1 = s)) r).map Prod.snd

/-- Insertion in the reached index (`HashMap::insert` replaces the binding). -/
def reachedInsert (r : Reached) (s : State) (n : Node) : Reached :=
  (s, n) :: List.filter (fun e => decide (¬ e.1 = s)) r

/-- The crate's `PriorityQueue::push`: if the key is already present its
priority is updated, otherwise the pair is appended. -/
def frontierPush (l : Frontier) (n : Node) (p : Nat) : Frontier :=
  if List.any l (fun e => decide (e.1 = n)) then
    List.map (fun e => if e.1 = n then (n, p) else e) l
  else l ++ [(n, p)]

/-- The crate's `PriorityQueue::remove`: drop the entry with the given key. -/
def frontierRemove (l : Frontier) (n : Node) : Frontier :=
  List.filter (fun e => decide (¬ e.1 = n)) l

/-- The crate's `PriorityQueue::pop` under `Reverse`: remove and return an
entry of minimal stored priority (the first such entry; the crate leaves the
order among equal priorities unspecified). -/
def frontierPop : Frontier → Option ((Node × Nat) × Frontier)
  | [] => none
  | e :: rest =>
    match frontierPop rest with
    | none => some (e, [])
    | some (m, others) => if e.2 ≤ m.2 then some (e, rest) else some (m, e :: others)

/-- The mutable search state of `a_star`: frontier plus reached index. -/
structure SearchState where
  frontier : Frontier
  reached : Reached
deriving DecidableEq

/-- Embedding of the body of the `for action in map.get_reachable(..)` loop in
`a_star` (src/lib.rs lines 124-140): build the child node and insert / replace
/ ignore according to the reached index. -/
def expandNeighbor (dest : Block) (node : Node) (st : SearchState) (action : Block) :
    SearchState :=
  let new_state : State := { location := action }
  let c : Node := node.child new_state (u32 (node.cost + action.speed32))
  match reachedFind st.reached new_state with
  | none =>
      { reached := reachedInsert st.reached new_state c
        frontier := frontierPush st.frontier c (c.fval dest) }
  | some old =>
      if c.cost < old.cost then
        { frontier := frontierPush (frontierRemove st.frontier old) c (c.fval dest)
          reached := reachedInsert st.reached new_state c }
      else st

/-- Embedding of the `while !frontier.is_empty()` loop of `a_star`, run on
explicit fuel (`none` = fuel exhausted before the loop finished).  Alongside
the result it returns the ghost trace of `(state, cost)` pairs of the popped
nodes, in pop order; the trace has no influence on the computation. -/
def astarLoop (m : Map) (dest : Block) :
    Nat → SearchState → List (State × Nat) →
    Option (Except String Solution) × List (State × Nat)
  | 0, _, trace => (none, trace)
  | fuel + 1, st, trace =>
    match frontierPop st.frontier with
    | none => (some (Except.error "There is no path"), trace)
    | some (e, rest) =>
      let node := e.1
      let trace2 := trace ++ [(node.state, node.cost)]
      if node.state.location = dest then
        (some (Except.ok (Solution.new node m)), trace2)
      else
        astarLoop m dest fuel
          ((m.get_reachable node.state.location.x node.state.location.y).foldl
            (expandNeighbor dest node) { frontier := rest, reached := st.reached })
          trace2

/-- The initial node of `a_star`: the start state with no parent and cost 0. -/
def firstNode (start_block : Block) : Node :=
  { state := { location := start_block }, cost := 0, parentChain := [] }

/-- The initial search state of `a_star`: the first node in the frontier at
priority `f`, the reached index empty (the source never inserts the start). -/
def initialSearchState (start_block destination_block : Block) : SearchState :=
  { frontier := [(firstNode start_block,
      (firstNode start_block).fval destination_block)]
    reached := [] }

/-- Embedding of `a_star` (src/lib.rs lines 108-144), with explicit fuel. -/
def a_star (fuel : Nat) (m : Map) (start_block destination_block : Block) :
    Option (Except String Solution) :=
  (astarLoop m destination_block fuel
    (initialSearchState start_block destination_block) []).1

/-- The instrumented run of `a_star`, exposing the popped-node trace. -/
def a_starTraced (fuel : Nat) (m : Map) (start_block destination_block : Block) :
    Option (Except String Solution) × List (State × Nat) :=
  astarLoop m destination_block fuel
    (initialSearchState start_block destination_block) []

/-! ### Basic lemmas about the data-structure embeddings -/

theorem reachedFind_insert_self (r : Reached) (s : State) (n : Node) :
    reachedFind (reachedInsert r s n) s = some n := by
  simp [reachedFind, reachedInsert]

theorem mem_frontierPush_self (l : Frontier) (n : Node) (p : Nat) :
    (n, p) ∈ frontierPush l n p := by
  unfold frontierPush
  split
  · next h =>
    rcases List.any_eq_true.mp h with ⟨e, he, hd⟩
    have : e.1 = n := of_decide_eq_true hd
    refine List.mem_map.mpr ⟨e, he, ?_⟩
    simp [this]
  · exact List.mem_append_right _ (List.mem_singleton.mpr rfl)

theorem mem_frontierPush_elim {l : Frontier} {n : Node} {p : Nat} {e : Node × Nat}
    (h : e ∈ frontierPush l n p) : e = (n, p) ∨ e ∈ l := by
  unfold frontierPush at h
  split at h
  · rcases List.mem_map.mp h with ⟨e0, he0, heq⟩
    by_cases h1 : e0.1 = n
    · rw [if_pos h1] at heq
      exact Or.inl heq.symm
    · rw [if_neg h1] at heq
      exact Or.inr (heq ▸ he0)
  · rcases List.mem_append.mp h with h1 | h1
    · exact Or.inr h1
    · exact Or.inl (List.mem_singleton.mp h1)

theorem not_mem_fst_frontierRemove (l : Frontier) (n : Node) (p : Nat) :
    (n, p) ∉ frontierRemove l n := by
  intro h
  have := (List.mem_filter.mp h).2
  simp at this

theorem mem_frontierRemove_elim {l : Frontier} {n : Node} {e : Node × Nat}
    (h : e ∈ frontierRemove l n) : e ∈ l ∧ e.1 ≠ n := by
  have := List.mem_filter.mp h
  exact ⟨this.1, by simpa using this.2⟩

/-- Claim C10: with start equal to the destination, `a_star` succeeds on the
first pop with the single-state path and cost 0, for every map and every
block, walkable or not. -/
theorem claim_C10 (m : Map) (b : Block) (fuel : Nat) (h : 1 ≤ fuel) :
    a_star fuel m b b =
      some (Except.ok
        { states := [{ location := b }]
          map := m.enter_solution [b]
          cost := 0 }) := by
  obtain ⟨k, rfl⟩ : ∃ k, fuel = k + 1 := ⟨fuel - 1, by omega⟩
  simp [a_star, astarLoop, initialSearchState, frontierPop, firstNode, Solution.new,
    Node.get_steps]

/-- Witness for C10: a 1×1 map whose only block is a non-walkable black cell. -/
theorem claim_C10_witness :
    1 ≤ 5 ∧
    a_star 5 { width := 1, height := 1, blocks := [[⟨0, 0, BlockType.Black⟩]] }
        ⟨0, 0, BlockType.Black⟩ ⟨0, 0, BlockType.Black⟩ =
      some (Except.ok
        { states := [{ location := ⟨0, 0, BlockType.Black⟩ }]
          map := Map.enter_solution
            { width := 1, height := 1, blocks := [[⟨0, 0, BlockType.Black⟩]] }
            [⟨0, 0, BlockType.Black⟩]
          cost := 0 }) :=
  ⟨by decide,
   claim_C10 { width := 1, height := 1, blocks := [[⟨0, 0, BlockType.Black⟩]] }
     ⟨0, 0, BlockType.Black⟩ 5 (by decide)⟩

/-- Claim C2: processing one traversable neighbour in the expansion loop
inserts a fresh child into both the reached index and the frontier when the
neighbour state is unreached; when it is reached with a strictly cheaper new
accumulated cost, the old node leaves the frontier and the child replaces it
in both structures at its new `f` value; otherwise both structures are left
unchanged. -/
theorem claim_C2 (dest : Block) (node : Node) (st : SearchState) (action : Block) :
    (reachedFind st.reached { location := action } = none →
      reachedFind (expandNeighbor dest node st action).reached { location := action } =
          some (node.child { location := action } (u32 (node.cost + action.speed32))) ∧
        (node.child { location := action } (u32 (node.cost + action.speed32)),
            (node.child { location := action } (u32 (node.cost + action.speed32))).fval dest) ∈
          (expandNeighbor dest node st action).frontier) ∧
    (∀ old, reachedFind st.reached { location := action } = some old →
      ((node.child { location := action } (u32 (node.cost + action.speed32))).cost < old.cost →
        reachedFind (expandNeighbor dest node st action).reached { location := action } =
            some (node.child { location := action } (u32 (node.cost + action.speed32))) ∧
          (∀ p, (old, p) ∉ (expandNeighbor dest node st action).frontier) ∧
          (node.child { location := action } (u32 (node.cost + action.speed32)),
              (node.child { location := action } (u32 (node.cost + action.speed32))).fval dest) ∈
            (expandNeighbor dest node st action).frontier) ∧
      (¬ (node.child { location := action } (u32 (node.cost + action.speed32))).cost < old.cost →
        expandNeighbor dest node st action = st)) := by
  constructor
  · intro hnone
    unfold expandNeighbor
    simp only [hnone]
    exact ⟨reachedFind_insert_self _ _ _, mem_frontierPush_self _ _ _⟩
  · intro old hold
    constructor
    · intro hlt
      unfold expandNeighbor
      simp only [hold, if_pos hlt]
      refine ⟨reachedFind_insert_self _ _ _, ?_, mem_frontierPush_self _ _ _⟩
      intro p hp
      have hne : node.child { location := action } (u32 (node.cost + action.speed32)) ≠ old := by
        intro he
        rw [he] at hlt
        omega
      rcases mem_frontierPush_elim hp with h1 | h1
      · exact hne (congrArg Prod.fst h1).symm
      · exact (mem_frontierRemove_elim h1).2 rfl
    · intro hge
      unfold expandNeighbor
      simp only [hold, if_neg hge]

/-- Witness for C2: an unreached green neighbour of the start node is inserted
into both structures. -/
theorem claim_C2_witness :
    reachedFind ({ frontier := [], reached := [] } : SearchState).reached
        { location := ⟨1, 0, BlockType.Green⟩ } = none ∧
      (reachedFind
          (expandNeighbor ⟨2, 0, BlockType.Green⟩ (firstNode ⟨0, 0, BlockType.Green⟩)
            { frontier := [], reached := [] } ⟨1, 0, BlockType.Green⟩).reached
          { location := ⟨1, 0, BlockType.Green⟩ } =
        some ((firstNode ⟨0, 0, BlockType.Green⟩).child { location := ⟨1, 0, BlockType.Green⟩ }
          (u32 ((firstNode ⟨0, 0, BlockType.Green⟩).cost +
            Block.speed32 ⟨1, 0, BlockType.Green⟩))) ∧
      ((firstNode ⟨0, 0, BlockType.Green⟩).child { location := ⟨1, 0, BlockType.Green⟩ }
          (u32 ((firstNode ⟨0, 0, BlockType.Green⟩).cost +
            Block.speed32 ⟨1, 0, BlockType.Green⟩)),
        ((firstNode ⟨0, 0, BlockType.Green⟩).child { location := ⟨1, 0, BlockType.Green⟩ }
          (u32 ((firstNode ⟨0, 0, BlockType.Green⟩).cost +
            Block.speed32 ⟨1, 0, BlockType.Green⟩))).fval ⟨2, 0, BlockType.Green⟩) ∈
        (expandNeighbor ⟨2, 0, BlockType.Green⟩ (firstNode ⟨0, 0, BlockType.Green⟩)
          { frontier := [], reached := [] } ⟨1, 0, BlockType.Green⟩).frontier) :=
  ⟨rfl,
   (claim_C2 ⟨2, 0, BlockType.Green⟩ (firstNode ⟨0, 0, BlockType.Green⟩)
     { frontier := [], reached := [] } ⟨1, 0, BlockType.Green⟩).1 rfl⟩

/-- Claim C6 counterexample: a `Border` block carries the infinite sentinel
cost (`usize::MAX`) yet is walkable and is returned as a traversable
neighbour by `get_reachable`, so "traversable iff cost is not the infinite
sentinel" fails. -/
theorem claim_C6_counterexample :
    Block.is_walkable ⟨1, 0, BlockType.Border⟩ = true ∧
      Block.speed ⟨1, 0, BlockType.Border⟩ = usizeMax ∧
      ⟨1, 0, BlockType.Border⟩ ∈
        Map.get_reachable
          { width := 2, height := 1
            blocks := [[⟨0, 0, BlockType.Green⟩, ⟨1, 0, BlockType.Border⟩]] } 0 0 := by
  refine ⟨rfl, rfl, ?_⟩
  decide

/-- Claim C6 (amended): a cell is treated as traversable iff its category is
neither `Black` nor `White`; every non-traversable cell carries the infinite
sentinel cost, but among traversable cells the `Border` and `Solution`
categories carry the sentinel as well, so sentinel cost does not imply
non-traversability. -/
theorem claim_C6 (b : Block) :
    (b.is_walkable = true ↔
        (b.block_type ≠ BlockType.Black ∧ b.block_type ≠ BlockType.White)) ∧
      (b.is_walkable = false → b.speed = usizeMax) ∧
      (b.is_walkable = true →
        (b.speed = usizeMax ↔
          (b.block_type = BlockType.Border ∨ b.block_type = BlockType.Solution))) ∧
      (∀ m x y, b ∈ Map.get_reachable m x y → b.is_walkable = true) := by
  refine ⟨?_, ?_, ?_, ?_⟩
  · cases b with
    | mk x y t => cases t <;> simp [Block.is_walkable]
  · cases b with
    | mk x y t => cases t <;> simp [Block.is_walkable, Block.speed]
  · cases b with
    | mk x y t =>
      cases t <;> simp [Block.is_walkable, Block.speed, usizeMax]
  · intro m x y hmem
    exact (List.mem_filter.mp hmem).2

/-- Witness for C6 (amended): the green cell at the origin is walkable and its
cost is not the sentinel. -/
theorem claim_C6_witness :
    Block.is_walkable ⟨0, 0, BlockType.Green⟩ = true ∧
      (Block.speed ⟨0, 0, BlockType.Green⟩ = usizeMax ↔
        ((⟨0, 0, BlockType.Green⟩ : Block).block_type = BlockType.Border ∨
          (⟨0, 0, BlockType.Green⟩ : Block).block_type = BlockType.Solution)) := by
  have h := claim_C6 ⟨0, 0, BlockType.Green⟩
  exact ⟨h.1.mpr (by decide), h.2.2.1 (h.1.mpr (by decide))⟩

/-- Claim C9 counterexample: path stamping matches by full block equality
(coordinates and category), not by coordinate.  The supplied path contains a
block with the coordinate (0,0), yet the grid cell at (0,0) is left exactly
unchanged, not retagged to `Solution`, because its category differs. -/
theorem claim_C9_counterexample :
    (∃ p ∈ ([⟨0, 0, BlockType.Green⟩] : List Block), p.x = 0 ∧ p.y = 0) ∧
      (Map.enter_solution
          { width := 1, height := 1, blocks := [[⟨0, 0, BlockType.Orange⟩]] }
          [⟨0, 0, BlockType.Green⟩]).get_block 0 0 =
        some ⟨0, 0, BlockType.Orange⟩ := by
  constructor
  · exact ⟨⟨0, 0, BlockType.Green⟩, List.mem_singleton.mpr rfl, rfl, rfl⟩
  · rfl

/-- Claim C9 (amended): path stamping retags exactly the cells that are equal
as blocks (coordinate and category together) to some member of the supplied
path, and leaves every other cell exactly unchanged; the dimensions are
untouched. -/
theorem claim_C9 (m : Map) (locations : List Block) (x y : Nat) :
    (m.enter_solution locations).get_block x y =
        (m.get_block x y).map (fun b =>
          if locations.contains b then { b with block_type := BlockType.Solution } else b) ∧
      (m.enter_solution locations).width = m.width ∧
      (m.enter_solution locations).height = m.height := by
  refine ⟨?_, rfl, rfl⟩
  cases m with
  | mk w h rows =>
    cases hrow : rows[y]? with
    | none => simp [Map.enter_solution, Map.get_block, List.getElem?_map, hrow]
    | some row =>
      cases hcol : row[x]? with
      | none => simp [Map.enter_solution, Map.get_block, List.getElem?_map, hrow, hcol]
      | some b => simp [Map.enter_solution, Map.get_block, List.getElem?_map, hrow, hcol]

/-! ### The heuristic and the frontier order (claim C8) -/

/-- The heuristic as the specification words it: the Euclidean straight-line
distance between the two coordinates, truncated to a non-negative integer
(`Nat.sqrt` is the floor of the real square root). -/
def specHeuristic (a b : Block) : Nat :=
  Nat.sqrt ((max a.x b.x - min a.x b.x) ^ 2 + (max a.y b.y - min a.y b.y) ^ 2)

/-- Every stored frontier priority is the `f` value of its node. -/
def prioritiesCorrect (dest : Block) (l : Frontier) : Prop :=
  ∀ e ∈ l, e.2 = e.1.fval dest

theorem frontierPop_eq_none {l : Frontier} (h : frontierPop l = none) : l = [] := by
  cases l with
  | nil => rfl
  | cons a tl =>
    unfold frontierPop at h
    rcases htl : frontierPop tl with _ | p
    · rw [htl] at h
      cases h
    · rw [htl] at h
      rcases p with ⟨m, others⟩
      by_cases hle : a.2 ≤ m.2 <;> simp [hle] at h

theorem frontierPop_split {l rest : Frontier} {e : Node × Nat}
    (h : frontierPop l = some (e, rest)) :
    (∃ l1 l2, l = l1 ++ e :: l2 ∧ rest = l1 ++ l2) ∧ ∀ e2 ∈ l, e.2 ≤ e2.2 := by
  induction l generalizing e rest with
  | nil => cases h
  | cons a tl ih =>
    unfold frontierPop at h
    rcases htl : frontierPop tl with _ | p
    · rw [htl] at h
      dsimp only at h
      have : tl = [] := frontierPop_eq_none htl
      subst this
      cases h
      exact ⟨⟨[], [], rfl, rfl⟩, by
        intro e2 he2
        rcases List.mem_singleton.mp he2 with rfl
        exact Nat.le_refl _⟩
    · rw [htl] at h
      rcases p with ⟨m, others⟩
      dsimp only at h
      rcases ih htl with ⟨⟨t1, t2, ht, ho⟩, hmin⟩
      by_cases hle : a.2 ≤ m.2
      · rw [if_pos hle] at h
        cases h
        refine ⟨⟨[], tl, rfl, rfl⟩, ?_⟩
        intro e2 he2
        rcases List.mem_cons.mp he2 with rfl | h2
        · exact Nat.le_refl _
        · exact Nat.le_trans hle (hmin e2 h2)
      · rw [if_neg hle] at h
        cases h
        refine ⟨⟨a :: t1, t2, by simp [ht], by simp [ho]⟩, ?_⟩
        intro e2 he2
        rcases List.mem_cons.mp he2 with rfl | h2
        · exact Nat.le_of_lt (Nat.lt_of_not_le hle)
        · exact hmin e2 h2

theorem expandNeighbor_prioritiesCorrect (dest : Block) (node : Node) (st : SearchState)
    (action : Block) (h : prioritiesCorrect dest st.frontier) :
    prioritiesCorrect dest (expandNeighbor dest node st action).frontier := by
  rcases hf : reachedFind st.reached { location := action } with _ | old
  · unfold expandNeighbor
    simp only [hf]
    intro e he
    rcases mem_frontierPush_elim he with rfl | h1
    · rfl
    · exact h e h1
  · by_cases hlt :
      (node.child { location := action } (u32 (node.cost + action.speed32))).cost < old.cost
    · unfold expandNeighbor
      simp only [hf, if_pos hlt]
      intro e he
      rcases mem_frontierPush_elim he with rfl | h1
      · rfl
      · exact h e (mem_frontierRemove_elim h1).1
    · unfold expandNeighbor
      simp only [hf, if_neg hlt]
      exact h

/-- Counterexample to C8's universal heuristic equality: the computation runs
in wrapping `i32` arithmetic, so at horizontal distance `65536` the squared
difference `65536^2 = 2^32` wraps to `0 as i32`, the radicand is `0` and the
program's heuristic is `0`, while the truncated Euclidean distance the spec
words describe is `65536`. -/
theorem claim_C8_counterexample :
    (firstNode ⟨65536, 0, BlockType.Green⟩).euclidean_distance ⟨0, 0, BlockType.Green⟩ = 0 ∧
      specHeuristic ⟨65536, 0, BlockType.Green⟩ ⟨0, 0, BlockType.Green⟩ = 65536 := by
  constructor
  · decide
  · have h : specHeuristic ⟨65536, 0, BlockType.Green⟩ ⟨0, 0, BlockType.Green⟩ =
        Nat.sqrt (65536 * 65536) := by
      unfold specHeuristic
      norm_num [pow_two]
    rw [h, Nat.sqrt_eq 65536]

/-- Claim C8, corrected: when all four coordinates are below `2^15` (so the
wrapping `i32` squaring and sum cannot overflow), the search heuristic is
exactly the truncated Euclidean straight-line distance; unconditionally,
`f` is the heuristic plus the accumulated cost, the priorities stored in the
frontier are always these `f` values (initially and through every expansion
step), and the pop operation always removes an entry of minimal stored
priority, i.e. the frontier is ordered by ascending `f`. -/
theorem claim_C8 :
    (∀ (n : Node) (dest : Block),
        n.state.location.x < 2 ^ 15 → n.state.location.y < 2 ^ 15 →
        dest.x < 2 ^ 15 → dest.y < 2 ^ 15 →
        n.euclidean_distance dest = specHeuristic n.state.location dest) ∧
      (∀ (n : Node) (dest : Block),
        n.fval dest = u32 (n.euclidean_distance dest + n.cost)) ∧
      (∀ (s d : Block), prioritiesCorrect d (initialSearchState s d).frontier) ∧
      (∀ (dest : Block) (node : Node) (st : SearchState) (action : Block),
        prioritiesCorrect dest st.frontier →
          prioritiesCorrect dest (expandNeighbor dest node st action).frontier) ∧
      (∀ (l rest : Frontier) (e : Node × Nat),
        frontierPop l = some (e, rest) → e ∈ l ∧ ∀ e2 ∈ l, e.2 ≤ e2.2) := by
  refine ⟨?_, fun n dest => rfl, ?_, expandNeighbor_prioritiesCorrect, ?_⟩
  · intro n dest hx hy hdx hdy
    unfold Node.euclidean_distance
    rw [euclidPipe_exact _ _ _ _ hx hy hdx hdy]
    unfold specHeuristic
    have h1 : ((n.state.location.x : Int) - dest.x).natAbs =
        max n.state.location.x dest.x - min n.state.location.x dest.x := by omega
    have h2 : ((n.state.location.y : Int) - dest.y).natAbs =
        max n.state.location.y dest.y - min n.state.location.y dest.y := by omega
    rw [h1, h2]
  · intro s d e he
    rcases List.mem_singleton.mp he with rfl
    rfl
  · intro l rest e h
    rcases frontierPop_split h with ⟨⟨l1, l2, hl, _⟩, hmin⟩
    exact ⟨hl ▸ List.mem_append_right l1 (List.mem_cons_self _ _), hmin⟩

/-- Witness for C8: at concrete in-range coordinates the heuristic equals the
truncated Euclidean distance, and popping a concrete two-entry frontier
removes the entry with the smaller stored priority. -/
theorem claim_C8_witness :
    (firstNode ⟨3, 0, BlockType.Green⟩).euclidean_distance ⟨0, 4, BlockType.Green⟩ =
        specHeuristic ⟨3, 0, BlockType.Green⟩ ⟨0, 4, BlockType.Green⟩ ∧
      (frontierPop
          [(firstNode ⟨0, 0, BlockType.Green⟩, 5), (firstNode ⟨1, 0, BlockType.Green⟩, 3)] =
          some ((firstNode ⟨1, 0, BlockType.Green⟩, 3),
            [(firstNode ⟨0, 0, BlockType.Green⟩, 5)]) ∧
        ((firstNode ⟨1, 0, BlockType.Green⟩, 3) ∈
            ([(firstNode ⟨0, 0, BlockType.Green⟩, 5), (firstNode ⟨1, 0, BlockType.Green⟩, 3)] :
              Frontier) ∧
          ∀ e2 ∈ ([(firstNode ⟨0, 0, BlockType.Green⟩, 5),
              (firstNode ⟨1, 0, BlockType.Green⟩, 3)] : Frontier),
            (firstNode ⟨1, 0, BlockType.Green⟩, 3).2 ≤ e2.2)) := by
  have hpop : frontierPop
      [(firstNode ⟨0, 0, BlockType.Green⟩, 5), (firstNode ⟨1, 0, BlockType.Green⟩, 3)] =
      some ((firstNode ⟨1, 0, BlockType.Green⟩, 3),
        [(firstNode ⟨0, 0, BlockType.Green⟩, 5)]) := by decide
  exact ⟨claim_C8.1 (firstNode ⟨3, 0, BlockType.Green⟩) ⟨0, 4, BlockType.Green⟩
      (by decide) (by decide) (by decide) (by decide),
    hpop,
    claim_C8.2.2.2.2
      [(firstNode ⟨0, 0, BlockType.Green⟩, 5), (firstNode ⟨1, 0, BlockType.Green⟩, 3)]
      [(firstNode ⟨0, 0, BlockType.Green⟩, 5)]
      (firstNode ⟨1, 0, BlockType.Green⟩, 3) hpop⟩

/-! ### Failure semantics of the search loop (claim C5) -/

theorem astarLoop_trace (m : Map) (d : Block) (fuel : Nat) (st : SearchState)
    (trace : List (State × Nat)) :
    astarLoop m d fuel st trace =
      ((astarLoop m d fuel st []).1, trace ++ (astarLoop m d fuel st []).2) := by
  induction fuel generalizing st trace with
  | zero => simp [astarLoop]
  | succ fuel ih =>
    unfold astarLoop
    rcases hp : frontierPop st.frontier with _ | pr
    · simp
    · rcases pr with ⟨e, rest⟩
      by_cases hd : e.1.state.location = d
      · simp [hd]
      · simp only [hd, if_false, List.nil_append]
        rw [ih _ (trace ++ [(e.1.state, e.1.cost)]), ih _ [(e.1.state, e.1.cost)]]
        simp

theorem astarLoop_error_iff (m : Map) (d : Block) (fuel : Nat) (st : SearchState)
    (r : Except String Solution) (tr : List (State × Nat))
    (h : astarLoop m d fuel st [] = (some r, tr)) :
    ((∃ msg, r = Except.error msg) ↔ ∀ e ∈ tr, e.1.location ≠ d) ∧
      (∀ msg, r = Except.error msg → msg = "There is no path") := by
  induction fuel generalizing st tr with
  | zero =>
    unfold astarLoop at h
    injection h with hfst _
    cases hfst
  | succ fuel ih =>
    unfold astarLoop at h
    rcases hp : frontierPop st.frontier with _ | pr
    · rw [hp] at h
      dsimp only at h
      injection h with hfst hsnd
      injection hfst with hr
      subst hr
      subst hsnd
      constructor
      · constructor
        · intro _ e he
          cases he
        · intro _
          exact ⟨"There is no path", rfl⟩
      · intro msg hmsg
        cases hmsg
        rfl
    · rw [hp] at h
      rcases pr with ⟨e, rest⟩
      dsimp only at h
      by_cases hd : e.1.state.location = d
      · rw [if_pos hd] at h
        injection h with hfst hsnd
        injection hfst with hr
        subst hr
        subst hsnd
        constructor
        · constructor
          · rintro ⟨msg, hmsg⟩
            cases hmsg
          · intro hall
            exact absurd hd (hall (e.1.state, e.1.cost) (List.mem_singleton.mpr rfl))
        · intro msg hmsg
          cases hmsg
      · rw [if_neg hd] at h
        rw [astarLoop_trace] at h
        injection h with hfst hsnd
        have ihres := ih
          ((m.get_reachable e.1.state.location.x e.1.state.location.y).foldl
            (expandNeighbor d e.1) { frontier := rest, reached := st.reached })
          (astarLoop m d fuel
            ((m.get_reachable e.1.state.location.x e.1.state.location.y).foldl
              (expandNeighbor d e.1) { frontier := rest, reached := st.reached }) []).2
          (by rw [← hfst])
        subst hsnd
        constructor
        · rw [ihres.1]
          constructor
          · intro hall e2 he2
            rcases List.mem_cons.mp he2 with rfl | hmem
            · exact hd
            · exact hall e2 hmem
          · intro hall e2 he2
            exact hall e2 (List.mem_cons_of_mem _ he2)
        · exact ihres.2

/-- Claim C5: a terminating `a_star` run returns a failure result exactly when
the frontier empties without any popped node carrying the goal location, the
failure is always the single not-found outcome (`"There is no path"`), and the
traced run projects to `a_star` itself. -/
theorem claim_C5 (m : Map) (s d : Block) (fuel : Nat) (r : Except String Solution)
    (h : (a_starTraced fuel m s d).1 = some r) :
    ((∃ msg, r = Except.error msg) ↔
        ∀ e ∈ (a_starTraced fuel m s d).2, e.1.location ≠ d) ∧
      (∀ msg, r = Except.error msg → msg = "There is no path") ∧
      a_star fuel m s d = some r := by
  have hh : astarLoop m d fuel (initialSearchState s d) [] =
      (some r, (a_starTraced fuel m s d).2) := Prod.ext h rfl
  have key := astarLoop_error_iff m d fuel (initialSearchState s d) r
    (a_starTraced fuel m s d).2 hh
  exact ⟨key.1, key.2, h⟩

/-- Witness for C5: a start and goal separated by a black wall produce the
not-found outcome, and no popped state carries the goal location. -/
theorem claim_C5_witness :
    (a_starTraced 10
        { width := 3, height := 1
          blocks :=
            [[⟨0, 0, BlockType.Green⟩, ⟨1, 0, BlockType.Black⟩, ⟨2, 0, BlockType.Green⟩]] }
        ⟨0, 0, BlockType.Green⟩ ⟨2, 0, BlockType.Green⟩).1 =
        some (Except.error "There is no path") ∧
      (((∃ msg, (Except.error "There is no path" : Except String Solution) =
            Except.error msg) ↔
          ∀ e ∈ (a_starTraced 10
              { width := 3, height := 1
                blocks :=
                  [[⟨0, 0, BlockType.Green⟩, ⟨1, 0, BlockType.Black⟩,
                    ⟨2, 0, BlockType.Green⟩]] }
              ⟨0, 0, BlockType.Green⟩ ⟨2, 0, BlockType.Green⟩).2,
            e.1.location ≠ ⟨2, 0, BlockType.Green⟩) ∧
        (∀ msg, (Except.error "There is no path" : Except String Solution) =
            Except.error msg → msg = "There is no path") ∧
        a_star 10
            { width := 3, height := 1
              blocks :=
                [[⟨0, 0, BlockType.Green⟩, ⟨1, 0, BlockType.Black⟩,
                  ⟨2, 0, BlockType.Green⟩]] }
            ⟨0, 0, BlockType.Green⟩ ⟨2, 0, BlockType.Green⟩ =
          some (Except.error "There is no path")) := by
  have h0 : (a_starTraced 10
      { width := 3, height := 1
        blocks :=
          [[⟨0, 0, BlockType.Green⟩, ⟨1, 0, BlockType.Black⟩, ⟨2, 0, BlockType.Green⟩]] }
      ⟨0, 0, BlockType.Green⟩ ⟨2, 0, BlockType.Green⟩).1 =
      some (Except.error "There is no path") := rfl
  exact ⟨h0,
    claim_C5
      { width := 3, height := 1
        blocks :=
          [[⟨0, 0, BlockType.Green⟩, ⟨1, 0, BlockType.Black⟩, ⟨2, 0, BlockType.Green⟩]] }
      ⟨0, 0, BlockType.Green⟩ ⟨2, 0, BlockType.Green⟩ 10
      (Except.error "There is no path") h0⟩

/-! ### Embedding of `src/maze_generation.rs` -/

/-- Embedding of `enum Wall`. -/
inductive Wall where
  | Open
  | Closed
deriving DecidableEq, Repr

/-- Embedding of `enum Color`. -/
inductive Color where
  | Blue
  | Orange
  | Yellow
  | Green
deriving DecidableEq, Repr

/-- Embedding of `struct Cell`: four wall states, coordinates and a colour. -/
structure Cell where
  top : Wall
  right : Wall
  bottom : Wall
  left : Wall
  x : Nat
  y : Nat
  color : Color
deriving DecidableEq, Repr

instance : Inhabited Cell := ⟨⟨Wall.Closed, Wall.Closed, Wall.Closed, Wall.Closed, 0, 0,
  Color.Blue⟩⟩

/-- Embedding of `Cell::new`: fully closed walls; the colour is drawn from the
random source, passed here explicitly. -/
def Cell.new (x y : Nat) (color : Color) : Cell :=
  { top := Wall.Closed, right := Wall.Closed, bottom := Wall.Closed, left := Wall.Closed
    x := x, y := y, color := color }

/-- The hand-written Rust `PartialEq for Cell` compares coordinates only. -/
def Cell.eqRust (a b : Cell) : Bool :=
  decide (a.x = b.x) && decide (a.y = b.y)

/-- Embedding of `Cell::set_color`. -/
def Cell.set_color (c : Cell) (color : Color) : Cell := { c with color := color }

/-- Embedding of `enum Relation`. -/
inductive Relation where
  | Top
  | Right
  | Bottom
  | Left
deriving DecidableEq, Repr

/-- Embedding of `Cell::relation`: where `other` sits relative to `self`,
failing when the two cells are not axis-adjacent.  The `x - 1` guards mirror
the Rust `self.x > 0 && other.x == self.x - 1` tests on `usize`. -/
def Cell.relation (self other : Cell) : Except String Relation :=
  if other.x = self.x + 1 ∧ other.y = self.y then Except.ok Relation.Right
  else if other.y = self.y + 1 ∧ other.x = self.x then Except.ok Relation.Bottom
  else if self.x > 0 ∧ other.x = self.x - 1 ∧ other.y = self.y then Except.ok Relation.Left
  else if self.y > 0 ∧ other.y = self.y - 1 ∧ other.x = self.x then Except.ok Relation.Top
  else Except.error "The other cell is not a neighbor to self"

/-- The wall update performed by `Cell::open_wall_to` once the relation is
known. -/
def Cell.openToward (c : Cell) (r : Relation) : Cell :=
  match r with
  | Relation.Top => { c with top := Wall.Open }
  | Relation.Right => { c with right := Wall.Open }
  | Relation.Bottom => { c with bottom := Wall.Open }
  | Relation.Left => { c with left := Wall.Open }

/-- Embedding of `Cell::open_wall_to`: compute the relation to `other` and
open the corresponding wall, or fail without touching the cell. -/
def Cell.open_wall_to (c other : Cell) : Except String Cell :=
  match c.relation other with
  | Except.error e => Except.error e
  | Except.ok rel => Except.ok (c.openToward rel)

/-- In-place update of the element at one index of a list. -/
def listModify (f : α → α) : Nat → List α → List α
  | _, [] => []
  | 0, a :: as => f a :: as
  | n + 1, a :: as => a :: listModify f n as

/-- Embedding of `struct MazeMap`. -/
structure MazeMap where
  width : Nat
  height : Nat
  cells : List (List Cell)
deriving DecidableEq, Repr

/-- Embedding of `MazeMap::new`: a `width × height` grid of fully closed
cells; each cell's random colour is supplied by `colorAt`. -/
def MazeMap.new (width height : Nat) (colorAt : Nat → Nat → Color) : MazeMap :=
  { width := width, height := height
    cells := (List.range height).map (fun y =>
      (List.range width).map (fun x => Cell.new x y (colorAt x y))) }

/-- Embedding of `MazeMap::get_cell`. -/
def MazeMap.get_cell (m : MazeMap) (x y : Nat) : Option Cell :=
  m.cells[y]?.bind (fun row => row[x]?)

/-- The effect of `MazeMap::get_cell_mut` followed by a field update: modify
the cell at the given position, a no-op out of range. -/
def MazeMap.modifyCell (m : MazeMap) (x y : Nat) (f : Cell → Cell) : MazeMap :=
  { m with cells := listModify (fun row => listModify f x row) y m.cells }

/-- Embedding of `MazeMap::get_neighbors`: the up-to-four existing axis
neighbours of the given cell, cloned from the map, in the order left, top,
right, bottom. -/
def MazeMap.get_neighbors (m : MazeMap) (cell : Cell) : List Cell :=
  ((if cell.x > 0 then [m.get_cell (cell.x - 1) cell.y] else []) ++
   (if cell.y > 0 then [m.get_cell cell.x (cell.y - 1)] else []) ++
   (if cell.x < m.width then [m.get_cell (cell.x + 1) cell.y] else []) ++
   (if cell.y < m.height then [m.get_cell cell.x (cell.y + 1)] else [])).filterMap id

/-- One side of `MazeMap::connect_cells`: look the first cell up by the
coordinates of `a` and open its wall toward `b`.  The Rust code mutates the
map in place, so the map produced so far is returned even on failure. -/
def MazeMap.open_wall_step (m : MazeMap) (a b : Cell) : MazeMap × Except String Unit :=
  match m.get_cell a.x a.y with
  | none => (m, Except.error "Cell is not a part of the map")
  | some ca =>
    match ca.relation b with
    | Except.error e => (m, Except.error e)
    | Except.ok rel => (m.modifyCell a.x a.y (fun c => c.openToward rel), Except.ok ())

/-- Embedding of `MazeMap::connect_cells`: open `a`'s wall toward `b`, then
`b`'s wall toward `a`; an error aborts the second step but, matching the
in-place Rust mutation, keeps whatever the first step already wrote. -/
def MazeMap.connect_cells (m : MazeMap) (a b : Cell) : MazeMap × Except String Unit :=
  match m.open_wall_step a b with
  | (m1, Except.error e) => (m1, Except.error e)
  | (m1, Except.ok _) => m1.open_wall_step b a

/-- Embedding of `LOOP_PROB_FACTOR = 6.20`. -/
def LOOP_PROB_FACTOR : ℚ := 31 / 5

/-- The probability handed to `gen_bool`:
`loop_prob.filter(!= 0).map(/ LOOP_PROB_FACTOR).unwrap_or(0.0)`. -/
def effectiveProb (lp : Option ℚ) : ℚ :=
  match lp with
  | none => 0
  | some f => if f = 0 then 0 else f / LOOP_PROB_FACTOR

/-- The random source of `generate_maze`, made explicit: a stream of colour
draws, a stream of `choose` picks and a stream of coin results. -/
structure Oracle where
  colors : Nat → Color
  pick : Nat → Nat
  coins : Nat → Bool

/-- One `rng.gen_bool(p)` draw: always false at probability zero, always true
at probability one or more, otherwise the supplied coin decides. -/
def genBool (p : ℚ) (c : Bool) : Bool :=
  if p = 0 then false else if 1 ≤ p then true else c

/-- The filter of the `unvisited_neighbors` computation: a neighbour survives
when it is unvisited (coordinate comparison, the Rust `Cell` equality), or
when the short-circuited `gen_bool` draw — consumed only for visited
neighbours — comes up true.  Returns the survivors and the advanced coin
counter. -/
def candidateFilter (p : ℚ) (coins : Nat → Bool) (visited : List Cell) :
    List Cell → Nat → List Cell × Nat
  | [], k => ([], k)
  | c :: cs, k =>
    if visited.any (fun d => d.eqRust c) then
      let keep := genBool p (coins k)
      let r := candidateFilter p coins visited cs (k + 1)
      (if keep then c :: r.1 else r.1, r.2)
    else
      let r := candidateFilter p coins visited cs k
      (c :: r.1, r.2)

/-- The mutable state of the `generate_maze` loop, with the oracle counters. -/
structure GenState where
  map : MazeMap
  stack : List Cell
  visited : List Cell
  color : Color
  nColor : Nat
  nPick : Nat
  nCoin : Nat
deriving Repr

/-- Embedding of the `while let Some(current_cell) = stack.pop()` loop of
`generate_maze`, on explicit fuel (`none` = fuel exhausted).  Note the Rust
loop pops the stack, filters the neighbours, and either reconnects (pushing
the popped cell back and the chosen one on top, recolouring the current cell
and appending the chosen cell to `visited`) or backtracks and redraws the
region colour. -/
def genLoop (oracle : Oracle) (p : ℚ) : Nat → GenState → Option (Except String MazeMap)
  | 0, _ => none
  | fuel + 1, st =>
    match st.stack with
    | [] => some (Except.ok st.map)
    | current :: restStack =>
      let flt := candidateFilter p oracle.coins st.visited
        (st.map.get_neighbors current) st.nCoin
      match flt.1 with
      | [] =>
        genLoop oracle p fuel
          { st with
            stack := restStack
            color := oracle.colors st.nColor
            nColor := st.nColor + 1
            nCoin := flt.2 }
      | c0 :: cs =>
        let chosen := (c0 :: cs).getD (oracle.pick st.nPick % (c0 :: cs).length) default
        match st.map.connect_cells current chosen with
        | (_, Except.error e) => some (Except.error e)
        | (m1, Except.ok _) =>
          genLoop oracle p fuel
            { map := m1.modifyCell current.x current.y (fun c => c.set_color st.color)
              stack := chosen :: current :: restStack
              visited := st.visited ++ [chosen]
              color := st.color
              nColor := st.nColor
              nPick := st.nPick + 1
              nCoin := flt.2 }

/-- Embedding of `generate_maze` (src/maze_generation.rs lines 183-228), with
explicit fuel and oracle.  The initial cell colours use the first
`width*height` colour draws, the initial region colour the next one. -/
def generate_maze (fuel : Nat) (oracle : Oracle) (width height : Nat)
    (loop_prob : Option ℚ) : Option (Except String MazeMap) :=
  let m := MazeMap.new width height (fun x y => oracle.colors (y * width + x))
  match m.get_cell 0 0 with
  | none => some (Except.error "The maze must at least have the dimensions 1x1")
  | some first =>
    genLoop oracle (effectiveProb loop_prob) fuel
      { map := m, stack := [first], visited := [first]
        color := oracle.colors (width * height), nColor := width * height + 1
        nPick := 0, nCoin := 0 }

/-! ### Positions, directions and the wall-consistency invariant -/

/-- The opposite direction. -/
def Relation.opposite : Relation → Relation
  | Relation.Top => Relation.Bottom
  | Relation.Right => Relation.Left
  | Relation.Bottom => Relation.Top
  | Relation.Left => Relation.Right

/-- The wall of a cell facing a given direction. -/
def Cell.wallOf (c : Cell) : Relation → Wall
  | Relation.Top => c.top
  | Relation.Right => c.right
  | Relation.Bottom => c.bottom
  | Relation.Left => c.left

/-- The grid position one step in a direction, `none` when it would leave the
quadrant. -/
def posToward (x y : Nat) : Relation → Option (Nat × Nat)
  | Relation.Top => if y > 0 then some (x, y - 1) else none
  | Relation.Right => some (x + 1, y)
  | Relation.Bottom => some (x, y + 1)
  | Relation.Left => if x > 0 then some (x - 1, y) else none

/-- Every cell of the map records its own position as its coordinates. -/
def coordsOk (m : MazeMap) : Prop :=
  ∀ x y c, m.get_cell x y = some c → c.x = x ∧ c.y = y

/-- The invariant of claim C4: the wall states of every pair of adjacent cells
of the maze agree (a cell is never `Open` toward an in-map neighbour that is
`Closed` back toward it). -/
def wallConsistent (m : MazeMap) : Prop :=
  ∀ x y d a p b, m.get_cell x y = some a → posToward x y d = some p →
    m.get_cell p.1 p.2 = some b → a.wallOf d = b.wallOf d.opposite

theorem opposite_opposite (d : Relation) : d.opposite.opposite = d := by
  cases d <;> rfl

theorem posToward_ne_self {x y : Nat} {d : Relation} {p : Nat × Nat}
    (h : posToward x y d = some p) : p ≠ (x, y) := by
  cases d with
  | Top =>
    unfold posToward at h
    by_cases hy : y > 0
    · rw [if_pos hy] at h
      injection h with h
      subst h
      intro hc
      have := congrArg Prod.snd hc
      simp at this
      omega
    · rw [if_neg hy] at h
      cases h
  | Right =>
    unfold posToward at h
    injection h with h
    subst h
    intro hc
    have := congrArg Prod.fst hc
    simp at this
  | Bottom =>
    unfold posToward at h
    injection h with h
    subst h
    intro hc
    have := congrArg Prod.snd hc
    simp at this
  | Left =>
    unfold posToward at h
    by_cases hx : x > 0
    · rw [if_pos hx] at h
      injection h with h
      subst h
      intro hc
      have := congrArg Prod.fst hc
      simp at this
      omega
    · rw [if_neg hx] at h
      cases h

theorem posToward_opposite {x y : Nat} {d : Relation} {p : Nat × Nat}
    (h : posToward x y d = some p) : posToward p.1 p.2 d.opposite = some (x, y) := by
  cases d with
  | Top =>
    unfold posToward at h
    by_cases hy : y > 0
    · rw [if_pos hy] at h
      injection h with h
      subst h
      show posToward x (y - 1) Relation.Bottom = some (x, y)
      unfold posToward
      rw [Nat.sub_add_cancel hy]
    · rw [if_neg hy] at h
      cases h
  | Right =>
    unfold posToward at h
    injection h with h
    subst h
    show posToward (x + 1) y Relation.Left = some (x, y)
    unfold posToward
    rw [if_pos (Nat.succ_pos x)]
    simp
  | Bottom =>
    unfold posToward at h
    injection h with h
    subst h
    show posToward x (y + 1) Relation.Top = some (x, y)
    unfold posToward
    rw [if_pos (Nat.succ_pos y)]
    simp
  | Left =>
    unfold posToward at h
    by_cases hx : x > 0
    · rw [if_pos hx] at h
      injection h with h
      subst h
      show posToward (x - 1) y Relation.Right = some (x, y)
      unfold posToward
      rw [Nat.sub_add_cancel hx]
    · rw [if_neg hx] at h
      cases h

theorem wallOf_openToward (c : Cell) (r d : Relation) :
    (c.openToward r).wallOf d = if d = r then Wall.Open else c.wallOf d := by
  cases r <;> cases d <;> simp [Cell.openToward, Cell.wallOf]

theorem openToward_coords (c : Cell) (r : Relation) :
    (c.openToward r).x = c.x ∧ (c.openToward r).y = c.y := by
  cases r <;> simp [Cell.openToward]

theorem listModify_getElem? (f : α → α) (n : Nat) (l : List α) (i : Nat) :
    (listModify f n l)[i]? = if i = n then l[i]?.map f else l[i]? := by
  induction l generalizing n i with
  | nil => simp [listModify]
  | cons a as ih =>
    cases n with
    | zero =>
      cases i with
      | zero => simp [listModify]
      | succ j => simp [listModify]
    | succ k =>
      cases i with
      | zero => simp [listModify]
      | succ j =>
        simp only [listModify, List.getElem?_cons_succ, ih k j]
        by_cases hjk : j = k <;> simp [hjk]

theorem get_cell_modifyCell (m : MazeMap) (x y : Nat) (f : Cell → Cell) (x2 y2 : Nat) :
    (m.modifyCell x y f).get_cell x2 y2 =
      if x2 = x ∧ y2 = y then (m.get_cell x y).map f else m.get_cell x2 y2 := by
  unfold MazeMap.get_cell MazeMap.modifyCell
  dsimp only
  rw [listModify_getElem?]
  by_cases hy : y2 = y
  · subst hy
    rw [if_pos rfl]
    by_cases hx : x2 = x
    · subst hx
      rw [if_pos ⟨rfl, rfl⟩]
      cases m.cells[y2]? with
      | none => rfl
      | some row =>
        show (listModify f x2 row)[x2]? = (row[x2]?).map f
        rw [listModify_getElem?, if_pos rfl]
    · rw [if_neg (fun hc => hx hc.1)]
      cases m.cells[y2]? with
      | none => rfl
      | some row =>
        show (listModify f x row)[x2]? = row[x2]?
        rw [listModify_getElem?, if_neg hx]
  · rw [if_neg hy, if_neg (fun hc => hy hc.2)]

theorem coordsOk_modifyCell {m : MazeMap} (h : coordsOk m) (x y : Nat) {f : Cell → Cell}
    (hf : ∀ c, (f c).x = c.x ∧ (f c).y = c.y) : coordsOk (m.modifyCell x y f) := by
  intro x2 y2 c hc
  rw [get_cell_modifyCell] at hc
  by_cases hxy : x2 = x ∧ y2 = y
  · rw [if_pos hxy] at hc
    rcases Option.map_eq_some.mp hc with ⟨c0, hc0, rfl⟩
    rcases h x2 y2 c0 (by rw [hxy.1, hxy.2]; exact hc0) with ⟨h1, h2⟩
    rcases hf c0 with ⟨h3, h4⟩
    exact ⟨by rw [h3, h1], by rw [h4, h2]⟩
  · rw [if_neg hxy] at hc
    exact h x2 y2 c hc

theorem opposite_inj {d1 d2 : Relation} (h : d1.opposite = d2.opposite) : d1 = d2 := by
  cases d1 <;> cases d2 <;> first | rfl | cases h

theorem wallOf_new (x y : Nat) (color : Color) (d : Relation) :
    (Cell.new x y color).wallOf d = Wall.Closed := by
  cases d <;> rfl

theorem get_cell_new (w h : Nat) (colorAt : Nat → Nat → Color) (x y : Nat) :
    (MazeMap.new w h colorAt).get_cell x y =
      if x < w ∧ y < h then some (Cell.new x y (colorAt x y)) else none := by
  unfold MazeMap.new MazeMap.get_cell
  rw [List.getElem?_map]
  by_cases hy : y < h
  · rw [List.getElem?_range hy]
    show ((List.range w).map (fun x2 => Cell.new x2 y (colorAt x2 y)))[x]? = _
    rw [List.getElem?_map]
    by_cases hx : x < w
    · rw [List.getElem?_range hx, if_pos ⟨hx, hy⟩]
      rfl
    · rw [List.getElem?_eq_none (by simpa using Nat.le_of_not_lt hx),
        if_neg (fun hc => hx hc.1)]
      rfl
  · rw [List.getElem?_eq_none (by simpa using Nat.le_of_not_lt hy),
      if_neg (fun hc => hy hc.2)]
    rfl

theorem coordsOk_new (w h : Nat) (colorAt : Nat → Nat → Color) :
    coordsOk (MazeMap.new w h colorAt) := by
  intro x y c hc
  rw [get_cell_new] at hc
  by_cases hb : x < w ∧ y < h
  · rw [if_pos hb] at hc
    injection hc with hc
    subst hc
    exact ⟨rfl, rfl⟩
  · rw [if_neg hb] at hc
    cases hc

theorem wallConsistent_new (w h : Nat) (colorAt : Nat → Nat → Color) :
    wallConsistent (MazeMap.new w h colorAt) := by
  intro x y d a p b hga hp hgb
  rw [get_cell_new] at hga hgb
  by_cases h1 : x < w ∧ y < h
  · rw [if_pos h1] at hga
    injection hga with hga
    by_cases h2 : p.1 < w ∧ p.2 < h
    · rw [if_pos h2] at hgb
      injection hgb with hgb
      rw [← hga, ← hgb, wallOf_new, wallOf_new]
    · rw [if_neg h2] at hgb
      cases hgb
  · rw [if_neg h1] at hga
    cases hga

theorem relation_ok_posToward {ca b : Cell} {rel : Relation}
    (h : ca.relation b = Except.ok rel) :
    posToward ca.x ca.y rel = some (b.x, b.y) := by
  unfold Cell.relation at h
  by_cases h1 : b.x = ca.x + 1 ∧ b.y = ca.y
  · rw [if_pos h1] at h
    injection h with h
    subst h
    unfold posToward
    rw [h1.1, h1.2]
  · rw [if_neg h1] at h
    by_cases h2 : b.y = ca.y + 1 ∧ b.x = ca.x
    · rw [if_pos h2] at h
      injection h with h
      subst h
      unfold posToward
      rw [h2.1, h2.2]
    · rw [if_neg h2] at h
      by_cases h3 : ca.x > 0 ∧ b.x = ca.x - 1 ∧ b.y = ca.y
      · rw [if_pos h3] at h
        injection h with h
        subst h
        unfold posToward
        rw [if_pos h3.1, h3.2.1, h3.2.2]
      · rw [if_neg h3] at h
        by_cases h4 : ca.y > 0 ∧ b.y = ca.y - 1 ∧ b.x = ca.x
        · rw [if_pos h4] at h
          injection h with h
          subst h
          unfold posToward
          rw [if_pos h4.1, h4.2.1, h4.2.2]
        · rw [if_neg h4] at h
          cases h

theorem relation_opposite {cb a : Cell} {rel : Relation}
    (h : posToward a.x a.y rel = some (cb.x, cb.y)) :
    cb.relation a = Except.ok rel.opposite := by
  cases rel with
  | Top =>
    unfold posToward at h
    by_cases hy : a.y > 0
    · rw [if_pos hy] at h
      injection h with h
      have hx : a.x = cb.x := congrArg Prod.fst h
      have hy2 : a.y - 1 = cb.y := congrArg Prod.snd h
      unfold Cell.relation
      rw [if_neg (by omega), if_pos (by omega)]
      rfl
    · rw [if_neg hy] at h
      cases h
  | Right =>
    unfold posToward at h
    injection h with h
    have hx : a.x + 1 = cb.x := congrArg Prod.fst h
    have hy : a.y = cb.y := congrArg Prod.snd h
    unfold Cell.relation
    rw [if_neg (by omega), if_neg (by omega), if_pos (by omega)]
    rfl
  | Bottom =>
    unfold posToward at h
    injection h with h
    have hx : a.x = cb.x := congrArg Prod.fst h
    have hy : a.y + 1 = cb.y := congrArg Prod.snd h
    unfold Cell.relation
    rw [if_neg (by omega), if_neg (by omega), if_neg (by omega), if_pos (by omega)]
    rfl
  | Left =>
    unfold posToward at h
    by_cases hx : a.x > 0
    · rw [if_pos hx] at h
      injection h with h
      have hx2 : a.x - 1 = cb.x := congrArg Prod.fst h
      have hy : a.y = cb.y := congrArg Prod.snd h
      unfold Cell.relation
      rw [if_pos (by omega)]
      rfl
    · rw [if_neg hx] at h
      cases h

theorem wallConsistent_open_absent {m : MazeMap} (hc : wallConsistent m) {x y : Nat}
    {r : Relation} {p : Nat × Nat}
    (hp : posToward x y r = some p) (habs : m.get_cell p.1 p.2 = none) :
    wallConsistent (m.modifyCell x y (fun c => c.openToward r)) := by
  intro x2 y2 d a q b hga hq hgb
  rw [get_cell_modifyCell] at hga hgb
  by_cases h1 : x2 = x ∧ y2 = y
  · rw [if_pos h1] at hga
    rcases Option.map_eq_some'.mp hga with ⟨a0, ha0, rfl⟩
    have ha0x : m.get_cell x2 y2 = some a0 := by rw [h1.1, h1.2]; exact ha0
    by_cases h2 : q.1 = x ∧ q.2 = y
    · exfalso
      apply posToward_ne_self hq
      have hqxy : q = (x, y) := Prod.ext h2.1 h2.2
      rw [hqxy, h1.1, h1.2]
    · rw [if_neg h2] at hgb
      by_cases hd : d = r
      · exfalso
        subst hd
        have hq2 : posToward x y d = some q := by rw [← h1.1, ← h1.2]; exact hq
        rw [hp] at hq2
        injection hq2 with hq2
        rw [hq2] at habs
        rw [habs] at hgb
        cases hgb
      · rw [wallOf_openToward, if_neg hd]
        exact hc x2 y2 d a0 q b ha0x hq hgb
  · rw [if_neg h1] at hga
    by_cases h2 : q.1 = x ∧ q.2 = y
    · rw [if_pos h2] at hgb
      rcases Option.map_eq_some'.mp hgb with ⟨b0, hb0, rfl⟩
      have hb0x : m.get_cell q.1 q.2 = some b0 := by rw [h2.1, h2.2]; exact hb0
      by_cases hd : d.opposite = r
      · exfalso
        have hqo := posToward_opposite hq
        have hq0 : q = (x, y) := Prod.ext h2.1 h2.2
        rw [hq0] at hqo
        dsimp only at hqo
        rw [hd, hp] at hqo
        injection hqo with hqo
        rw [hqo] at habs
        dsimp only at habs
        rw [habs] at hga
        cases hga
      · rw [wallOf_openToward, if_neg hd]
        exact hc x2 y2 d a q b0 hga hq hb0x
    · rw [if_neg h2] at hgb
      exact hc x2 y2 d a q b hga hq hgb

theorem wallConsistent_open_pair {m : MazeMap} (hc : wallConsistent m) {x y : Nat}
    {r : Relation} {p : Nat × Nat} (hp : posToward x y r = some p) :
    wallConsistent
      ((m.modifyCell x y (fun c => c.openToward r)).modifyCell p.1 p.2
        (fun c => c.openToward r.opposite)) := by
  have hne : p ≠ (x, y) := posToward_ne_self hp
  have hpo : posToward p.1 p.2 r.opposite = some (x, y) := posToward_opposite hp
  have hval : ∀ u v,
      ((m.modifyCell x y (fun c => c.openToward r)).modifyCell p.1 p.2
        (fun c => c.openToward r.opposite)).get_cell u v =
      if u = p.1 ∧ v = p.2 then
        (m.get_cell p.1 p.2).map (fun c => c.openToward r.opposite)
      else if u = x ∧ v = y then (m.get_cell x y).map (fun c => c.openToward r)
      else m.get_cell u v := by
    intro u v
    rw [get_cell_modifyCell]
    by_cases h1 : u = p.1 ∧ v = p.2
    · rw [if_pos h1, if_pos h1, get_cell_modifyCell,
        if_neg (fun hcxy => hne (Prod.ext hcxy.1 hcxy.2))]
    · rw [if_neg h1, if_neg h1, get_cell_modifyCell]
  intro x2 y2 d a q b hga hq hgb
  rw [hval] at hga hgb
  have hnself := posToward_ne_self hq
  by_cases hA : x2 = p.1 ∧ y2 = p.2
  · rw [if_pos hA] at hga
    rcases Option.map_eq_some'.mp hga with ⟨a0, ha0, rfl⟩
    have ha0x : m.get_cell x2 y2 = some a0 := by rw [hA.1, hA.2]; exact ha0
    by_cases hqB : q.1 = p.1 ∧ q.2 = p.2
    · refine absurd ?_ hnself
      rw [hA.1, hA.2]
      exact Prod.ext hqB.1 hqB.2
    · rw [if_neg hqB] at hgb
      by_cases hqA : q.1 = x ∧ q.2 = y
      · rw [if_pos hqA] at hgb
        rcases Option.map_eq_some'.mp hgb with ⟨b0, hb0, rfl⟩
        have hb0x : m.get_cell q.1 q.2 = some b0 := by rw [hqA.1, hqA.2]; exact hb0
        by_cases hd : d = r.opposite
        · subst hd
          rw [wallOf_openToward, if_pos rfl, wallOf_openToward, opposite_opposite,
            if_pos rfl]
        · rw [wallOf_openToward, if_neg hd, wallOf_openToward,
            if_neg (fun hc2 => hd (by rw [← opposite_opposite d, hc2]))]
          exact hc x2 y2 d a0 q b0 ha0x hq hb0x
      · rw [if_neg hqA] at hgb
        by_cases hd : d = r.opposite
        · exfalso
          subst hd
          have hq2 : posToward p.1 p.2 r.opposite = some q := by
            rw [← hA.1, ← hA.2]; exact hq
          rw [hpo] at hq2
          injection hq2 with hq2
          exact hqA ⟨by rw [← hq2], by rw [← hq2]⟩
        · rw [wallOf_openToward, if_neg hd]
          exact hc x2 y2 d a0 q b ha0x hq hgb
  · rw [if_neg hA] at hga
    by_cases hB : x2 = x ∧ y2 = y
    · rw [if_pos hB] at hga
      rcases Option.map_eq_some'.mp hga with ⟨a0, ha0, rfl⟩
      have ha0x : m.get_cell x2 y2 = some a0 := by rw [hB.1, hB.2]; exact ha0
      by_cases hqB : q.1 = p.1 ∧ q.2 = p.2
      · rw [if_pos hqB] at hgb
        rcases Option.map_eq_some'.mp hgb with ⟨b0, hb0, rfl⟩
        have hb0x : m.get_cell q.1 q.2 = some b0 := by rw [hqB.1, hqB.2]; exact hb0
        by_cases hd : d = r
        · subst hd
          rw [wallOf_openToward, if_pos rfl, wallOf_openToward, if_pos rfl]
        · rw [wallOf_openToward, if_neg hd, wallOf_openToward,
            if_neg (fun hc2 => hd (opposite_inj hc2))]
          exact hc x2 y2 d a0 q b0 ha0x hq hb0x
      · rw [if_neg hqB] at hgb
        by_cases hqA : q.1 = x ∧ q.2 = y
        · refine absurd ?_ hnself
          rw [hB.1, hB.2]
          exact Prod.ext hqA.1 hqA.2
        · rw [if_neg hqA] at hgb
          by_cases hd : d = r
          · exfalso
            subst hd
            have hq2 : posToward x y d = some q := by rw [← hB.1, ← hB.2]; exact hq
            rw [hp] at hq2
            injection hq2 with hq2
            exact hqB ⟨by rw [← hq2], by rw [← hq2]⟩
          · rw [wallOf_openToward, if_neg hd]
            exact hc x2 y2 d a0 q b ha0x hq hgb
    · rw [if_neg hB] at hga
      by_cases hqB : q.1 = p.1 ∧ q.2 = p.2
      · rw [if_pos hqB] at hgb
        rcases Option.map_eq_some'.mp hgb with ⟨b0, hb0, rfl⟩
        have hb0x : m.get_cell q.1 q.2 = some b0 := by rw [hqB.1, hqB.2]; exact hb0
        by_cases hd : d = r
        · exfalso
          subst hd
          have hqo := posToward_opposite hq
          have hq0 : q = p := Prod.ext hqB.1 hqB.2
          rw [hq0] at hqo
          rw [hpo] at hqo
          injection hqo with hqo
          exact hB ⟨congrArg Prod.fst hqo.symm, congrArg Prod.snd hqo.symm⟩
        · rw [wallOf_openToward, if_neg (fun hc2 => hd (opposite_inj hc2))]
          exact hc x2 y2 d a q b0 hga hq hb0x
      · rw [if_neg hqB] at hgb
        by_cases hqA : q.1 = x ∧ q.2 = y
        · rw [if_pos hqA] at hgb
          rcases Option.map_eq_some'.mp hgb with ⟨b0, hb0, rfl⟩
          have hb0x : m.get_cell q.1 q.2 = some b0 := by rw [hqA.1, hqA.2]; exact hb0
          by_cases hd : d.opposite = r
          · exfalso
            have hqo := posToward_opposite hq
            have hq0 : q = (x, y) := Prod.ext hqA.1 hqA.2
            rw [hq0] at hqo
            dsimp only at hqo
            rw [hd, hp] at hqo
            injection hqo with hqo
            exact hA ⟨congrArg Prod.fst hqo.symm, congrArg Prod.snd hqo.symm⟩
          · rw [wallOf_openToward, if_neg hd]
            exact hc x2 y2 d a q b0 hga hq hb0x
        · rw [if_neg hqA] at hgb
          exact hc x2 y2 d a q b hga hq hgb

theorem connect_cells_preserves {m : MazeMap} (hco : coordsOk m) (hwc : wallConsistent m)
    (a b : Cell) :
    coordsOk (m.connect_cells a b).1 ∧ wallConsistent (m.connect_cells a b).1 := by
  unfold MazeMap.connect_cells MazeMap.open_wall_step
  cases hga : m.get_cell a.x a.y with
  | none =>
    dsimp only
    exact ⟨hco, hwc⟩
  | some ca =>
    dsimp only
    cases hrel : ca.relation b with
    | error e =>
      dsimp only
      exact ⟨hco, hwc⟩
    | ok rel =>
      dsimp only
      have hcoords := hco a.x a.y ca hga
      have hpos : posToward a.x a.y rel = some (b.x, b.y) := by
        have h0 := relation_ok_posToward hrel
        rw [hcoords.1, hcoords.2] at h0
        exact h0
      have hco1 : coordsOk (m.modifyCell a.x a.y (fun c => c.openToward rel)) :=
        coordsOk_modifyCell hco _ _ (fun c => openToward_coords c rel)
      cases hgb : (m.modifyCell a.x a.y (fun c => c.openToward rel)).get_cell b.x b.y with
      | none =>
        dsimp only
        refine ⟨hco1, ?_⟩
        have habs : m.get_cell b.x b.y = none := by
          rw [get_cell_modifyCell] at hgb
          by_cases hxy : b.x = a.x ∧ b.y = a.y
          · exact absurd (Prod.ext hxy.1 hxy.2) (posToward_ne_self hpos)
          · rw [if_neg hxy] at hgb
            exact hgb
        exact wallConsistent_open_absent hwc hpos habs
      | some cb =>
        dsimp only
        have hcb := hco1 b.x b.y cb hgb
        have hrelb : cb.relation a = Except.ok rel.opposite := by
          apply relation_opposite
          rw [hcb.1, hcb.2]
          exact hpos
        rw [hrelb]
        dsimp only
        exact ⟨coordsOk_modifyCell hco1 _ _ (fun c => openToward_coords c rel.opposite),
          wallConsistent_open_pair hwc hpos⟩

/-- Claim C4: starting from a freshly built (fully closed) maze, after any
sequence of connect-operations — including failed ones, which may open at
most a wall facing outside the map — the wall states of every pair of
adjacent maze cells are mutually consistent: no cell is `Open` toward an
in-map neighbour that is `Closed` back toward it. -/
theorem claim_C4 (w h : Nat) (colorAt : Nat → Nat → Color) (ops : List (Cell × Cell)) :
    wallConsistent
      (ops.foldl (fun m pr => (m.connect_cells pr.1 pr.2).1) (MazeMap.new w h colorAt)) := by
  have main : ∀ (l : List (Cell × Cell)) (m : MazeMap), coordsOk m → wallConsistent m →
      coordsOk (l.foldl (fun m2 pr => (m2.connect_cells pr.1 pr.2).1) m) ∧
        wallConsistent (l.foldl (fun m2 pr => (m2.connect_cells pr.1 pr.2).1) m) := by
    intro l
    induction l with
    | nil => exact fun m h1 h2 => ⟨h1, h2⟩
    | cons pr ps ih =>
      intro m h1 h2
      have hstep := connect_cells_preserves h1 h2 pr.1 pr.2
      exact ih _ hstep.1 hstep.2
  exact (main ops _ (coordsOk_new w h colorAt) (wallConsistent_new w h colorAt)).2

/-! ### The open-connection graph of a maze (claims C3 and C7) -/

instance : Fintype Relation where
  elems := {Relation.Top, Relation.Right, Relation.Bottom, Relation.Left}
  complete := by intro d; cases d <;> decide

/-- The wall of the map cell at a position facing a direction. -/
def wallAt (m : MazeMap) (u : Nat × Nat) (d : Relation) : Option Wall :=
  (m.get_cell u.1 u.2).map (fun c => c.wallOf d)

/-- Two positions hold a mutually-open wall connection: they are adjacent and
the facing walls of both cells are `Open`. -/
def openPairProp (m : MazeMap) (u v : Nat × Nat) : Prop :=
  ∃ d : Relation, posToward u.1 u.2 d = some v ∧
    wallAt m u d = some Wall.Open ∧ wallAt m v d.opposite = some Wall.Open

instance (m : MazeMap) (u v : Nat × Nat) : Decidable (openPairProp m u v) :=
  Fintype.decidableExistsFintype

theorem openPairProp_symm {m : MazeMap} {u v : Nat × Nat} (h : openPairProp m u v) :
    openPairProp m v u := by
  rcases h with ⟨d, hpos, hw1, hw2⟩
  refine ⟨d.opposite, ?_, hw2, ?_⟩
  · have := posToward_opposite hpos
    cases u with
    | mk ux uy => exact this
  · rw [opposite_opposite]
    exact hw1

theorem openPairProp_ne {m : MazeMap} {u v : Nat × Nat} (h : openPairProp m u v) :
    u ≠ v := by
  rcases h with ⟨d, hpos, _, _⟩
  intro he
  apply posToward_ne_self hpos
  cases u with
  | mk ux uy => rw [← he]

/-- The graph of mutually-open wall connections on the `w × h` grid of
positions. -/
def openGraph (w h : Nat) (m : MazeMap) : SimpleGraph (Fin w × Fin h) where
  Adj u v := openPairProp m (u.1.1, u.2.1) (v.1.1, v.2.1)
  symm := fun u v hu => openPairProp_symm hu
  loopless := fun u hu => openPairProp_ne hu rfl

instance (w h : Nat) (m : MazeMap) : DecidableRel (openGraph w h m).Adj :=
  fun u v => inferInstanceAs (Decidable (openPairProp m (u.1.1, u.2.1) (v.1.1, v.2.1)))

/-- The dimensions and row lengths a well-formed `w × h` maze map carries. -/
def mapShape (w h : Nat) (m : MazeMap) : Prop :=
  m.width = w ∧ m.height = h ∧ m.cells.length = h ∧ ∀ row ∈ m.cells, row.length = w

theorem get_cell_isSome {w h : Nat} {m : MazeMap} (hs : mapShape w h m) (x y : Nat) :
    (m.get_cell x y).isSome = true ↔ x < w ∧ y < h := by
  unfold MazeMap.get_cell
  constructor
  · intro hsome
    rcases Option.isSome_iff_exists.mp hsome with ⟨c, hc⟩
    rcases Option.bind_eq_some.mp hc with ⟨row, hrow, hcol⟩
    have hy : y < m.cells.length := by
      by_contra hy2
      rw [List.getElem?_eq_none (Nat.le_of_not_lt hy2)] at hrow
      cases hrow
    have hrowlen : row.length = w :=
      hs.2.2.2 row (List.getElem?_mem hrow)
    have hx : x < row.length := by
      by_contra hx2
      rw [List.getElem?_eq_none (Nat.le_of_not_lt hx2)] at hcol
      cases hcol
    rw [hrowlen] at hx
    rw [hs.2.2.1] at hy
    exact ⟨hx, hy⟩
  · intro hb
    have hy2 : y < m.cells.length := by rw [hs.2.2.1]; exact hb.2
    rw [List.getElem?_eq_getElem hy2]
    have hrowlen : (m.cells[y]).length = w :=
      hs.2.2.2 _ (List.getElem_mem hy2)
    have hx2 : x < (m.cells[y]).length := by rw [hrowlen]; exact hb.1
    show ((m.cells[y])[x]?).isSome = true
    rw [List.getElem?_eq_getElem hx2]
    rfl

theorem listModify_length (f : α → α) (n : Nat) (l : List α) :
    (listModify f n l).length = l.length := by
  induction l generalizing n with
  | nil => cases n <;> rfl
  | cons a as ih =>
    cases n with
    | zero => rfl
    | succ k =>
      show (a :: listModify f k as).length = (a :: as).length
      simp [ih]

theorem mem_listModify {f : α → α} {n : Nat} {l : List α} {b : α}
    (h : b ∈ listModify f n l) : b ∈ l ∨ ∃ a, a ∈ l ∧ b = f a := by
  induction l generalizing n with
  | nil =>
    cases n with
    | zero => cases h
    | succ k => cases h
  | cons a as ih =>
    cases n with
    | zero =>
      rcases List.mem_cons.mp h with rfl | h2
      · exact Or.inr ⟨a, List.mem_cons_self _ _, rfl⟩
      · exact Or.inl (List.mem_cons_of_mem _ h2)
    | succ k =>
      rcases List.mem_cons.mp h with rfl | h2
      · exact Or.inl (List.mem_cons_self _ _)
      · rcases ih h2 with h3 | ⟨a0, ha0, rfl⟩
        · exact Or.inl (List.mem_cons_of_mem _ h3)
        · exact Or.inr ⟨a0, List.mem_cons_of_mem _ ha0, rfl⟩

theorem mapShape_modifyCell {w h : Nat} {m : MazeMap} (hs : mapShape w h m)
    (x y : Nat) (f : Cell → Cell) : mapShape w h (m.modifyCell x y f) := by
  refine ⟨hs.1, hs.2.1, ?_, ?_⟩
  · show (listModify (fun row => listModify f x row) y m.cells).length = h
    rw [listModify_length]
    exact hs.2.2.1
  · intro row hrow
    rcases mem_listModify hrow with hrow2 | ⟨row0, hrow0, rfl⟩
    · exact hs.2.2.2 row hrow2
    · rw [listModify_length]
      exact hs.2.2.2 row0 hrow0

theorem mem_get_neighbors {w h : Nat} {m : MazeMap} (hs : mapShape w h m) (hco : coordsOk m)
    (cell c : Cell) :
    c ∈ m.get_neighbors cell ↔
      ∃ d, posToward cell.x cell.y d = some (c.x, c.y) ∧ m.get_cell c.x c.y = some c := by
  unfold MazeMap.get_neighbors
  rw [List.mem_filterMap]
  constructor
  · rintro ⟨o, ho, hoc⟩
    have hoo : o = some c := hoc
    subst hoo
    rcases List.mem_append.mp ho with habc | h4
    rcases List.mem_append.mp habc with hab | h3
    rcases List.mem_append.mp hab with h1 | h2
    · by_cases hg : cell.x > 0
      · rw [if_pos hg] at h1
        have heq : m.get_cell (cell.x - 1) cell.y = some c :=
          (List.mem_singleton.mp h1).symm
        have hcc := hco _ _ c heq
        refine ⟨Relation.Left, ?_, by rw [hcc.1, hcc.2]; exact heq⟩
        unfold posToward
        rw [if_pos hg, hcc.1, hcc.2]
      · rw [if_neg hg] at h1
        cases h1
    · by_cases hg : cell.y > 0
      · rw [if_pos hg] at h2
        have heq : m.get_cell cell.x (cell.y - 1) = some c :=
          (List.mem_singleton.mp h2).symm
        have hcc := hco _ _ c heq
        refine ⟨Relation.Top, ?_, by rw [hcc.1, hcc.2]; exact heq⟩
        unfold posToward
        rw [if_pos hg, hcc.1, hcc.2]
      · rw [if_neg hg] at h2
        cases h2
    · by_cases hg : cell.x < m.width
      · rw [if_pos hg] at h3
        have heq : m.get_cell (cell.x + 1) cell.y = some c :=
          (List.mem_singleton.mp h3).symm
        have hcc := hco _ _ c heq
        refine ⟨Relation.Right, ?_, by rw [hcc.1, hcc.2]; exact heq⟩
        unfold posToward
        rw [hcc.1, hcc.2]
      · rw [if_neg hg] at h3
        cases h3
    · by_cases hg : cell.y < m.height
      · rw [if_pos hg] at h4
        have heq : m.get_cell cell.x (cell.y + 1) = some c :=
          (List.mem_singleton.mp h4).symm
        have hcc := hco _ _ c heq
        refine ⟨Relation.Bottom, ?_, by rw [hcc.1, hcc.2]; exact heq⟩
        unfold posToward
        rw [hcc.1, hcc.2]
      · rw [if_neg hg] at h4
        cases h4
  · rintro ⟨d, hpos, hget⟩
    refine ⟨some c, ?_, rfl⟩
    cases d with
    | Left =>
      unfold posToward at hpos
      by_cases hg : cell.x > 0
      · rw [if_pos hg] at hpos
        injection hpos with hpos
        have hx : cell.x - 1 = c.x := congrArg Prod.fst hpos
        have hy : cell.y = c.y := congrArg Prod.snd hpos
        apply List.mem_append_left
        apply List.mem_append_left
        apply List.mem_append_left
        rw [if_pos hg]
        apply List.mem_singleton.mpr
        rw [hx, hy]
        exact hget.symm
      · rw [if_neg hg] at hpos
        cases hpos
    | Top =>
      unfold posToward at hpos
      by_cases hg : cell.y > 0
      · rw [if_pos hg] at hpos
        injection hpos with hpos
        have hx : cell.x = c.x := congrArg Prod.fst hpos
        have hy : cell.y - 1 = c.y := congrArg Prod.snd hpos
        apply List.mem_append_left
        apply List.mem_append_left
        apply List.mem_append_right
        rw [if_pos hg]
        apply List.mem_singleton.mpr
        rw [hx, hy]
        exact hget.symm
      · rw [if_neg hg] at hpos
        cases hpos
    | Right =>
      unfold posToward at hpos
      injection hpos with hpos
      have hx : cell.x + 1 = c.x := congrArg Prod.fst hpos
      have hy : cell.y = c.y := congrArg Prod.snd hpos
      have hbound : c.x < w ∧ c.y < h := by
        rw [← get_cell_isSome hs c.x c.y, hget]
        rfl
      apply List.mem_append_left
      apply List.mem_append_right
      rw [if_pos (by rw [hs.1]; omega)]
      apply List.mem_singleton.mpr
      rw [hx, hy]
      exact hget.symm
    | Bottom =>
      unfold posToward at hpos
      injection hpos with hpos
      have hx : cell.x = c.x := congrArg Prod.fst hpos
      have hy : cell.y + 1 = c.y := congrArg Prod.snd hpos
      have hbound : c.x < w ∧ c.y < h := by
        rw [← get_cell_isSome hs c.x c.y, hget]
        rfl
      apply List.mem_append_right
      rw [if_pos (by rw [hs.2.1]; omega)]
      apply List.mem_singleton.mpr
      rw [hx, hy]
      exact hget.symm

theorem candidateFilter_subset {p : ℚ} {coins : Nat → Bool} {visited l : List Cell}
    {k : Nat} {c : Cell} (h : c ∈ (candidateFilter p coins visited l k).1) : c ∈ l := by
  induction l generalizing k with
  | nil => cases h
  | cons a as ih =>
    unfold candidateFilter at h
    by_cases hv : visited.any (fun d => d.eqRust a)
    · rw [if_pos hv] at h
      dsimp only at h
      by_cases hk : genBool p (coins k) = true
      · rw [if_pos hk] at h
        rcases List.mem_cons.mp h with rfl | h2
        · exact List.mem_cons_self _ _
        · exact List.mem_cons_of_mem _ (ih h2)
      · rw [if_neg hk] at h
        exact List.mem_cons_of_mem _ (ih h)
    · rw [if_neg hv] at h
      dsimp only at h
      rcases List.mem_cons.mp h with rfl | h2
      · exact List.mem_cons_self _ _
      · exact List.mem_cons_of_mem _ (ih h2)

theorem candidateFilter_zero (coins : Nat → Bool) (visited : List Cell) (l : List Cell)
    (k : Nat) :
    (candidateFilter 0 coins visited l k).1 =
      l.filter (fun c => !visited.any (fun d => d.eqRust c)) := by
  induction l generalizing k with
  | nil => rfl
  | cons a as ih =>
    unfold candidateFilter
    by_cases hv : visited.any (fun d => d.eqRust a)
    · rw [if_pos hv]
      dsimp only
      rw [show genBool 0 (coins k) = false from rfl]
      simp only [Bool.false_eq_true, if_false]
      rw [List.filter_cons, if_neg (by simp [hv]), ih]
    · rw [if_neg hv]
      dsimp only
      rw [List.filter_cons, if_pos (by simp [hv]), ih]

theorem wallAt_set_color (m : MazeMap) (x y : Nat) (col : Color) (u : Nat × Nat)
    (d : Relation) :
    wallAt (m.modifyCell x y (fun c => c.set_color col)) u d = wallAt m u d := by
  unfold wallAt
  rw [get_cell_modifyCell]
  by_cases h1 : u.1 = x ∧ u.2 = y
  · rw [if_pos h1, Option.map_map, h1.1, h1.2]
    cases m.get_cell x y with
    | none => rfl
    | some c => cases d <;> rfl
  · rw [if_neg h1]

theorem openPair_set_color (m : MazeMap) (x y : Nat) (col : Color) (u v : Nat × Nat) :
    openPairProp (m.modifyCell x y (fun c => c.set_color col)) u v ↔ openPairProp m u v := by
  unfold openPairProp
  simp only [wallAt_set_color]

theorem wallAt_open (m : MazeMap) (x y : Nat) (r : Relation) (u : Nat × Nat) (d : Relation) :
    wallAt (m.modifyCell x y (fun c => c.openToward r)) u d =
      if u.1 = x ∧ u.2 = y ∧ d = r then (m.get_cell x y).map (fun _ => Wall.Open)
      else wallAt m u d := by
  unfold wallAt
  rw [get_cell_modifyCell]
  by_cases h1 : u.1 = x ∧ u.2 = y
  · rw [if_pos h1, Option.map_map]
    by_cases hd : d = r
    · rw [if_pos ⟨h1.1, h1.2, hd⟩]
      subst hd
      cases m.get_cell x y with
      | none => rfl
      | some c =>
        show some ((c.openToward d).wallOf d) = some Wall.Open
        rw [wallOf_openToward, if_pos rfl]
    · rw [if_neg (fun hc => hd hc.2.2), h1.1, h1.2]
      cases m.get_cell x y with
      | none => rfl
      | some c =>
        show some ((c.openToward r).wallOf d) = some (c.wallOf d)
        rw [wallOf_openToward, if_neg hd]
  · rw [if_neg h1, if_neg (fun hc => h1 ⟨hc.1, hc.2.1⟩)]

theorem wallAt_double (m : MazeMap) {A B : Nat × Nat} {r : Relation}
    (hne : ¬ (B.1 = A.1 ∧ B.2 = A.2)) (u : Nat × Nat) (d : Relation) :
    wallAt ((m.modifyCell A.1 A.2 (fun c => c.openToward r)).modifyCell B.1 B.2
        (fun c => c.openToward r.opposite)) u d =
      if u.1 = B.1 ∧ u.2 = B.2 ∧ d = r.opposite then
        (m.get_cell B.1 B.2).map (fun _ => Wall.Open)
      else if u.1 = A.1 ∧ u.2 = A.2 ∧ d = r then
        (m.get_cell A.1 A.2).map (fun _ => Wall.Open)
      else wallAt m u d := by
  rw [wallAt_open]
  by_cases h1 : u.1 = B.1 ∧ u.2 = B.2 ∧ d = r.opposite
  · rw [if_pos h1, if_pos h1, get_cell_modifyCell, if_neg hne]
  · rw [if_neg h1, if_neg h1, wallAt_open]

theorem openPair_double {m : MazeMap} {A B : Nat × Nat} {r : Relation}
    (hp : posToward A.1 A.2 r = some B)
    (hA : (m.get_cell A.1 A.2).isSome = true) (hB : (m.get_cell B.1 B.2).isSome = true)
    (u v : Nat × Nat) :
    openPairProp ((m.modifyCell A.1 A.2 (fun c => c.openToward r)).modifyCell B.1 B.2
        (fun c => c.openToward r.opposite)) u v ↔
      (openPairProp m u v ∨ (u = A ∧ v = B) ∨ (u = B ∧ v = A)) := by
  have hBA : B ≠ A := posToward_ne_self hp
  have hne : ¬ (B.1 = A.1 ∧ B.2 = A.2) := fun hc => hBA (Prod.ext hc.1 hc.2)
  have hpo : posToward B.1 B.2 r.opposite = some A := posToward_opposite hp
  rcases Option.isSome_iff_exists.mp hA with ⟨caA, hcaA⟩
  rcases Option.isSome_iff_exists.mp hB with ⟨caB, hcaB⟩
  constructor
  · rintro ⟨d, hpos, hw1, hw2⟩
    rw [wallAt_double m hne] at hw1 hw2
    by_cases c1 : u.1 = B.1 ∧ u.2 = B.2 ∧ d = r.opposite
    · have hu : u = B := Prod.ext c1.1 c1.2.1
      have hv : v = A := by
        have h2 : posToward B.1 B.2 r.opposite = some v := by
          rw [← c1.1, ← c1.2.1, ← c1.2.2]
          exact hpos
        rw [hpo] at h2
        injection h2 with h2
        exact h2.symm
      exact Or.inr (Or.inr ⟨hu, hv⟩)
    · rw [if_neg c1] at hw1
      by_cases c2 : u.1 = A.1 ∧ u.2 = A.2 ∧ d = r
      · have hu : u = A := Prod.ext c2.1 c2.2.1
        have hv : v = B := by
          have h2 : posToward A.1 A.2 r = some v := by
            rw [← c2.1, ← c2.2.1, ← c2.2.2]
            exact hpos
          rw [hp] at h2
          injection h2 with h2
          exact h2.symm
        exact Or.inr (Or.inl ⟨hu, hv⟩)
      · rw [if_neg c2] at hw1
        by_cases c3 : v.1 = B.1 ∧ v.2 = B.2 ∧ d.opposite = r.opposite
        · exfalso
          have hd : d = r := opposite_inj c3.2.2
          have hv : v = B := Prod.ext c3.1 c3.2.1
          have h2 : posToward v.1 v.2 d.opposite = some u := posToward_opposite hpos
          rw [hv, c3.2.2, hpo] at h2
          injection h2 with h2
          exact c2 ⟨congrArg Prod.fst h2.symm, congrArg Prod.snd h2.symm, hd⟩
        · rw [if_neg c3] at hw2
          by_cases c4 : v.1 = A.1 ∧ v.2 = A.2 ∧ d.opposite = r
          · exfalso
            have hd : d = r.opposite := by rw [← opposite_opposite d, c4.2.2]
            have hv : v = A := Prod.ext c4.1 c4.2.1
            have h2 : posToward v.1 v.2 d.opposite = some u := posToward_opposite hpos
            rw [hv, c4.2.2, hp] at h2
            injection h2 with h2
            exact c1 ⟨congrArg Prod.fst h2.symm, congrArg Prod.snd h2.symm, hd⟩
          · rw [if_neg c4] at hw2
            exact Or.inl ⟨d, hpos, hw1, hw2⟩
  · rintro (⟨d, hpos, hw1, hw2⟩ | ⟨rfl, rfl⟩ | ⟨rfl, rfl⟩)
    · refine ⟨d, hpos, ?_, ?_⟩
      · rw [wallAt_double m hne]
        by_cases c1 : u.1 = B.1 ∧ u.2 = B.2 ∧ d = r.opposite
        · rw [if_pos c1, hcaB]
          rfl
        · rw [if_neg c1]
          by_cases c2 : u.1 = A.1 ∧ u.2 = A.2 ∧ d = r
          · rw [if_pos c2, hcaA]
            rfl
          · rw [if_neg c2]
            exact hw1
      · rw [wallAt_double m hne]
        by_cases c3 : v.1 = B.1 ∧ v.2 = B.2 ∧ d.opposite = r.opposite
        · rw [if_pos c3, hcaB]
          rfl
        · rw [if_neg c3]
          by_cases c4 : v.1 = A.1 ∧ v.2 = A.2 ∧ d.opposite = r
          · rw [if_pos c4, hcaA]
            rfl
          · rw [if_neg c4]
            exact hw2
    · refine ⟨r, hp, ?_, ?_⟩
      · rw [wallAt_double m hne,
          if_neg (fun hc => hBA (Prod.ext hc.1.symm hc.2.1.symm)),
          if_pos ⟨rfl, rfl, rfl⟩, hcaA]
        rfl
      · rw [wallAt_double m hne, if_pos ⟨rfl, rfl, rfl⟩, hcaB]
        rfl
    · refine ⟨r.opposite, hpo, ?_, ?_⟩
      · rw [wallAt_double m hne, if_pos ⟨rfl, rfl, rfl⟩, hcaB]
        rfl
      · rw [wallAt_double m hne,
          if_neg (fun hc => hBA (Prod.ext hc.1.symm hc.2.1.symm)),
          if_pos ⟨rfl, rfl, opposite_opposite r⟩, hcaA]
        rfl

/-- A successful `connect_cells` between two adjacent in-map cells is exactly
the mutual double wall opening. -/
theorem connect_cells_eq {m : MazeMap} (hco : coordsOk m) {cur chosen : Cell}
    {d : Relation} (hpos : posToward cur.x cur.y d = some (chosen.x, chosen.y))
    (hcurIn : (m.get_cell cur.x cur.y).isSome = true)
    (hchIn : (m.get_cell chosen.x chosen.y).isSome = true) :
    m.connect_cells cur chosen =
      ((m.modifyCell cur.x cur.y (fun c => c.openToward d)).modifyCell chosen.x chosen.y
        (fun c => c.openToward d.opposite), Except.ok ()) := by
  unfold MazeMap.connect_cells MazeMap.open_wall_step
  obtain ⟨ca, hca⟩ := Option.isSome_iff_exists.mp hcurIn
  rw [hca]
  dsimp only
  have hcoords := hco _ _ ca hca
  have hrel : ca.relation chosen = Except.ok d := by
    have h1 : posToward chosen.x chosen.y d.opposite = some (cur.x, cur.y) :=
      posToward_opposite hpos
    have h2 : posToward chosen.x chosen.y d.opposite = some (ca.x, ca.y) := by
      rw [hcoords.1, hcoords.2]
      exact h1
    have h3 := relation_opposite h2
    rw [opposite_opposite] at h3
    exact h3
  rw [hrel]
  dsimp only
  have hne : (chosen.x, chosen.y) ≠ (cur.x, cur.y) := posToward_ne_self hpos
  obtain ⟨cb, hcb⟩ := Option.isSome_iff_exists.mp hchIn
  have hcb1 : (m.modifyCell cur.x cur.y (fun c => c.openToward d)).get_cell
      chosen.x chosen.y = some cb := by
    rw [get_cell_modifyCell, if_neg (fun hcxy => hne (Prod.ext hcxy.1 hcxy.2))]
    exact hcb
  rw [hcb1]
  dsimp only
  have hcbco := hco _ _ cb hcb
  have hrelb : cb.relation cur = Except.ok d.opposite := by
    apply relation_opposite
    rw [hcbco.1, hcbco.2]
    exact hpos
  rw [hrelb]

/-- Adding a single edge to an isolated vertex keeps a graph acyclic. -/
theorem isAcyclic_pendant {V : Type} [DecidableEq V] {G2 G1 : SimpleGraph V} {u0 v0 : V}
    (hadj : ∀ a b, G2.Adj a b ↔ (G1.Adj a b ∨ (a = u0 ∧ b = v0) ∨ (a = v0 ∧ b = u0)))
    (hacy : G1.IsAcyclic) (hiso : ∀ x, ¬ G1.Adj v0 x) (hne : u0 ≠ v0) :
    G2.IsAcyclic := by
  intro wv c hc
  by_cases hv : v0 ∈ c.support
  · have hc2 := hc.rotate hv
    generalize c.rotate hv = c2 at hc2
    cases c2 with
    | nil => exact SimpleGraph.Walk.IsCycle.not_of_nil hc2
    | cons hadj0 p =>
      rename_i x
      have hx : x = u0 := by
        rcases (hadj _ _).mp hadj0 with h1 | h2 | h3
        · exact absurd h1 (hiso x)
        · exact absurd h2.1.symm hne
        · exact h3.2
      have hlast : s(v0, x) ∈ p.edges := by
        cases hq : p.reverse with
        | nil =>
          exfalso
          have hlen := congrArg SimpleGraph.Walk.length hq
          rw [SimpleGraph.Walk.length_reverse] at hlen
          cases p with
          | nil => exact hne hx.symm
          | cons h2 q => cases hlen
        | cons hadj2 q =>
          rename_i y
          have hy : y = u0 := by
            rcases (hadj _ _).mp hadj2 with h1 | h2 | h3
            · exact absurd h1 (hiso y)
            · exact absurd h2.1.symm hne
            · exact h3.2
          have hmem : s(v0, y) ∈ p.reverse.edges := by
            rw [hq]
            exact List.mem_cons_self _ _
          rw [SimpleGraph.Walk.edges_reverse, List.mem_reverse, hy, ← hx] at hmem
          exact hmem
      have hnodup := hc2.edges_nodup
      rw [SimpleGraph.Walk.edges_cons] at hnodup
      exact (List.nodup_cons.mp hnodup).1 hlast
  · have hmem : ∀ e ∈ c.edges, e ∈ G1.edgeSet := by
      intro e
      induction e using Sym2.inductionOn with
      | _ a b =>
        intro he
        have hGadj := SimpleGraph.Walk.adj_of_mem_edges c he
        rcases (hadj a b).mp hGadj with h1 | h2 | h3
        · rw [SimpleGraph.mem_edgeSet]
          exact h1
        · exfalso
          apply hv
          rw [← h2.2]
          exact SimpleGraph.Walk.snd_mem_support_of_mem_edges c he
        · exfalso
          apply hv
          rw [← h3.1]
          exact SimpleGraph.Walk.fst_mem_support_of_mem_edges c he
    exact hacy (c.transfer G1 hmem) (hc.transfer hmem)

/-- A position occurs in the visited list (the Rust `Vec<Cell>` with its
coordinate-only equality). -/
def visitedPos (visited : List Cell) (q : Nat × Nat) : Prop :=
  ∃ c ∈ visited, c.x = q.1 ∧ c.y = q.2

theorem visitedContains_iff (visited : List Cell) (c : Cell) :
    (visited.any (fun d => d.eqRust c) = true) ↔ visitedPos visited (c.x, c.y) := by
  rw [List.any_eq_true]
  constructor
  · rintro ⟨d0, hd0, hb⟩
    unfold Cell.eqRust at hb
    simp only [Bool.and_eq_true, decide_eq_true_eq] at hb
    exact ⟨d0, hd0, hb.1, hb.2⟩
  · rintro ⟨d0, hd0, h1, h2⟩
    refine ⟨d0, hd0, ?_⟩
    unfold Cell.eqRust
    simp only [Bool.and_eq_true, decide_eq_true_eq]
    exact ⟨h1, h2⟩

theorem visitedPos_mono {visited more : List Cell} {q : Nat × Nat}
    (h : visitedPos visited q) : visitedPos (visited ++ more) q := by
  rcases h with ⟨c, hc, h1, h2⟩
  exact ⟨c, List.mem_append_left _ hc, h1, h2⟩

theorem visited_length_le {w h : Nat} {visited : List Cell}
    (hIn : ∀ c ∈ visited, c.x < w ∧ c.y < h)
    (hnd : (visited.map (fun c => (c.x, c.y))).Nodup) : visited.length ≤ w * h := by
  classical
  have hsub : (visited.map (fun c => (c.x, c.y))).toFinset ⊆
      (Finset.range w) ×ˢ (Finset.range h) := by
    intro q hq
    rw [List.mem_toFinset, List.mem_map] at hq
    rcases hq with ⟨c, hc, rfl⟩
    rw [Finset.mem_product, Finset.mem_range, Finset.mem_range]
    exact hIn c hc
  have hcard := Finset.card_le_card hsub
  rw [List.toFinset_card_of_nodup hnd, Finset.card_product, Finset.card_range,
    Finset.card_range, List.length_map] at hcard
  exact hcard

theorem visitedPos_iff_mem_map (visited : List Cell) (q : Nat × Nat) :
    visitedPos visited q ↔ q ∈ visited.map (fun c => (c.x, c.y)) := by
  rw [List.mem_map]
  constructor
  · rintro ⟨c, hc, h1, h2⟩
    exact ⟨c, hc, by rw [h1, h2]⟩
  · rintro ⟨c, hc, hq⟩
    exact ⟨c, hc, congrArg Prod.fst hq, congrArg Prod.snd hq⟩

theorem stackPos_of_tail {stack : List Cell} {a : Cell} {q : Nat × Nat}
    (h : ∃ c ∈ stack, c.x = q.1 ∧ c.y = q.2) :
    ∃ c ∈ a :: stack, c.x = q.1 ∧ c.y = q.2 := by
  rcases h with ⟨c, hc, h1, h2⟩
  exact ⟨c, List.mem_cons_of_mem _ hc, h1, h2⟩

theorem toPos_eq_iff {w h : Nat} (a : Fin w × Fin h) (x y : Nat) (hx : x < w)
    (hy : y < h) :
    ((a.1.1, a.2.1) : Nat × Nat) = (x, y) ↔ a = (⟨x, hx⟩, ⟨y, hy⟩) := by
  constructor
  · intro hh
    have h1 : a.1.1 = x := congrArg Prod.fst hh
    have h2 : a.2.1 = y := congrArg Prod.snd hh
    exact Prod.ext (Fin.ext h1) (Fin.ext h2)
  · rintro rfl
    rfl

/-- The loop invariant of `generate_maze` at loop probability zero: the map is
well-shaped, the visited list holds distinct in-map positions containing the
origin, stack cells are visited, every visited cell off the stack has all its
in-map neighbours visited, open walls only join visited cells, every visited
cell is reachable from the origin through open connections, and the open graph
is acyclic. -/
structure GenInv (w h : Nat) (m : MazeMap) (stack visited : List Cell) : Prop where
  shape : mapShape w h m
  coords : coordsOk m
  visIn : ∀ c ∈ visited, c.x < w ∧ c.y < h
  visNodup : (visited.map (fun c => (c.x, c.y))).Nodup
  origin : visitedPos visited (0, 0)
  stackSub : ∀ c ∈ stack, visitedPos visited (c.x, c.y)
  closure : ∀ q : Nat × Nat, visitedPos visited q →
    ¬ (∃ c ∈ stack, c.x = q.1 ∧ c.y = q.2) →
    ∀ d p2, posToward q.1 q.2 d = some p2 → p2.1 < w → p2.2 < h →
      visitedPos visited p2
  openVis : ∀ u v, openPairProp m u v → visitedPos visited u ∧ visitedPos visited v
  reach : ∀ c ∈ visited, Relation.ReflTransGen (openPairProp m) (0, 0) (c.x, c.y)
  acyclic : (openGraph w h m).IsAcyclic

/-- One connect step of the generation loop: connecting the current stack top
to an unvisited in-map neighbour succeeds and preserves the loop invariant,
with the chosen neighbour both pushed on the stack and marked visited. -/
theorem genInv_connect_step {w h : Nat} {m : MazeMap} {current : Cell}
    {restStack visited : List Cell}
    (hinv : GenInv w h m (current :: restStack) visited) {chosen : Cell}
    (hmem : chosen ∈ m.get_neighbors current)
    (hunvis : visited.any (fun d2 => d2.eqRust chosen) = false) (col : Color) :
    ∃ m2, m.connect_cells current chosen = (m2, Except.ok ()) ∧
      GenInv w h (m2.modifyCell current.x current.y (fun c => c.set_color col))
        (chosen :: current :: restStack) (visited ++ [chosen]) := by
  have hs := hinv.shape
  have hco := hinv.coords
  have hcurVis : visitedPos visited (current.x, current.y) :=
    hinv.stackSub current (List.mem_cons_self _ _)
  have hcurB : current.x < w ∧ current.y < h := by
    rcases hcurVis with ⟨cv, hcv, h1, h2⟩
    rcases hinv.visIn cv hcv with ⟨b1, b2⟩
    have h1b : cv.x = current.x := h1
    have h2b : cv.y = current.y := h2
    exact ⟨h1b ▸ b1, h2b ▸ b2⟩
  have hcurIn : (m.get_cell current.x current.y).isSome = true :=
    (get_cell_isSome hs _ _).mpr hcurB
  rcases (mem_get_neighbors hs hco current chosen).mp hmem with ⟨d, hpos, hget⟩
  have hchIn : (m.get_cell chosen.x chosen.y).isSome = true := by
    rw [hget]
    rfl
  have hchB : chosen.x < w ∧ chosen.y < h := (get_cell_isSome hs _ _).mp hchIn
  have hconn := connect_cells_eq hco hpos hcurIn hchIn
  refine ⟨_, hconn, ?_⟩
  have hnv : ¬ visitedPos visited (chosen.x, chosen.y) := by
    intro hvp
    rw [← visitedContains_iff] at hvp
    rw [hunvis] at hvp
    cases hvp
  have hCHne : ((chosen.x, chosen.y) : Nat × Nat) ≠ (current.x, current.y) :=
    posToward_ne_self hpos
  have hchar : ∀ u v, openPairProp
      (((m.modifyCell current.x current.y (fun c => c.openToward d)).modifyCell
        chosen.x chosen.y (fun c => c.openToward d.opposite)).modifyCell
        current.x current.y (fun c => c.set_color col)) u v ↔
      (openPairProp m u v ∨
        (u = ((current.x, current.y) : Nat × Nat) ∧ v = (chosen.x, chosen.y)) ∨
        (u = ((chosen.x, chosen.y) : Nat × Nat) ∧ v = (current.x, current.y))) := by
    intro u v
    rw [openPair_set_color]
    exact @openPair_double m (current.x, current.y) (chosen.x, chosen.y) d
      hpos hcurIn hchIn u v
  have hmono := fun a b hab => (hchar a b).mpr (Or.inl hab)
  have hchosenVis3 : visitedPos (visited ++ [chosen]) (chosen.x, chosen.y) :=
    ⟨chosen, List.mem_append_right _ (List.mem_singleton.mpr rfl), rfl, rfl⟩
  refine ⟨?_, ?_, ?_, ?_, ?_, ?_, ?_, ?_, ?_, ?_⟩
  · exact mapShape_modifyCell (mapShape_modifyCell (mapShape_modifyCell hs _ _ _) _ _ _) _ _ _
  · have hco1 := coordsOk_modifyCell hco current.x current.y
      (fun c => openToward_coords c d)
    have hco2 := coordsOk_modifyCell hco1 chosen.x chosen.y
      (fun c => openToward_coords c d.opposite)
    exact coordsOk_modifyCell hco2 current.x current.y (fun c => ⟨rfl, rfl⟩)
  · intro c hc
    rcases List.mem_append.mp hc with h1 | h2
    · exact hinv.visIn c h1
    · rw [List.mem_singleton] at h2
      subst h2
      exact hchB
  · rw [List.map_append]
    refine List.Nodup.append hinv.visNodup (List.nodup_singleton _) ?_
    intro q hq hq2
    have hq3 : q = (chosen.x, chosen.y) := List.mem_singleton.mp hq2
    subst hq3
    exact hnv ((visitedPos_iff_mem_map _ _).mpr hq)
  · exact visitedPos_mono hinv.origin
  · intro c hc
    rcases List.mem_cons.mp hc with rfl | h2
    · exact hchosenVis3
    · exact visitedPos_mono (hinv.stackSub c h2)
  · intro q hq hns d2 p2 hpos2 hb1 hb2
    rcases hq with ⟨cq, hcq, hq1, hq2⟩
    rcases List.mem_append.mp hcq with hold | hnew
    · have hns2 : ¬ ∃ c ∈ current :: restStack, c.x = q.1 ∧ c.y = q.2 := by
        rintro ⟨c, hc, e1, e2⟩
        exact hns ⟨c, List.mem_cons_of_mem _ hc, e1, e2⟩
      exact visitedPos_mono
        (hinv.closure q ⟨cq, hold, hq1, hq2⟩ hns2 d2 p2 hpos2 hb1 hb2)
    · rw [List.mem_singleton] at hnew
      subst hnew
      exact absurd ⟨cq, List.mem_cons_self _ _, hq1, hq2⟩ hns
  · intro u v hopen
    rcases (hchar u v).mp hopen with h1 | h2 | h3
    · rcases hinv.openVis u v h1 with ⟨a1, a2⟩
      exact ⟨visitedPos_mono a1, visitedPos_mono a2⟩
    · rw [h2.1, h2.2]
      exact ⟨visitedPos_mono hcurVis, hchosenVis3⟩
    · rw [h3.1, h3.2]
      exact ⟨hchosenVis3, visitedPos_mono hcurVis⟩
  · intro c hc
    rcases List.mem_append.mp hc with hold | hnew
    · exact Relation.ReflTransGen.mono hmono (hinv.reach c hold)
    · rw [List.mem_singleton] at hnew
      rcases hcurVis with ⟨cv, hcv, e1, e2⟩
      have hr := Relation.ReflTransGen.mono hmono (hinv.reach cv hcv)
      have e1b : cv.x = current.x := e1
      have e2b : cv.y = current.y := e2
      rw [e1b, e2b] at hr
      rw [hnew]
      exact hr.tail ((hchar _ _).mpr (Or.inr (Or.inl ⟨rfl, rfl⟩)))
  · have hadj : ∀ a b : Fin w × Fin h,
        (openGraph w h (((m.modifyCell current.x current.y
          (fun c => c.openToward d)).modifyCell chosen.x chosen.y
          (fun c => c.openToward d.opposite)).modifyCell current.x current.y
          (fun c => c.set_color col))).Adj a b ↔
        ((openGraph w h m).Adj a b ∨
          (a = ((⟨current.x, hcurB.1⟩, ⟨current.y, hcurB.2⟩) : Fin w × Fin h) ∧
            b = (⟨chosen.x, hchB.1⟩, ⟨chosen.y, hchB.2⟩)) ∨
          (a = ((⟨chosen.x, hchB.1⟩, ⟨chosen.y, hchB.2⟩) : Fin w × Fin h) ∧
            b = (⟨current.x, hcurB.1⟩, ⟨current.y, hcurB.2⟩))) := by
      intro a b
      show openPairProp _ (a.1.1, a.2.1) (b.1.1, b.2.1) ↔ _
      rw [hchar, toPos_eq_iff a current.x current.y hcurB.1 hcurB.2,
        toPos_eq_iff b chosen.x chosen.y hchB.1 hchB.2,
        toPos_eq_iff a chosen.x chosen.y hchB.1 hchB.2,
        toPos_eq_iff b current.x current.y hcurB.1 hcurB.2]
      exact Iff.rfl
    refine isAcyclic_pendant hadj hinv.acyclic ?_ ?_
    · intro x hx
      exact hnv (hinv.openVis (chosen.x, chosen.y) (x.1.1, x.2.1) hx).1
    · intro he
      have h1 : current.x = chosen.x := congrArg (fun q => q.1.1) he
      have h2 : current.y = chosen.y := congrArg (fun q => q.2.1) he
      exact hCHne (by rw [h1, h2])

theorem genLoop_succ (oracle : Oracle) (p : ℚ) (fuel : Nat) (st : GenState) :
    genLoop oracle p (fuel + 1) st =
      match st.stack with
      | [] => some (Except.ok st.map)
      | current :: restStack =>
        let flt := candidateFilter p oracle.coins st.visited
          (st.map.get_neighbors current) st.nCoin
        match flt.1 with
        | [] =>
          genLoop oracle p fuel
            { st with
              stack := restStack
              color := oracle.colors st.nColor
              nColor := st.nColor + 1
              nCoin := flt.2 }
        | c0 :: cs =>
          let chosen := (c0 :: cs).getD (oracle.pick st.nPick % (c0 :: cs).length) default
          match st.map.connect_cells current chosen with
          | (_, Except.error e) => some (Except.error e)
          | (m1, Except.ok _) =>
            genLoop oracle p fuel
              { map := m1.modifyCell current.x current.y (fun c => c.set_color st.color)
                stack := chosen :: current :: restStack
                visited := st.visited ++ [chosen]
                color := st.color
                nColor := st.nColor
                nPick := st.nPick + 1
                nCoin := flt.2 } := rfl

theorem genLoop_zero (w h : Nat) (oracle : Oracle) :
    ∀ (fuel : Nat) (st : GenState),
      GenInv w h st.map st.stack st.visited →
      2 * (w * h - st.visited.length) + st.stack.length < fuel →
      ∃ mm visited2, genLoop oracle 0 fuel st = some (Except.ok mm) ∧
        GenInv w h mm [] visited2 := by
  intro fuel
  induction fuel with
  | zero =>
    intro st _ hfu
    exact absurd hfu (Nat.not_lt_zero _)
  | succ fuel ih =>
    intro st hinv hfu
    cases hstack : st.stack with
    | nil =>
      refine ⟨st.map, st.visited, ?_, ?_⟩
      · unfold genLoop
        rw [hstack]
      · exact hstack ▸ hinv
    | cons current restStack =>
      have hcurVis : visitedPos st.visited (current.x, current.y) :=
        hinv.stackSub current (by rw [hstack]; exact List.mem_cons_self _ _)
      have hcurB : current.x < w ∧ current.y < h := by
        rcases hcurVis with ⟨cv, hcv, h1, h2⟩
        rcases hinv.visIn cv hcv with ⟨b1, b2⟩
        constructor
        · have h1b : cv.x = current.x := h1
          rw [← h1b]
          exact b1
        · have h2b : cv.y = current.y := h2
          rw [← h2b]
          exact b2
      have hcurIn : (st.map.get_cell current.x current.y).isSome = true :=
        (get_cell_isSome hinv.shape _ _).mpr hcurB
      cases hcands : (st.map.get_neighbors current).filter
          (fun c => !st.visited.any (fun d => d.eqRust c)) with
      | nil =>
        have hstep : genLoop oracle 0 (fuel + 1) st =
            genLoop oracle 0 fuel
              { st with
                stack := restStack
                color := oracle.colors st.nColor
                nColor := st.nColor + 1
                nCoin := (candidateFilter 0 oracle.coins st.visited
                  (st.map.get_neighbors current) st.nCoin).2 } := by
          rw [genLoop_succ, hstack]
          dsimp only
          rw [candidateFilter_zero, hcands]
        rw [hstep]
        have hclosed : ∀ n ∈ st.map.get_neighbors current,
            visitedPos st.visited (n.x, n.y) := by
          intro n hn
          have := List.filter_eq_nil_iff.mp hcands n hn
          have hb : st.visited.any (fun d => d.eqRust n) = true := by
            revert this
            cases st.visited.any (fun d => d.eqRust n) <;> simp
          exact (visitedContains_iff _ _).mp hb
        have hinv2 : GenInv w h st.map restStack st.visited := by
          refine ⟨hinv.shape, hinv.coords, hinv.visIn, hinv.visNodup, hinv.origin,
            ?_, ?_, hinv.openVis, hinv.reach, hinv.acyclic⟩
          · intro c hc
            exact hinv.stackSub c (by rw [hstack]; exact List.mem_cons_of_mem _ hc)
          · intro q hq hns d p2 hpos hb1 hb2
            by_cases hqc : q = (current.x, current.y)
            · subst hqc
              obtain ⟨cp, hcp⟩ := Option.isSome_iff_exists.mp
                ((get_cell_isSome hinv.shape p2.1 p2.2).mpr ⟨hb1, hb2⟩)
              have hcpco := hinv.coords _ _ cp hcp
              have hcpmem : cp ∈ st.map.get_neighbors current := by
                rw [mem_get_neighbors hinv.shape hinv.coords]
                refine ⟨d, ?_, by rw [hcpco.1, hcpco.2]; exact hcp⟩
                rw [hcpco.1, hcpco.2]
                exact hpos
              have := hclosed cp hcpmem
              rw [hcpco.1, hcpco.2] at this
              exact this
            · apply hinv.closure q hq _ d p2 hpos hb1 hb2
              intro hc
              rcases hc with ⟨c, hcmem, h1, h2⟩
              rw [hstack] at hcmem
              rcases List.mem_cons.mp hcmem with rfl | hcm
              · exact hqc (by rw [h1, h2])
              · exact hns ⟨c, hcm, h1, h2⟩
        apply ih _ hinv2
        dsimp only
        have : restStack.length + 1 = st.stack.length := by rw [hstack]; rfl
        omega
      | cons c0 cs =>
        have hlen : oracle.pick st.nPick % (c0 :: cs).length < (c0 :: cs).length :=
          Nat.mod_lt _ (Nat.succ_pos _)
        have hchmem : (c0 :: cs).getD (oracle.pick st.nPick % (c0 :: cs).length) default ∈
            (st.map.get_neighbors current).filter
              (fun c => !st.visited.any (fun d => d.eqRust c)) := by
          rw [hcands, List.getD_eq_getElem?_getD, List.getElem?_eq_getElem hlen]
          exact List.getElem_mem hlen
        have hmemfil := List.mem_filter.mp hchmem
        have hunvis : st.visited.any (fun d2 => d2.eqRust
            ((c0 :: cs).getD (oracle.pick st.nPick % (c0 :: cs).length) default)) = false := by
          have h2 := hmemfil.2
          cases hb : st.visited.any (fun d2 => d2.eqRust
              ((c0 :: cs).getD (oracle.pick st.nPick % (c0 :: cs).length) default))
          · rfl
          · rw [hb] at h2
            simp at h2
        have hinvc : GenInv w h st.map (current :: restStack) st.visited := by
          rw [← hstack]
          exact hinv
        obtain ⟨m2, hconn, hinv3⟩ := genInv_connect_step hinvc hmemfil.1 hunvis st.color
        have hnl : st.visited.length + 1 ≤ w * h := by
          have hle := visited_length_le hinv3.visIn hinv3.visNodup
          simp only [List.length_append, List.length_singleton] at hle
          exact hle
        obtain ⟨mm, v2, hrun, hfin⟩ := ih
          { map := m2.modifyCell current.x current.y (fun c => c.set_color st.color)
            stack := ((c0 :: cs).getD (oracle.pick st.nPick % (c0 :: cs).length) default) ::
              current :: restStack
            visited := st.visited ++
              [(c0 :: cs).getD (oracle.pick st.nPick % (c0 :: cs).length) default]
            color := st.color
            nColor := st.nColor
            nPick := st.nPick + 1
            nCoin := (candidateFilter 0 oracle.coins st.visited
              (st.map.get_neighbors current) st.nCoin).2 }
          hinv3
          (by
            dsimp only
            have hflen : restStack.length + 1 = st.stack.length := by rw [hstack]; rfl
            simp only [List.length_append, List.length_singleton, List.length_cons]
            omega)
        refine ⟨mm, v2, ?_, hfin⟩
        rw [genLoop_succ, hstack]
        dsimp only
        rw [candidateFilter_zero, hcands]
        dsimp only
        rw [hconn]
        exact hrun

theorem mapShape_new (w h : Nat) (colorAt : Nat → Nat → Color) :
    mapShape w h (MazeMap.new w h colorAt) := by
  refine ⟨rfl, rfl, ?_, ?_⟩
  · show ((List.range h).map _).length = h
    rw [List.length_map, List.length_range]
  · intro row hrow
    rcases List.mem_map.mp hrow with ⟨y, _, rfl⟩
    rw [List.length_map, List.length_range]

theorem not_openPair_new (w h : Nat) (colorAt : Nat → Nat → Color) (u v : Nat × Nat) :
    ¬ openPairProp (MazeMap.new w h colorAt) u v := by
  rintro ⟨d, hpos, hw1, hw2⟩
  unfold wallAt at hw1
  rw [get_cell_new] at hw1
  by_cases hb : u.1 < w ∧ u.2 < h
  · rw [if_pos hb] at hw1
    simp only [Option.map_some', wallOf_new] at hw1
    exact absurd (Option.some.inj hw1) (by decide)
  · rw [if_neg hb] at hw1
    simp at hw1

/-- Both endpoints of a mutually-open connection lie inside the map. -/
theorem openPair_bounds {w h : Nat} {m : MazeMap} (hs : mapShape w h m) {u v : Nat × Nat}
    (hp : openPairProp m u v) : (u.1 < w ∧ u.2 < h) ∧ (v.1 < w ∧ v.2 < h) := by
  rcases hp with ⟨d, _, hw1, hw2⟩
  unfold wallAt at hw1 hw2
  constructor
  · rw [← get_cell_isSome hs]
    cases hget : m.get_cell u.1 u.2
    · rw [hget] at hw1
      simp at hw1
    · rfl
  · rw [← get_cell_isSome hs]
    cases hget : m.get_cell v.1 v.2
    · rw [hget] at hw2
      simp at hw2
    · rfl

/-- A chain of mutually-open connections between positions lifts to
reachability in the open-connection graph. -/
theorem rtg_openPair_reachable {w h : Nat} {m : MazeMap} (hs : mapShape w h m)
    {p q : Nat × Nat}
    (hr : Relation.ReflTransGen (openPairProp m) p q) :
    ∀ (hp1 : p.1 < w) (hp2 : p.2 < h) (hq1 : q.1 < w) (hq2 : q.2 < h),
      (openGraph w h m).Reachable (⟨p.1, hp1⟩, ⟨p.2, hp2⟩) (⟨q.1, hq1⟩, ⟨q.2, hq2⟩) := by
  induction hr with
  | refl =>
    intro hp1 hp2 hq1 hq2
    exact SimpleGraph.Reachable.refl _
  | tail hab hbc ih =>
    intro hp1 hp2 hq1 hq2
    have hbB := (openPair_bounds hs hbc).1
    refine (ih hp1 hp2 hbB.1 hbB.2).trans ?_
    exact SimpleGraph.Adj.reachable hbc

/-- The state entering the generation loop satisfies the loop invariant. -/
theorem genInv_init (w h : Nat) (hw : 0 < w) (hh : 0 < h) (colorAt : Nat → Nat → Color) :
    GenInv w h (MazeMap.new w h colorAt) [Cell.new 0 0 (colorAt 0 0)]
      [Cell.new 0 0 (colorAt 0 0)] := by
  refine ⟨mapShape_new w h colorAt, coordsOk_new w h colorAt, ?_, ?_, ?_, ?_, ?_, ?_, ?_, ?_⟩
  · intro c hc
    rw [List.mem_singleton] at hc
    subst hc
    exact ⟨hw, hh⟩
  · exact List.nodup_singleton _
  · exact ⟨Cell.new 0 0 (colorAt 0 0), List.mem_singleton.mpr rfl, rfl, rfl⟩
  · intro c hc
    rw [List.mem_singleton] at hc
    subst hc
    exact ⟨Cell.new 0 0 (colorAt 0 0), List.mem_singleton.mpr rfl, rfl, rfl⟩
  · intro q hq hns d2 p2 hpos2 hb1 hb2
    rcases hq with ⟨cq, hcq, hq1, hq2⟩
    exact absurd ⟨cq, hcq, hq1, hq2⟩ hns
  · intro u v hopen
    exact absurd hopen (not_openPair_new w h colorAt u v)
  · intro c hc
    rw [List.mem_singleton] at hc
    subst hc
    exact Relation.ReflTransGen.refl
  · intro v c hc
    cases c with
    | nil => exact SimpleGraph.Walk.IsCycle.not_of_nil hc
    | cons hadj p => exact not_openPair_new w h colorAt _ _ hadj

/-- When the generation loop has drained its stack, every in-map position has
been visited: the invariant's closure property propagates along rows and
columns from the origin. -/
theorem genInv_final_allVisited {w h : Nat} {m : MazeMap} {visited : List Cell}
    (hinv : GenInv w h m [] visited) :
    ∀ x y, x < w → y < h → visitedPos visited (x, y) := by
  have hcl : ∀ q : Nat × Nat, visitedPos visited q →
      ∀ d p2, posToward q.1 q.2 d = some p2 → p2.1 < w → p2.2 < h →
        visitedPos visited p2 := by
    intro q hq
    refine hinv.closure q hq ?_
    rintro ⟨c, hc, _⟩
    cases hc
  have hw : 0 < w := by
    rcases hinv.origin with ⟨c0, hc0, e1, _⟩
    have e1b : c0.x = 0 := e1
    have := (hinv.visIn c0 hc0).1
    rw [e1b] at this
    exact this
  have hcol : ∀ y, y < h → visitedPos visited (0, y) := by
    intro y
    induction y with
    | zero => exact fun _ => hinv.origin
    | succ n ihn =>
      intro hy
      exact hcl (0, n) (ihn (Nat.lt_of_succ_lt hy)) Relation.Bottom (0, n + 1) rfl hw hy
  intro x
  induction x with
  | zero => exact fun y _ hy => hcol y hy
  | succ n ihn =>
    intro y hx hy
    exact hcl (n, y) (ihn y (Nat.lt_of_succ_lt hx) hy) Relation.Right (n + 1, y) rfl hx hy

/-- The generation loop never returns an error when its map is well-shaped
and the stack holds in-map positions, at every loop probability: the chosen
neighbour always admits a successful connect.  A returned map keeps the
`w × h` shape. -/
theorem genLoop_no_error {w h : Nat} (oracle : Oracle) (p : ℚ) :
    ∀ (fuel : Nat) (st : GenState), mapShape w h st.map → coordsOk st.map →
      (∀ c ∈ st.stack, c.x < w ∧ c.y < h) →
      ∀ r, genLoop oracle p fuel st = some r →
        ∃ mm, r = Except.ok mm ∧ mapShape w h mm := by
  intro fuel
  induction fuel with
  | zero =>
    intro st _ _ _ r hr
    cases hr
  | succ fuel ih =>
    intro st hs hco hstk r hr
    rw [genLoop_succ] at hr
    cases hstack : st.stack with
    | nil =>
      rw [hstack] at hr
      dsimp only at hr
      injection hr with hr
      exact ⟨st.map, hr.symm, hs⟩
    | cons current restStack =>
      rw [hstack] at hr
      dsimp only at hr
      have hcurB : current.x < w ∧ current.y < h :=
        hstk current (by rw [hstack]; exact List.mem_cons_self _ _)
      cases hcands : (candidateFilter p oracle.coins st.visited
          (st.map.get_neighbors current) st.nCoin).1 with
      | nil =>
        rw [hcands] at hr
        dsimp only at hr
        refine ih _ ?_ ?_ ?_ r hr
        · exact hs
        · exact hco
        · intro c hc
          exact hstk c (by rw [hstack]; exact List.mem_cons_of_mem _ hc)
      | cons c0 cs =>
        rw [hcands] at hr
        dsimp only at hr
        have hlen : oracle.pick st.nPick % (c0 :: cs).length < (c0 :: cs).length :=
          Nat.mod_lt _ (Nat.succ_pos _)
        have hmemf : (c0 :: cs).getD (oracle.pick st.nPick % (c0 :: cs).length) default ∈
            (candidateFilter p oracle.coins st.visited (st.map.get_neighbors current)
              st.nCoin).1 := by
          rw [hcands, List.getD_eq_getElem?_getD, List.getElem?_eq_getElem hlen]
          exact List.getElem_mem hlen
        have hmem : (c0 :: cs).getD (oracle.pick st.nPick % (c0 :: cs).length) default ∈
            st.map.get_neighbors current := candidateFilter_subset hmemf
        rcases (mem_get_neighbors hs hco current _).mp hmem with ⟨d, hpos, hget⟩
        have hcurIn : (st.map.get_cell current.x current.y).isSome = true :=
          (get_cell_isSome hs _ _).mpr hcurB
        have hchIn : (st.map.get_cell
            ((c0 :: cs).getD (oracle.pick st.nPick % (c0 :: cs).length) default).x
            ((c0 :: cs).getD (oracle.pick st.nPick % (c0 :: cs).length) default).y).isSome =
            true := by
          rw [hget]
          rfl
        have hchB := (get_cell_isSome hs _ _).mp hchIn
        have hconn := connect_cells_eq hco hpos hcurIn hchIn
        rw [hconn] at hr
        dsimp only at hr
        refine ih _ ?_ ?_ ?_ r hr
        · exact mapShape_modifyCell (mapShape_modifyCell (mapShape_modifyCell hs _ _ _)
            _ _ _) _ _ _
        · exact coordsOk_modifyCell
            (coordsOk_modifyCell
              (coordsOk_modifyCell hco current.x current.y
                (fun c => openToward_coords c d)) _ _
              (fun c => openToward_coords c d.opposite))
            current.x current.y (fun c => ⟨rfl, rfl⟩)
        · intro c hc
          rcases List.mem_cons.mp hc with rfl | hc2
          · exact hchB
          rcases List.mem_cons.mp hc2 with rfl | hc3
          · exact hcurB
          · exact hstk c (by rw [hstack]; exact List.mem_cons_of_mem _ hc3)

/-- C3: with loop probability zero (or omitted), `generate_maze` on any
`w × h` grid with `w, h ≥ 1` terminates within `2*w*h` loop iterations for
every random source and yields a maze whose mutually-open wall connections
form a spanning tree of the `w × h` grid of cells: connected, acyclic, and
with exactly `w*h - 1` open connections. -/
theorem claim_C3 (w h : Nat) (hw : 0 < w) (hh : 0 < h) (oracle : Oracle)
    (lp : Option ℚ) (hlp : lp = none ∨ lp = some 0) :
    ∃ mm, generate_maze (2 * (w * h)) oracle w h lp = some (Except.ok mm) ∧
      (openGraph w h mm).IsTree ∧
      (openGraph w h mm).edgeFinset.card = w * h - 1 := by
  have hp0 : effectiveProb lp = 0 := by
    rcases hlp with rfl | rfl
    · rfl
    · simp [effectiveProb]
  have hwh : 0 < w * h := Nat.mul_pos hw hh
  unfold generate_maze
  dsimp only
  rw [get_cell_new, if_pos ⟨hw, hh⟩]
  dsimp only
  rw [hp0]
  obtain ⟨mm, v2, hrun, hfin⟩ := genLoop_zero w h oracle (2 * (w * h))
    { map := MazeMap.new w h (fun x y => oracle.colors (y * w + x))
      stack := [Cell.new 0 0 (oracle.colors (0 * w + 0))]
      visited := [Cell.new 0 0 (oracle.colors (0 * w + 0))]
      color := oracle.colors (w * h), nColor := w * h + 1
      nPick := 0, nCoin := 0 }
    (genInv_init w h hw hh (fun x y => oracle.colors (y * w + x)))
    (by
      dsimp only
      simp only [List.length_singleton]
      omega)
  refine ⟨mm, hrun, ?_⟩
  have hall := genInv_final_allVisited hfin
  have horig : ∀ a : Fin w × Fin h, (openGraph w h mm).Reachable
      ((⟨0, hw⟩, ⟨0, hh⟩) : Fin w × Fin h) a := by
    intro a
    rcases hall a.1.1 a.2.1 a.1.isLt a.2.isLt with ⟨cv, hcv, e1, e2⟩
    have hr := hfin.reach cv hcv
    have e1b : cv.x = a.1.1 := e1
    have e2b : cv.y = a.2.1 := e2
    rw [e1b, e2b] at hr
    exact rtg_openPair_reachable hfin.shape hr hw hh a.1.isLt a.2.isLt
  have hconn : (openGraph w h mm).Connected := by
    rw [SimpleGraph.connected_iff]
    refine ⟨fun a b => (horig a).symm.trans (horig b), ⟨(⟨0, hw⟩, ⟨0, hh⟩)⟩⟩
  have htree : (openGraph w h mm).IsTree := ⟨hconn, hfin.acyclic⟩
  refine ⟨htree, ?_⟩
  have hcard := htree.card_edgeFinset
  rw [Fintype.card_prod, Fintype.card_fin, Fintype.card_fin] at hcard
  omega

theorem claim_C3_witness :
    0 < 2 ∧ ((none : Option ℚ) = none ∨ (none : Option ℚ) = some 0) ∧
    ∃ mm, generate_maze (2 * (2 * 2))
        ⟨fun _ => Color.Blue, fun _ => 0, fun _ => false⟩ 2 2 none =
        some (Except.ok mm) ∧
      (openGraph 2 2 mm).IsTree ∧ (openGraph 2 2 mm).edgeFinset.card = 2 * 2 - 1 :=
  ⟨by decide, Or.inl rfl,
    claim_C3 2 2 (by decide) (by decide)
      ⟨fun _ => Color.Blue, fun _ => 0, fun _ => false⟩ none (Or.inl rfl)⟩

/-- C7: for every terminating run of `generate_maze`, the result is an error
exactly when one of the dimensions is zero, and a returned maze has exactly
the requested `w × h` shape (width, height, and a `h`-row grid of `w`-cell
rows). -/
theorem claim_C7 (fuel : Nat) (oracle : Oracle) (w h : Nat) (lp : Option ℚ)
    (r : Except String MazeMap) (hr : generate_maze fuel oracle w h lp = some r) :
    ((∃ e, r = Except.error e) ↔ (w = 0 ∨ h = 0)) ∧
      ∀ mm, r = Except.ok mm → mapShape w h mm := by
  by_cases hz : 0 < w ∧ 0 < h
  · unfold generate_maze at hr
    dsimp only at hr
    rw [get_cell_new, if_pos hz] at hr
    dsimp only at hr
    obtain ⟨mm, rfl, hshape⟩ := genLoop_no_error oracle (effectiveProb lp) fuel
      _ (mapShape_new w h _) (coordsOk_new w h _)
      (by
        intro c hc
        rw [List.mem_singleton] at hc
        subst hc
        exact hz) r hr
    constructor
    · constructor
      · rintro ⟨e, he⟩
        cases he
      · intro hzz
        rcases hzz with hzz | hzz <;> omega
    · intro mm2 hmm2
      injection hmm2 with hmm2
      rw [← hmm2]
      exact hshape
  · unfold generate_maze at hr
    dsimp only at hr
    rw [get_cell_new, if_neg hz] at hr
    dsimp only at hr
    injection hr with hr
    subst hr
    constructor
    · constructor
      · intro _
        by_contra hc
        push_neg at hc
        exact hz ⟨Nat.pos_of_ne_zero hc.1, Nat.pos_of_ne_zero hc.2⟩
      · intro _
        exact ⟨_, rfl⟩
    · intro mm hmm
      cases hmm

theorem claim_C7_witness :
    generate_maze 3 ⟨fun _ => Color.Blue, fun _ => 0, fun _ => false⟩ 0 2 none =
      some (Except.error "The maze must at least have the dimensions 1x1") ∧
    (((∃ e, (Except.error "The maze must at least have the dimensions 1x1" :
          Except String MazeMap) = Except.error e) ↔ ((0 : Nat) = 0 ∨ (2 : Nat) = 0)) ∧
      ∀ mm, (Except.error "The maze must at least have the dimensions 1x1" :
          Except String MazeMap) = Except.ok mm → mapShape 0 2 mm) :=
  ⟨rfl, claim_C7 3 ⟨fun _ => Color.Blue, fun _ => 0, fun _ => false⟩ 0 2 none
    (Except.error "The maze must at least have the dimensions 1x1") rfl⟩

/-! ### Valid traversal paths and their costs (claim C1) -/

/-- A sequence of states is a valid traversal of the map: every consecutive
pair is linked by the walkable-neighbour lookup. -/
def validSteps (m : Map) : List State → Bool
  | [] => true
  | [_] => true
  | a :: b :: rest =>
    decide (b.location ∈ m.get_reachable a.location.x a.location.y) &&
      validSteps m (b :: rest)

/-- The accumulated cost of a traversal: the sum of the (`u32`-cast) speeds of
every entered block, as the search accumulates it but without wrapping. -/
def stepsCost : List State → Nat
  | [] => 0
  | [_] => 0
  | _ :: b :: rest => b.location.speed32 + stepsCost (b :: rest)

/-- Some valid traversal leads from `a` to `s` at cost `c`. -/
def PathTo (m : Map) (a s : State) (c : Nat) : Prop :=
  ∃ p, validSteps m p = true ∧ p.head? = some a ∧ p.getLast? = some s ∧
    stepsCost p = c

/-- The heuristic of a state toward the destination, as `a_star` computes it
on nodes (the wrapping `i32` pipeline of `Node::euclidean_distance`). -/
def heurTo (dest : Block) (s : State) : Nat :=
  euclidPipe s.location.x s.location.y dest.x dest.y

/-- Below coordinate `2^15` the heuristic is the exact floor of the Euclidean
distance. -/
theorem heurTo_exact (dest : Block) (s : State)
    (hx1 : s.location.x < 2 ^ 15) (hy1 : s.location.y < 2 ^ 15)
    (hx2 : dest.x < 2 ^ 15) (hy2 : dest.y < 2 ^ 15) :
    heurTo dest s =
      Nat.sqrt (((s.location.x : Int) - dest.x).natAbs ^ 2 +
                ((s.location.y : Int) - dest.y).natAbs ^ 2) :=
  euclidPipe_exact s.location.x s.location.y dest.x dest.y hx1 hy1 hx2 hy2

theorem u32_id {n : Nat} (h : n < 2 ^ 32) : u32 n = n := Nat.mod_eq_of_lt h

theorem fval_heur (n : Node) (dest : Block) :
    n.fval dest = u32 (heurTo dest n.state + n.cost) := rfl

theorem speed32_pos (b : Block) : 1 ≤ b.speed32 := by
  have h1 : 1 ≤ u32 usizeMax := by
    unfold u32 usizeMax
    norm_num
  have h2 : 1 ≤ u32 5 := by decide
  have h3 : 1 ≤ u32 2 := by decide
  have h4 : 1 ≤ u32 1 := by decide
  have h5 : 1 ≤ u32 7 := by decide
  cases b with
  | mk x y t =>
    cases t <;> first | exact h1 | exact h2 | exact h3 | exact h4 | exact h5

theorem validSteps_cons_cons {m : Map} {a b : State} {rest : List State} :
    validSteps m (a :: b :: rest) = true ↔
      (b.location ∈ m.get_reachable a.location.x a.location.y ∧
        validSteps m (b :: rest) = true) := by
  show (decide (b.location ∈ m.get_reachable a.location.x a.location.y) &&
      validSteps m (b :: rest)) = true ↔ _
  rw [Bool.and_eq_true, decide_eq_true_eq]

theorem validSteps_snoc (m : Map) (b : State) :
    ∀ (p : List State) (u : State), p.getLast? = some u →
      (validSteps m (p ++ [b]) = true ↔
        (validSteps m p = true ∧
          b.location ∈ m.get_reachable u.location.x u.location.y)) := by
  intro p
  induction p with
  | nil =>
    intro u hu
    cases hu
  | cons a q ih =>
    intro u hu
    cases q with
    | nil =>
      have hu2 : a = u := by
        have : some a = some u := hu
        injection this
      subst hu2
      show validSteps m (a :: b :: []) = true ↔ _
      rw [validSteps_cons_cons]
      constructor
      · rintro ⟨h1, _⟩
        exact ⟨rfl, h1⟩
      · rintro ⟨_, h2⟩
        exact ⟨h2, rfl⟩
    | cons a2 q2 =>
      rw [List.getLast?_cons_cons] at hu
      have ih2 := ih u hu
      show validSteps m (a :: a2 :: (q2 ++ [b])) = true ↔ _
      rw [validSteps_cons_cons,
        show a2 :: (q2 ++ [b]) = (a2 :: q2) ++ [b] from rfl, ih2,
        validSteps_cons_cons]
      exact and_assoc.symm

theorem stepsCost_snoc (b : State) :
    ∀ (p : List State), p ≠ [] →
      stepsCost (p ++ [b]) = stepsCost p + b.location.speed32 := by
  intro p
  induction p with
  | nil =>
    intro h
    cases h rfl
  | cons a q ih =>
    intro _
    cases q with
    | nil =>
      show stepsCost [a, b] = stepsCost [a] + b.location.speed32
      show b.location.speed32 + stepsCost [b] = stepsCost [a] + b.location.speed32
      show b.location.speed32 + 0 = 0 + b.location.speed32
      omega
    | cons a2 q2 =>
      show stepsCost (a :: a2 :: (q2 ++ [b])) = _
      rw [show stepsCost (a :: a2 :: (q2 ++ [b])) =
          a2.location.speed32 + stepsCost (a2 :: (q2 ++ [b])) from rfl,
        show a2 :: (q2 ++ [b]) = (a2 :: q2) ++ [b] from rfl,
        ih (by simp),
        show stepsCost (a :: a2 :: q2) =
          a2.location.speed32 + stepsCost (a2 :: q2) from rfl]
      omega

theorem get_steps_ne_nil (n : Node) : n.get_steps ≠ [] := by
  unfold Node.get_steps
  simp

theorem get_steps_getLast (n : Node) : n.get_steps.getLast? = some n.state := by
  unfold Node.get_steps
  rw [List.getLast?_reverse]
  rfl

theorem get_steps_child (n : Node) (s : State) (c : Nat) :
    (n.child s c).get_steps = n.get_steps ++ [s] := by
  unfold Node.get_steps Node.child
  show (s :: (n.state :: n.parentChain.map Prod.fst)).reverse = _
  rw [List.reverse_cons]

/-- The popped or stored nodes of the search are backed by valid traversals:
the recorded step list is a valid path from the start whose summed step cost
is exactly the node's accumulated cost. -/
def nodeOK (m : Map) (a : State) (n : Node) : Prop :=
  validSteps m n.get_steps = true ∧ n.get_steps.head? = some a ∧
    stepsCost n.get_steps = n.cost

theorem nodeOK_pathTo {m : Map} {a : State} {n : Node} (h : nodeOK m a n) :
    PathTo m a n.state n.cost :=
  ⟨n.get_steps, h.1, h.2.1, get_steps_getLast n, h.2.2⟩

theorem nodeOK_child {m : Map} {a : State} {n : Node} (h : nodeOK m a n) {b : Block}
    (hb : b ∈ m.get_reachable n.state.location.x n.state.location.y)
    {c : Nat} (hc : c = n.cost + b.speed32) :
    nodeOK m a (n.child { location := b } c) := by
  refine ⟨?_, ?_, ?_⟩
  · rw [get_steps_child]
    exact (validSteps_snoc m _ _ _ (get_steps_getLast n)).mpr ⟨h.1, hb⟩
  · rw [get_steps_child, List.head?_append, h.2.1]
    rfl
  · rw [get_steps_child, stepsCost_snoc _ _ (get_steps_ne_nil n), h.2.2, hc]
    rfl

/-- The last state of a valid traversal is its first state or a block served
by the neighbour lookup somewhere. -/
theorem pathTo_last_cases {m : Map} {a s : State} {c : Nat} (h : PathTo m a s c) :
    s = a ∨ ∃ x y, s.location ∈ m.get_reachable x y := by
  rcases h with ⟨p, hv, hh, hl, _⟩
  have main : ∀ (q : List State) (a0 : State), validSteps m (a0 :: q) = true →
      (a0 :: q).getLast? = some s →
      s = a0 ∨ ∃ x y, s.location ∈ m.get_reachable x y := by
    intro q
    induction q with
    | nil =>
      intro a0 _ hl2
      have h2 : some a0 = some s := hl2
      injection h2 with h2
      exact Or.inl h2.symm
    | cons b q' ih =>
      intro a0 hv2 hl2
      have hd := validSteps_cons_cons.mp hv2
      rw [List.getLast?_cons_cons] at hl2
      rcases ih b hd.2 hl2 with h3 | h3
      · subst h3
        exact Or.inr ⟨a0.location.x, a0.location.y, hd.1⟩
      · exact Or.inr h3
  rcases p with _ | ⟨a0, q⟩
  · cases hh
  · have ha0 : a0 = a := by
      injection hh
    subst ha0
    exact main q a0 hv hl

theorem sqrt_add_le {A B : Nat} (h : B ≤ A + 2 * Nat.sqrt A + 1) :
    Nat.sqrt B ≤ Nat.sqrt A + 1 := by
  have h1 : Nat.sqrt B ≤ Nat.sqrt (A + 2 * Nat.sqrt A + 1) := Nat.sqrt_le_sqrt h
  have h3 : Nat.sqrt (A + 2 * Nat.sqrt A + 1) < Nat.sqrt A + 2 := by
    rw [Nat.sqrt_lt]
    nlinarith [Nat.lt_succ_sqrt A]
  omega

theorem heur_step_core (dx dy ux uy vx vy : Nat)
    (hadj : (vx = ux + 1 ∧ vy = uy) ∨ (ux = vx + 1 ∧ vy = uy) ∨
            (vx = ux ∧ vy = uy + 1) ∨ (vx = ux ∧ uy = vy + 1)) :
    Nat.sqrt (((ux : Int) - dx).natAbs ^ 2 + ((uy : Int) - dy).natAbs ^ 2) ≤
      Nat.sqrt (((vx : Int) - dx).natAbs ^ 2 + ((vy : Int) - dy).natAbs ^ 2) + 1 := by
  set au := ((ux : Int) - dx).natAbs with hau
  set bu := ((uy : Int) - dy).natAbs with hbu
  set av := ((vx : Int) - dx).natAbs with hav
  set bv := ((vy : Int) - dy).natAbs with hbv
  have hx : au ≤ av + 1 ∧ bu = bv ∨ au = av ∧ bu ≤ bv + 1 := by
    rcases hadj with ⟨h1, h2⟩ | ⟨h1, h2⟩ | ⟨h1, h2⟩ | ⟨h1, h2⟩
    · exact Or.inl ⟨by omega, by omega⟩
    · exact Or.inl ⟨by omega, by omega⟩
    · exact Or.inr ⟨by omega, by omega⟩
    · exact Or.inr ⟨by omega, by omega⟩
  apply sqrt_add_le
  have hsq : av ≤ Nat.sqrt (av ^ 2 + bv ^ 2) := by
    rw [Nat.le_sqrt]
    nlinarith
  have hsq2 : bv ≤ Nat.sqrt (av ^ 2 + bv ^ 2) := by
    rw [Nat.le_sqrt]
    nlinarith
  rcases hx with ⟨h1, h2⟩ | ⟨h1, h2⟩
  · nlinarith
  · nlinarith

theorem mem_get_reachable_elim {m : Map} {x y : Nat} {b : Block}
    (h : b ∈ m.get_reachable x y) :
    b.is_walkable = true ∧
      (m.get_block (x - 1) y = some b ∧ 0 < x ∨
       m.get_block x (y - 1) = some b ∧ 0 < y ∨
       m.get_block (x + 1) y = some b ∨
       m.get_block x (y + 1) = some b) := by
  unfold Map.get_reachable at h
  have hw := (List.mem_filter.mp h).2
  have h2 := (List.mem_filter.mp h).1
  rcases List.mem_filterMap.mp h2 with ⟨o, ho, hob⟩
  have hob2 : o = some b := hob
  subst hob2
  refine ⟨hw, ?_⟩
  rcases List.mem_append.mp ho with h3 | h4
  rcases List.mem_append.mp h3 with h5 | h6
  rcases List.mem_append.mp h5 with h7 | h8
  · by_cases hx : x > 0
    · rw [if_pos hx] at h7
      exact Or.inl ⟨(List.mem_singleton.mp h7).symm, hx⟩
    · rw [if_neg hx] at h7
      cases h7
  · by_cases hy : y > 0
    · rw [if_pos hy] at h8
      exact Or.inr (Or.inl ⟨(List.mem_singleton.mp h8).symm, hy⟩)
    · rw [if_neg hy] at h8
      cases h8
  · by_cases hx : x < m.width
    · rw [if_pos hx] at h6
      exact Or.inr (Or.inr (Or.inl (List.mem_singleton.mp h6).symm))
    · rw [if_neg hx] at h6
      cases h6
  · by_cases hy : y < m.height
    · rw [if_pos hy] at h4
      exact Or.inr (Or.inr (Or.inr (List.mem_singleton.mp h4).symm))
    · rw [if_neg hy] at h4
      cases h4

theorem reachable_adjacent {m : Map}
    (hcoh : ∀ x y b, m.get_block x y = some b → b.x = x ∧ b.y = y)
    {x y : Nat} {b : Block} (h : b ∈ m.get_reachable x y) :
    (b.x = x + 1 ∧ b.y = y) ∨ (x = b.x + 1 ∧ b.y = y) ∨
      (b.x = x ∧ b.y = y + 1) ∨ (b.x = x ∧ y = b.y + 1) := by
  rcases (mem_get_reachable_elim h).2 with ⟨h1, hx⟩ | ⟨h1, hy⟩ | h1 | h1
  · rcases hcoh _ _ _ h1 with ⟨e1, e2⟩
    exact Or.inr (Or.inl ⟨by omega, e2⟩)
  · rcases hcoh _ _ _ h1 with ⟨e1, e2⟩
    exact Or.inr (Or.inr (Or.inr ⟨e1, by omega⟩))
  · rcases hcoh _ _ _ h1 with ⟨e1, e2⟩
    exact Or.inl ⟨e1, e2⟩
  · rcases hcoh _ _ _ h1 with ⟨e1, e2⟩
    exact Or.inr (Or.inr (Or.inl ⟨e1, e2⟩))

/-- Within the exact region of the heuristic pipeline, a single grid step
changes the heuristic by at most one. -/
theorem heur_consistent {m : Map}
    (hcoh : ∀ x y b, m.get_block x y = some b → b.x = x ∧ b.y = y)
    (hcm : ∀ x y b, m.get_block x y = some b → b.x < 2 ^ 15 ∧ b.y < 2 ^ 15)
    {u : State} {b : Block}
    (hub : u.location.x < 2 ^ 15 ∧ u.location.y < 2 ^ 15)
    (h : b ∈ m.get_reachable u.location.x u.location.y) (dest : Block)
    (hdb : dest.x < 2 ^ 15 ∧ dest.y < 2 ^ 15) :
    heurTo dest u ≤ heurTo dest { location := b } + 1 := by
  have hadj := reachable_adjacent hcoh h
  have hbB : b.x < 2 ^ 15 ∧ b.y < 2 ^ 15 := by
    rcases (mem_get_reachable_elim h).2 with ⟨h4, _⟩ | ⟨h4, _⟩ | h4 | h4 <;>
      exact hcm _ _ _ h4
  rw [heurTo_exact dest u hub.1 hub.2 hdb.1 hdb.2,
    heurTo_exact dest { location := b } hbB.1 hbB.2 hdb.1 hdb.2]
  exact heur_step_core dest.x dest.y u.location.x u.location.y b.x b.y hadj

theorem reachedFind_mem {r : Reached} {s : State} {n : Node}
    (h : reachedFind r s = some n) : (s, n) ∈ r := by
  unfold reachedFind at h
  rcases Option.map_eq_some'.mp h with ⟨e, he, hn⟩
  have h1 := List.find?_some he
  have h2 := List.mem_of_find?_eq_some he
  have h3 : e.1 = s := of_decide_eq_true h1
  subst hn
  rw [← h3]
  exact h2

theorem find?_filter_ne (r : Reached) (k s : State) (hne : s ≠ k) :
    List.find? (fun e => decide (e.1 = s)) (List.filter (fun e => decide (¬ e.1 = k)) r) =
      List.find? (fun e => decide (e.1 = s)) r := by
  induction r with
  | nil => rfl
  | cons a tl ih =>
    by_cases ha : a.1 = k
    · rw [List.filter_cons, if_neg (by simp [ha]), ih,
        List.find?_cons_of_neg _ (by simp [ha]; exact fun hc => hne (hc ▸ ha ▸ rfl))]
    · rw [List.filter_cons, if_pos (by simp [ha])]
      by_cases hs : a.1 = s
      · rw [List.find?_cons_of_pos _ (by simp [hs]), List.find?_cons_of_pos _ (by simp [hs])]
      · rw [List.find?_cons_of_neg _ (by simp [hs]), List.find?_cons_of_neg _ (by simp [hs]),
          ih]

theorem reachedFind_insert_other {r : Reached} {k : State} {c : Node} {s : State}
    (hne : s ≠ k) : reachedFind (reachedInsert r k c) s = reachedFind r s := by
  unfold reachedFind reachedInsert
  rw [List.find?_cons_of_neg _ (by simp; exact fun hc => hne hc.symm)]
  rw [find?_filter_ne r k s hne]

theorem mem_reachedInsert_elim {r : Reached} {k : State} {c : Node} {e : State × Node}
    (h : e ∈ reachedInsert r k c) : e = (k, c) ∨ (e ∈ r ∧ e.1 ≠ k) := by
  unfold reachedInsert at h
  rcases List.mem_cons.mp h with h1 | h1
  · exact Or.inl h1
  · have := List.mem_filter.mp h1
    exact Or.inr ⟨this.1, by simpa using this.2⟩

theorem reachedInsert_keys_nodup {r : Reached} {k : State} {c : Node}
    (h : (r.map Prod.fst).Nodup) :
    ((reachedInsert r k c).map Prod.fst).Nodup := by
  unfold reachedInsert
  rw [List.map_cons, List.nodup_cons]
  constructor
  · intro hmem
    rcases List.mem_map.mp hmem with ⟨e, he, hk⟩
    have := (List.mem_filter.mp he).2
    simp at this
    exact this hk
  · have hsub : (List.filter (fun e => decide (¬ e.1 = k)) r).map Prod.fst
        |>.Sublist (r.map Prod.fst) := (List.filter_sublist r).map Prod.fst
    exact hsub.nodup h

theorem mem_frontierPush_of_ne {l : Frontier} {n : Node} {p : Nat} {e : Node × Nat}
    (he : e ∈ l) (hne : e.1 ≠ n) : e ∈ frontierPush l n p := by
  unfold frontierPush
  split
  · refine List.mem_map.mpr ⟨e, he, ?_⟩
    rw [if_neg hne]
  · exact List.mem_append_left _ he

theorem mem_frontierRemove_of_ne {l : Frontier} {n : Node} {e : Node × Nat}
    (he : e ∈ l) (hne : e.1 ≠ n) : e ∈ frontierRemove l n :=
  List.mem_filter.mpr ⟨he, by simpa using hne⟩

theorem pop_rest_of_mem {l rest : Frontier} {e e2 : Node × Nat}
    (h : frontierPop l = some (e, rest)) (h2 : e2 ∈ l) (hne : e2 ≠ e) : e2 ∈ rest := by
  rcases frontierPop_split h with ⟨⟨l1, l2, hl, hr⟩, _⟩
  subst hl
  subst hr
  rcases List.mem_append.mp h2 with h3 | h3
  · exact List.mem_append_left _ h3
  · rcases List.mem_cons.mp h3 with rfl | h4
    · exact absurd rfl hne
    · exact List.mem_append_right _ h4

theorem pop_mem {l rest : Frontier} {e : Node × Nat}
    (h : frontierPop l = some (e, rest)) : e ∈ l := by
  rcases frontierPop_split h with ⟨⟨l1, l2, hl, _⟩, _⟩
  subst hl
  exact List.mem_append_right _ (List.mem_cons_self _ _)

theorem reachedFind_eq_none_iff {r : Reached} {s : State} :
    reachedFind r s = none ↔ ∀ e ∈ r, e.1 ≠ s := by
  unfold reachedFind
  rw [Option.map_eq_none', List.find?_eq_none]
  constructor
  · intro h e he
    have := h e he
    simpa using this
  · intro h e he
    simpa using h e he

/-- The numeric side conditions of the amended optimality claim: coherent
block coordinates, all coordinates inside the exact region of the `i32`
heuristic pipeline (below `2^15`), a bound `S` on walkable step costs, a
bound `E` on the heuristic over the map and the start, a bound `B` on a
cheapest path to every reachable state, and the guarantee that these stay
below the `u32` modulus. -/
structure SearchHyps (m : Map) (startState : State) (dest : Block) (S E B : Nat) :
    Prop where
  coh : ∀ x y b, m.get_block x y = some b → b.x = x ∧ b.y = y
  coordMap : ∀ x y b, m.get_block x y = some b → b.x < 2 ^ 15 ∧ b.y < 2 ^ 15
  coordStart : startState.location.x < 2 ^ 15 ∧ startState.location.y < 2 ^ 15
  coordDest : dest.x < 2 ^ 15 ∧ dest.y < 2 ^ 15
  stepLe : ∀ x y b, b ∈ m.get_reachable x y → b.speed32 ≤ S
  heurLe : ∀ x y b, b ∈ m.get_reachable x y → heurTo dest { location := b } ≤ E
  heurStart : heurTo dest startState ≤ E
  pathB : ∀ s c, PathTo m startState s c → ∃ c2, c2 ≤ B ∧ PathTo m startState s c2
  small : B + 2 * S + E < 2 ^ 32

/-- The structural part of the `a_star` loop invariant.  `T` is the ghost
trace of popped (settled) `(state, cost)` pairs. -/
structure ABase (m : Map) (startState : State) (dest : Block) (S E B : Nat)
    (T : List (State × Nat)) (st : SearchState) : Prop where
  front : ∀ e ∈ st.frontier, nodeOK m startState e.1 ∧ e.2 = e.1.fval dest ∧
    e.1.cost ≤ B + S ∧ heurTo dest e.1.state ≤ E
  startIn : startState ∉ T.map Prod.fst →
    (firstNode startState.location, (firstNode startState.location).fval dest) ∈
      st.frontier
  reachedOK : ∀ e ∈ st.reached, e.2.state = e.1 ∧ nodeOK m startState e.2 ∧
    e.2.parentChain ≠ [] ∧ e.2.cost ≤ B + S ∧ heurTo dest e.1 ≤ E
  reachedKeys : (st.reached.map Prod.fst).Nodup
  inv3 : ∀ e ∈ st.reached, e.1 ∉ T.map Prod.fst → (e.2, e.2.fval dest) ∈ st.frontier
  destNot : ∀ s ∈ T.map Prod.fst, s.location ≠ dest

/-- The settled-closure invariant, restricted to a list of neighbour blocks:
each listed neighbour of `s` is reached at a cost of at most (any path cost to
`s`) plus the step. -/
def inv2At (m : Map) (startState : State) (st : SearchState) (s : State)
    (bs : List Block) : Prop :=
  ∀ b ∈ bs, ∃ nv, reachedFind st.reached { location := b } = some nv ∧
    ∀ c2, PathTo m startState s c2 → nv.cost ≤ c2 + b.speed32

/-- The full `a_star` loop invariant. -/
structure AInv (m : Map) (startState : State) (dest : Block) (S E B : Nat)
    (T : List (State × Nat)) (st : SearchState) : Prop where
  base : ABase m startState dest S E B T st
  inv2 : ∀ s ∈ T.map Prod.fst, inv2At m startState st s
    (m.get_reachable s.location.x s.location.y)

/-- The heart of the optimality argument: any priority below every frontier
priority is at most (path cost) + (heuristic at the path's end) for every
valid path from the start ending at an unsettled state.  The proof walks the
path to its first unsettled state, which is covered either by the pending
start node or, past a settled predecessor, by the reached index and the
frontier. -/
theorem pathBound_aux {m : Map} {startState : State} {dest : Block} {S E B : Nat}
    {T : List (State × Nat)} {st : SearchState}
    (H : SearchHyps m startState dest S E B)
    (hinv : AInv m startState dest S E B T st)
    {fm : Nat} (hminf : ∀ e2 ∈ st.frontier, fm ≤ e2.2) :
    ∀ p, validSteps m p = true → p.head? = some startState →
      ∀ t, p.getLast? = some t → t ∉ T.map Prod.fst →
        fm ≤ stepsCost p + heurTo dest t := by
  intro p
  induction p using List.reverseRecOn with
  | nil =>
    intro _ hh
    cases hh
  | append_singleton q t' ihq =>
    intro hv hh t hlast hfresh
    have ht : t = t' := by
      rw [List.getLast?_concat] at hlast
      injection hlast with hlast
      exact hlast.symm
    subst ht
    cases q with
    | nil =>
      have hts : t = startState := by
        have h2 : some t = some startState := hh
        injection h2
      rw [hts] at hfresh ⊢
      have hst := hinv.base.startIn hfresh
      have hf : fm ≤ (firstNode startState.location).fval dest :=
        hminf (firstNode startState.location, (firstNode startState.location).fval dest) hst
      rw [fval_heur] at hf
      have hheur : heurTo dest (firstNode startState.location).state =
          heurTo dest startState := rfl
      rw [hheur] at hf
      have hc0 : (firstNode startState.location).cost = 0 := rfl
      rw [hc0] at hf
      rw [u32_id (by have := H.heurStart; have := H.small; omega)] at hf
      have hsc : stepsCost ([] ++ [startState]) = 0 := rfl
      rw [hsc]
      have := H.heurStart
      omega
    | cons u' q' =>
      have hqne : (u' :: q') ≠ ([] : List State) := by simp
      cases hlq : (u' :: q').getLast? with
      | none => simp at hlq
      | some u =>
        have hdec := (validSteps_snoc m t (u' :: q') u hlq).mp hv
        have hvq := hdec.1
        have hmem := hdec.2
        have headq : (u' :: q').head? = some startState := by
          rw [List.head?_append] at hh
          exact hh
        rw [stepsCost_snoc _ _ hqne]
        by_cases hset : u ∈ T.map Prod.fst
        · rcases hinv.inv2 u hset t.location hmem with ⟨nv, hfind, hbound⟩
          have hPq : PathTo m startState u (stepsCost (u' :: q')) :=
            ⟨u' :: q', hvq, headq, hlq, rfl⟩
          have hnv := hbound _ hPq
          have hmem2 := reachedFind_mem hfind
          have hfr : (nv, nv.fval dest) ∈ st.frontier :=
            hinv.base.inv3 _ hmem2 hfresh
          have hf : fm ≤ nv.fval dest := hminf (nv, nv.fval dest) hfr
          have hro := hinv.base.reachedOK _ hmem2
          have hro1 : nv.state = { location := t.location } := hro.1
          have hcb : nv.cost ≤ B + S := hro.2.2.2.1
          have hhb : heurTo dest ({ location := t.location } : State) ≤ E :=
            hro.2.2.2.2
          rw [fval_heur, hro1] at hf
          have hteta : heurTo dest ({ location := t.location } : State) =
              heurTo dest t := rfl
          rw [hteta] at hf hhb
          rw [u32_id (by have := H.small; omega)] at hf
          omega
        · have ihres := ihq hvq headq u hlq hset
          have hub : u.location.x < 2 ^ 15 ∧ u.location.y < 2 ^ 15 := by
            rcases pathTo_last_cases ⟨u' :: q', hvq, headq, hlq, rfl⟩ with rfl | ⟨x2, y2, hmem2⟩
            · exact H.coordStart
            · rcases (mem_get_reachable_elim hmem2).2 with
                ⟨h4, _⟩ | ⟨h4, _⟩ | h4 | h4 <;> exact H.coordMap _ _ _ h4
          have hcons := heur_consistent H.coh H.coordMap hub hmem dest H.coordDest
          have hsp := speed32_pos t.location
          have hteta : heurTo dest { location := t.location } = heurTo dest t := rfl
          rw [hteta] at hcons
          omega

/-- Processing one neighbour of a freshly settled optimal node preserves the
structural invariant, preserves every established closure fact, and
establishes the closure fact for that neighbour. -/
theorem expand_step {m : Map} {startState : State} {dest : Block} {S E B : Nat}
    {T' : List (State × Nat)} {stM : SearchState} {n : Node}
    (H : SearchHyps m startState dest S E B)
    (hnode : nodeOK m startState n) (hncost : n.cost ≤ B)
    (hnopt : ∀ c2, PathTo m startState n.state c2 → n.cost ≤ c2)
    (hbase : ABase m startState dest S E B T' stM)
    {b : Block} (hb : b ∈ m.get_reachable n.state.location.x n.state.location.y) :
    ABase m startState dest S E B T' (expandNeighbor dest n stM b) ∧
      (∀ s' bs, inv2At m startState stM s' bs →
        inv2At m startState (expandNeighbor dest n stM b) s' bs) ∧
      (∃ nv, reachedFind (expandNeighbor dest n stM b).reached { location := b } =
          some nv ∧ ∀ c2, PathTo m startState n.state c2 → nv.cost ≤ c2 + b.speed32) := by
  have hsLe := H.stepLe _ _ _ hb
  have hwrap : u32 (n.cost + b.speed32) = n.cost + b.speed32 :=
    u32_id (by have := H.small; omega)
  have hcOK : nodeOK m startState (n.child { location := b } (u32 (n.cost + b.speed32))) :=
    nodeOK_child hnode hb hwrap
  have hccost : (n.child { location := b } (u32 (n.cost + b.speed32))).cost =
      n.cost + b.speed32 := hwrap
  have hcheur : heurTo dest (n.child { location := b } (u32 (n.cost + b.speed32))).state ≤
      E := H.heurLe _ _ _ hb
  have hcbound : (n.child { location := b } (u32 (n.cost + b.speed32))).cost ≤ B + S := by
    rw [hccost]
    omega
  have hcchain : (n.child { location := b } (u32 (n.cost + b.speed32))).parentChain ≠ [] :=
    List.cons_ne_nil _ _
  rcases hfind : reachedFind stM.reached { location := b } with _ | old
  · -- fresh state: insert into both structures
    have hstep : expandNeighbor dest n stM b =
        { reached := reachedInsert stM.reached { location := b }
            (n.child { location := b } (u32 (n.cost + b.speed32)))
          frontier := frontierPush stM.frontier
            (n.child { location := b } (u32 (n.cost + b.speed32)))
            ((n.child { location := b } (u32 (n.cost + b.speed32))).fval dest) } := by
      unfold expandNeighbor
      dsimp only
      rw [hfind]
    rw [hstep]
    refine ⟨⟨?_, ?_, ?_, ?_, ?_, hbase.destNot⟩, ?_, ?_⟩
    · intro e he
      rcases mem_frontierPush_elim he with rfl | h1
      · exact ⟨hcOK, rfl, hcbound, hcheur⟩
      · exact hbase.front e h1
    · intro hs
      exact mem_frontierPush_of_ne (hbase.startIn hs)
        (fun he => hcchain (by rw [← he]; rfl))
    · intro e he
      rcases mem_reachedInsert_elim he with rfl | ⟨h1, _⟩
      · exact ⟨rfl, hcOK, hcchain, hcbound, hcheur⟩
      · exact hbase.reachedOK e h1
    · exact reachedInsert_keys_nodup hbase.reachedKeys
    · intro e he hfr
      rcases mem_reachedInsert_elim he with rfl | ⟨h1, hne⟩
      · exact mem_frontierPush_self _ _ _
      · refine mem_frontierPush_of_ne (hbase.inv3 e h1 hfr) ?_
        intro he2
        have he3 : e.2 = n.child { location := b } (u32 (n.cost + b.speed32)) := he2
        apply hne
        rw [← (hbase.reachedOK e h1).1, he3]
        rfl
    · intro s' bs hprev b' hb'
      rcases hprev b' hb' with ⟨nv, hf2, hbnd⟩
      by_cases hbb : b' = b
      · subst hbb
        rw [hfind] at hf2
        cases hf2
      · refine ⟨nv, ?_, hbnd⟩
        show reachedFind (reachedInsert _ _ _) _ = some nv
        rw [reachedFind_insert_other (fun he => hbb (by injection he))]
        exact hf2
    · refine ⟨n.child { location := b } (u32 (n.cost + b.speed32)), ?_, ?_⟩
      · exact reachedFind_insert_self _ _ _
      · intro c2 hp
        have := hnopt c2 hp
        rw [hccost]
        omega
  · -- already reached: replace on strict improvement, otherwise no-op
    have holdmem : ({ location := b }, old) ∈ stM.reached := reachedFind_mem hfind
    have holdOK := hbase.reachedOK _ holdmem
    have holdstate : old.state = { location := b } := holdOK.1
    have holdchain : old.parentChain ≠ [] := holdOK.2.2.1
    by_cases hlt :
        (n.child { location := b } (u32 (n.cost + b.speed32))).cost < old.cost
    · have hstep : expandNeighbor dest n stM b =
          { frontier := frontierPush
              (frontierRemove stM.frontier old)
              (n.child { location := b } (u32 (n.cost + b.speed32)))
              ((n.child { location := b } (u32 (n.cost + b.speed32))).fval dest)
            reached := reachedInsert stM.reached { location := b }
              (n.child { location := b } (u32 (n.cost + b.speed32))) } := by
        unfold expandNeighbor
        dsimp only
        rw [hfind]
        dsimp only
        rw [if_pos hlt]
      rw [hstep]
      refine ⟨⟨?_, ?_, ?_, ?_, ?_, hbase.destNot⟩, ?_, ?_⟩
      · intro e he
        rcases mem_frontierPush_elim he with rfl | h1
        · exact ⟨hcOK, rfl, hcbound, hcheur⟩
        · exact hbase.front e (mem_frontierRemove_elim h1).1
      · intro hs
        refine mem_frontierPush_of_ne (mem_frontierRemove_of_ne (hbase.startIn hs) ?_)
          (fun he => hcchain (by rw [← he]; rfl))
        intro he2
        exact holdchain (by rw [← he2]; rfl)
      · intro e he
        rcases mem_reachedInsert_elim he with rfl | ⟨h1, _⟩
        · exact ⟨rfl, hcOK, hcchain, hcbound, hcheur⟩
        · exact hbase.reachedOK e h1
      · exact reachedInsert_keys_nodup hbase.reachedKeys
      · intro e he hfr
        rcases mem_reachedInsert_elim he with rfl | ⟨h1, hne⟩
        · exact mem_frontierPush_self _ _ _
        · refine mem_frontierPush_of_ne
            (mem_frontierRemove_of_ne (hbase.inv3 e h1 hfr) ?_) ?_
          · intro he2
            have he3 : e.2 = old := he2
            apply hne
            rw [← (hbase.reachedOK e h1).1, he3, holdstate]
          · intro he2
            have he3 : e.2 = n.child { location := b } (u32 (n.cost + b.speed32)) := he2
            apply hne
            rw [← (hbase.reachedOK e h1).1, he3]
            rfl
      · intro s' bs hprev b' hb'
        rcases hprev b' hb' with ⟨nv, hf2, hbnd⟩
        by_cases hbb : b' = b
        · subst hbb
          rw [hfind] at hf2
          injection hf2 with hf2
          subst hf2
          refine ⟨n.child { location := b' } (u32 (n.cost + b'.speed32)), ?_, ?_⟩
          · exact reachedFind_insert_self _ _ _
          · intro c2 hp
            have := hbnd c2 hp
            omega
        · refine ⟨nv, ?_, hbnd⟩
          show reachedFind (reachedInsert _ _ _) _ = some nv
          rw [reachedFind_insert_other (fun he => hbb (by injection he))]
          exact hf2
      · refine ⟨n.child { location := b } (u32 (n.cost + b.speed32)), ?_, ?_⟩
        · exact reachedFind_insert_self _ _ _
        · intro c2 hp
          have := hnopt c2 hp
          rw [hccost]
          omega
    · have hstep : expandNeighbor dest n stM b = stM := by
        unfold expandNeighbor
        dsimp only
        rw [hfind]
        dsimp only
        rw [if_neg hlt]
      rw [hstep]
      refine ⟨hbase, fun s' bs h => h, ⟨old, hfind, ?_⟩⟩
      intro c2 hp
      have h1 := hnopt c2 hp
      rw [hccost] at hlt
      omega

/-- Folding the expansion over a list of neighbours of a freshly settled
optimal node preserves the structural invariant and established closure
facts, and establishes the closure fact for every listed neighbour. -/
theorem expand_fold {m : Map} {startState : State} {dest : Block} {S E B : Nat}
    {T' : List (State × Nat)} {n : Node}
    (H : SearchHyps m startState dest S E B)
    (hnode : nodeOK m startState n) (hncost : n.cost ≤ B)
    (hnopt : ∀ c2, PathTo m startState n.state c2 → n.cost ≤ c2) :
    ∀ (bs : List Block) (stM : SearchState),
      (∀ b ∈ bs, b ∈ m.get_reachable n.state.location.x n.state.location.y) →
      ABase m startState dest S E B T' stM →
      ABase m startState dest S E B T'
          (List.foldl (expandNeighbor dest n) stM bs) ∧
        (∀ s' bs0, inv2At m startState stM s' bs0 →
          inv2At m startState (List.foldl (expandNeighbor dest n) stM bs) s' bs0) ∧
        inv2At m startState (List.foldl (expandNeighbor dest n) stM bs) n.state bs := by
  intro bs
  induction bs with
  | nil =>
    intro stM _ hbase
    exact ⟨hbase, fun s' bs0 h => h, fun b hb => absurd hb (List.not_mem_nil b)⟩
  | cons b bs' ih =>
    intro stM hsub hbase
    have hstep := expand_step H hnode hncost hnopt hbase
      (hsub b (List.mem_cons_self _ _))
    have hsub' : ∀ b2 ∈ bs', b2 ∈ m.get_reachable n.state.location.x
        n.state.location.y := fun b2 hb2 => hsub b2 (List.mem_cons_of_mem _ hb2)
    have hfold := ih (expandNeighbor dest n stM b) hsub' hstep.1
    have hone : inv2At m startState (expandNeighbor dest n stM b) n.state [b] := by
      intro b' hb'
      rw [List.mem_singleton] at hb'
      subst hb'
      exact hstep.2.2
    refine ⟨hfold.1, ?_, ?_⟩
    · intro s' bs0 h
      exact hfold.2.1 s' bs0 (hstep.2.1 s' bs0 h)
    · intro b' hb'
      rcases List.mem_cons.mp hb' with rfl | hb2
      · exact hfold.2.1 _ _ hone b' (List.mem_singleton.mpr rfl)
      · exact hfold.2.2 b' hb2

/-- Re-expanding an already settled state is a no-op: every neighbour already
carries a reached cost at most the popped cost plus the step. -/
theorem expand_noop_fold {m : Map} {startState : State} {dest : Block} {S E B : Nat}
    {stM : SearchState} {n : Node}
    (H : SearchHyps m startState dest S E B)
    (hnode : nodeOK m startState n) (hncost2 : n.cost ≤ B + S)
    (hinv2s : inv2At m startState stM n.state
      (m.get_reachable n.state.location.x n.state.location.y)) :
    ∀ bs, (∀ b ∈ bs, b ∈ m.get_reachable n.state.location.x n.state.location.y) →
      List.foldl (expandNeighbor dest n) stM bs = stM := by
  intro bs
  induction bs with
  | nil => intro _; rfl
  | cons b bs' ih =>
    intro hsub
    have hb := hsub b (List.mem_cons_self _ _)
    rcases hinv2s b hb with ⟨nv, hfind, hbound⟩
    have hsLe := H.stepLe _ _ _ hb
    have hwrap : u32 (n.cost + b.speed32) = n.cost + b.speed32 :=
      u32_id (by have := H.small; omega)
    have hge := hbound n.cost (nodeOK_pathTo hnode)
    have hnoop : expandNeighbor dest n stM b = stM := by
      unfold expandNeighbor
      dsimp only
      rw [hfind]
      dsimp only
      rw [if_neg (by rw [show (n.child { location := b }
        (u32 (n.cost + b.speed32))).cost = u32 (n.cost + b.speed32) from rfl, hwrap]; omega)]
    show List.foldl (expandNeighbor dest n) (expandNeighbor dest n stM b) bs' = stM
    rw [hnoop]
    exact ih (fun b2 hb2 => hsub b2 (List.mem_cons_of_mem _ hb2))

theorem pop_rest_sub {l rest : Frontier} {e : Node × Nat}
    (h : frontierPop l = some (e, rest)) : ∀ e2 ∈ rest, e2 ∈ l := by
  rcases frontierPop_split h with ⟨⟨l1, l2, hl, hr⟩, _⟩
  subst hl
  subst hr
  intro e2 h2
  rcases List.mem_append.mp h2 with h3 | h3
  · exact List.mem_append_left _ h3
  · exact List.mem_append_right _ (List.mem_cons_of_mem _ h3)

/-- A popped minimal-`f` node at an unsettled state carries an optimal cost. -/
theorem pop_min_optimal {m : Map} {startState : State} {dest : Block} {S E B : Nat}
    {T : List (State × Nat)} {st : SearchState}
    (H : SearchHyps m startState dest S E B)
    (hinv : AInv m startState dest S E B T st)
    {e : Node × Nat} {rest : Frontier}
    (hpop : frontierPop st.frontier = some (e, rest))
    (hfresh : e.1.state ∉ T.map Prod.fst) :
    ∀ c2, PathTo m startState e.1.state c2 → e.1.cost ≤ c2 := by
  rintro c2 ⟨p, hv, hh, hl, hc⟩
  have hmin := (frontierPop_split hpop).2
  have hmem := pop_mem hpop
  have hfr := hinv.base.front e hmem
  have hpb := pathBound_aux H hinv hmin p hv hh _ hl hfresh
  rw [hfr.2.1, fval_heur] at hpb
  have hcb : e.1.cost ≤ B + S := hfr.2.2.1
  have hhb : heurTo dest e.1.state ≤ E := hfr.2.2.2
  rw [u32_id (by have := H.small; omega)] at hpb
  omega

/-- Every successful terminating run of the search loop, started in an
invariant state, returns a valid start-to-destination traversal whose summed
step cost is the node's accumulated cost and is minimal among all valid
traversals to the destination. -/
theorem astarLoop_optimal {m : Map} {startState : State} {dest : Block} {S E B : Nat}
    (H : SearchHyps m startState dest S E B) :
    ∀ (fuel : Nat) (st : SearchState) (T : List (State × Nat)),
      AInv m startState dest S E B T st →
      ∀ sol, (astarLoop m dest fuel st T).1 = some (Except.ok sol) →
        validSteps m sol.states = true ∧ sol.states.head? = some startState ∧
          sol.states.getLast? = some { location := dest } ∧
          stepsCost sol.states = sol.cost ∧
          ∀ c2, PathTo m startState { location := dest } c2 → sol.cost ≤ c2 := by
  intro fuel
  induction fuel with
  | zero =>
    intro st T hinv sol hsol
    unfold astarLoop at hsol
    dsimp only at hsol
    cases hsol
  | succ fuel ih =>
    intro st T hinv sol hsol
    unfold astarLoop at hsol
    rcases hpop : frontierPop st.frontier with _ | pr
    · rw [hpop] at hsol
      dsimp only at hsol
      injection hsol with hs
      injection hs
    · rcases pr with ⟨e, rest⟩
      rw [hpop] at hsol
      dsimp only at hsol
      have hmem := pop_mem hpop
      have hfr := hinv.base.front e hmem
      have hOK := hfr.1
      by_cases hd : e.1.state.location = dest
      · rw [if_pos hd] at hsol
        dsimp only at hsol
        injection hsol with hs
        injection hs with hs
        subst hs
        have hfresh : e.1.state ∉ T.map Prod.fst := by
          intro hmem2
          exact hinv.base.destNot _ hmem2 hd
        have hopt := pop_min_optimal H hinv hpop hfresh
        have hstate : e.1.state = { location := dest } := by
          cases hs2 : e.1.state with
          | mk loc =>
            have hld : loc = dest := by
              rw [hs2] at hd
              exact hd
            rw [hld]
        refine ⟨hOK.1, hOK.2.1, ?_, hOK.2.2, ?_⟩
        · show (Solution.new e.1 m).states.getLast? = some { location := dest }
          rw [show (Solution.new e.1 m).states = e.1.get_steps from rfl,
            get_steps_getLast, hstate]
        · intro c2 hp
          show (Solution.new e.1 m).cost ≤ c2
          apply hopt
          rw [hstate]
          exact hp
      · rw [if_neg hd] at hsol
        -- the structural invariant survives removing the popped entry
        have hmid : ABase m startState dest S E B (T ++ [(e.1.state, e.1.cost)])
            { frontier := rest, reached := st.reached } := by
          refine ⟨?_, ?_, hinv.base.reachedOK, hinv.base.reachedKeys, ?_, ?_⟩
          · intro e2 he2
            exact hinv.base.front e2 (pop_rest_sub hpop e2 he2)
          · intro hs
            have hsT : startState ∉ T.map Prod.fst := by
              intro hmem2
              exact hs (by rw [List.map_append]; exact List.mem_append_left _ hmem2)
            have hsne : startState ≠ e.1.state := by
              intro heq
              apply hs
              rw [List.map_append]
              apply List.mem_append_right
              rw [heq]
              exact List.mem_singleton.mpr rfl
            refine pop_rest_of_mem hpop (hinv.base.startIn hsT) ?_
            intro hee
            have h1 : firstNode startState.location = e.1 := congrArg Prod.fst hee
            exact hsne (by rw [← h1]; rfl)
          · intro e2 he2 hfr2
            have hnotT : e2.1 ∉ T.map Prod.fst := by
              intro hmem2
              exact hfr2 (by rw [List.map_append]; exact List.mem_append_left _ hmem2)
            have hneS : e2.1 ≠ e.1.state := by
              intro heq
              apply hfr2
              rw [List.map_append]
              apply List.mem_append_right
              rw [heq]
              exact List.mem_singleton.mpr rfl
            refine pop_rest_of_mem hpop (hinv.base.inv3 e2 he2 hnotT) ?_
            intro hee
            have h1 : e2.2 = e.1 := congrArg Prod.fst hee
            apply hneS
            rw [← (hinv.base.reachedOK e2 he2).1, h1]
          · intro s hsmem
            rw [List.map_append] at hsmem
            rcases List.mem_append.mp hsmem with h1 | h1
            · exact hinv.base.destNot s h1
            · have h2 : s = e.1.state := List.mem_singleton.mp h1
              rw [h2]
              exact hd
        by_cases hset : e.1.state ∈ T.map Prod.fst
        · -- a stale re-pop of an already settled state: the expansion is a no-op
          have hinv2s : inv2At m startState
              { frontier := rest, reached := st.reached } e.1.state
              (m.get_reachable e.1.state.location.x e.1.state.location.y) :=
            hinv.inv2 e.1.state hset
          have hnoop := expand_noop_fold H hOK hfr.2.2.1 hinv2s
            (m.get_reachable e.1.state.location.x e.1.state.location.y)
            (fun b hb => hb)
          rw [hnoop] at hsol
          refine ih _ _ ⟨hmid, ?_⟩ sol hsol
          intro s hsmem
          rw [List.map_append] at hsmem
          rcases List.mem_append.mp hsmem with h1 | h1
          · exact hinv.inv2 s h1
          · have h2 : s = e.1.state := List.mem_singleton.mp h1
            rw [h2]
            exact hinv2s
        · -- a fresh settle: the popped cost is optimal and the expansion
          -- establishes the closure at the new settled state
          have hopt := pop_min_optimal H hinv hpop hset
          have hncost : e.1.cost ≤ B := by
            rcases H.pathB _ _ (nodeOK_pathTo hOK) with ⟨c2, hc2, hp2⟩
            exact le_trans (hopt c2 hp2) hc2
          have hfold := expand_fold H hOK hncost hopt
            (m.get_reachable e.1.state.location.x e.1.state.location.y)
            { frontier := rest, reached := st.reached } (fun b hb => hb) hmid
          refine ih _ _ ⟨hfold.1, ?_⟩ sol hsol
          intro s hsmem
          rw [List.map_append] at hsmem
          rcases List.mem_append.mp hsmem with h1 | h1
          · exact hfold.2.1 _ _ (hinv.inv2 s h1)
          · have h2 : s = e.1.state := List.mem_singleton.mp h1
            rw [h2]
            exact hfold.2.2

/-- C1 (amended): on a coordinate-coherent grid whose coordinates lie below
`2^15` (so the wrapping `i32` heuristic pipeline is exact), whenever no
accumulated cost, heuristic value or their sum can reach the `u32` modulus
(bounds `S` on step costs, `E` on heuristics, `B` on a cheapest path to every
reachable state, with `B + 2*S + E < 2^32`), every successful `a_star` run
returns a valid start-to-goal traversal whose total accumulated cost equals
the reported cost and is minimal among all valid traversals from start to
goal. -/
theorem claim_C1 (m : Map) (start dest : Block) (S E B : Nat)
    (hcoh : ∀ x y b, m.get_block x y = some b → b.x = x ∧ b.y = y)
    (hcm : ∀ x y b, m.get_block x y = some b → b.x < 2 ^ 15 ∧ b.y < 2 ^ 15)
    (hcs : start.x < 2 ^ 15 ∧ start.y < 2 ^ 15)
    (hcd : dest.x < 2 ^ 15 ∧ dest.y < 2 ^ 15)
    (hS : ∀ x y b, b ∈ m.get_reachable x y → b.speed32 ≤ S)
    (hE : ∀ x y b, b ∈ m.get_reachable x y → heurTo dest { location := b } ≤ E)
    (hEs : heurTo dest { location := start } ≤ E)
    (hBp : ∀ s c, PathTo m { location := start } s c →
      ∃ c2, c2 ≤ B ∧ PathTo m { location := start } s c2)
    (hsmall : B + 2 * S + E < 2 ^ 32)
    (fuel : Nat) (sol : Solution)
    (h : a_star fuel m start dest = some (Except.ok sol)) :
    validSteps m sol.states = true ∧
      sol.states.head? = some { location := start } ∧
      sol.states.getLast? = some { location := dest } ∧
      stepsCost sol.states = sol.cost ∧
      ∀ p, validSteps m p = true → p.head? = some { location := start } →
        p.getLast? = some { location := dest } → sol.cost ≤ stepsCost p := by
  have H : SearchHyps m { location := start } dest S E B :=
    ⟨hcoh, hcm, hcs, hcd, hS, hE, hEs, hBp, hsmall⟩
  have hinv0 : AInv m { location := start } dest S E B []
      (initialSearchState start dest) := by
    refine ⟨⟨?_, ?_, ?_, ?_, ?_, ?_⟩, ?_⟩
    · intro e he
      have he2 : e = (firstNode start, (firstNode start).fval dest) :=
        List.mem_singleton.mp he
      subst he2
      exact ⟨⟨rfl, rfl, rfl⟩, rfl, Nat.zero_le _, hEs⟩
    · intro _
      exact List.mem_singleton.mpr rfl
    · intro e he
      cases he
    · exact List.nodup_nil
    · intro e he
      cases he
    · intro s hs
      cases hs
    · intro s hs
      cases hs
  have hrun := astarLoop_optimal H fuel (initialSearchState start dest) [] hinv0 sol h
  refine ⟨hrun.1, hrun.2.1, hrun.2.2.1, hrun.2.2.2.1, ?_⟩
  intro p hv hh hl
  exact hrun.2.2.2.2 (stepsCost p) ⟨p, hv, hh, hl, rfl⟩

/-- The counterexample grid of claim C1: a direct corridor through a `Border`
block (speed `usize::MAX`) and a detour of true cost 4 along the bottom row. -/
def cexMap : Map :=
  { width := 3, height := 2
    blocks := [[⟨0, 0, BlockType.Green⟩, ⟨1, 0, BlockType.Border⟩,
                ⟨2, 0, BlockType.Green⟩],
               [⟨0, 1, BlockType.Green⟩, ⟨1, 1, BlockType.Green⟩,
                ⟨2, 1, BlockType.Green⟩]] }

/-- The cheap detour on the counterexample grid. -/
def cexAlt : List State :=
  [{ location := ⟨0, 0, BlockType.Green⟩ }, { location := ⟨0, 1, BlockType.Green⟩ },
   { location := ⟨1, 1, BlockType.Green⟩ }, { location := ⟨2, 1, BlockType.Green⟩ },
   { location := ⟨2, 0, BlockType.Green⟩ }]

/-- C1 counterexample: the `u32` cost accumulation wraps on the
`usize::MAX`-speed `Border` block, so `a_star` returns the sentinel-cost
corridor (reporting cost 0) although a valid traversal of true summed cost 4
exists — the returned path is not cost-minimal and its reported cost is not
its summed step cost. -/
theorem claim_C1_counterexample :
    ∃ sol,
      a_star 20 cexMap ⟨0, 0, BlockType.Green⟩ ⟨2, 0, BlockType.Green⟩ =
          some (Except.ok sol) ∧
        validSteps cexMap sol.states = true ∧
        sol.states.head? = some { location := ⟨0, 0, BlockType.Green⟩ } ∧
        sol.states.getLast? = some { location := ⟨2, 0, BlockType.Green⟩ } ∧
        validSteps cexMap cexAlt = true ∧
        cexAlt.head? = some { location := ⟨0, 0, BlockType.Green⟩ } ∧
        cexAlt.getLast? = some { location := ⟨2, 0, BlockType.Green⟩ } ∧
        stepsCost cexAlt < stepsCost sol.states ∧
        sol.cost ≠ stepsCost sol.states := by
  refine ⟨{ states := [{ location := ⟨0, 0, BlockType.Green⟩ },
                       { location := ⟨1, 0, BlockType.Border⟩ },
                       { location := ⟨2, 0, BlockType.Green⟩ }]
            map := { width := 3, height := 2
                     blocks := [[⟨0, 0, BlockType.Solution⟩, ⟨1, 0, BlockType.Solution⟩,
                                 ⟨2, 0, BlockType.Solution⟩],
                                [⟨0, 1, BlockType.Green⟩, ⟨1, 1, BlockType.Green⟩,
                                 ⟨2, 1, BlockType.Green⟩]] }
            cost := 0 }, ?_, ?_, rfl, rfl, ?_, rfl, rfl, ?_, ?_⟩
  · rfl
  · decide
  · decide
  · decide
  · decide

theorem get_block_mem {m : Map} {x y : Nat} {b : Block}
    (h : m.get_block x y = some b) : ∃ row ∈ m.blocks, b ∈ row := by
  unfold Map.get_block at h
  rcases Option.bind_eq_some.mp h with ⟨row, hrow, hcol⟩
  exact ⟨row, List.getElem?_mem hrow, List.getElem?_mem hcol⟩

/-- The witness grid of (amended) claim C1: two green cells side by side. -/
def wMap : Map :=
  { width := 2, height := 1
    blocks := [[⟨0, 0, BlockType.Green⟩, ⟨1, 0, BlockType.Green⟩]] }

theorem wit_coh : ∀ x y b, wMap.get_block x y = some b → b.x = x ∧ b.y = y := by
  intro x y b h
  rcases y with _ | y
  · rcases x with _ | _ | x
    · rw [show wMap.get_block 0 0 = some ⟨0, 0, BlockType.Green⟩ from rfl] at h
      injection h with h
      subst h
      exact ⟨rfl, rfl⟩
    · rw [show wMap.get_block 1 0 = some ⟨1, 0, BlockType.Green⟩ from rfl] at h
      injection h with h
      subst h
      exact ⟨rfl, rfl⟩
    · rw [show wMap.get_block (x + 2) 0 = none from rfl] at h
      cases h
  · rw [show wMap.get_block x (y + 1) = none from rfl] at h
    cases h

theorem wit_blocks : ∀ {x y : Nat} {b : Block}, wMap.get_block x y = some b →
    (b = ⟨0, 0, BlockType.Green⟩ ∨ b = ⟨1, 0, BlockType.Green⟩) := by
  intro x y b h
  rcases get_block_mem h with ⟨row, hrow, hb⟩
  have hr : row = [⟨0, 0, BlockType.Green⟩, ⟨1, 0, BlockType.Green⟩] :=
    List.mem_singleton.mp hrow
  subst hr
  rcases List.mem_cons.mp hb with h1 | h1
  · exact Or.inl h1
  · exact Or.inr (List.mem_singleton.mp h1)

theorem wit_S : ∀ x y b, b ∈ wMap.get_reachable x y → b.speed32 ≤ 1 := by
  intro x y b h
  have h3 : b = ⟨0, 0, BlockType.Green⟩ ∨ b = ⟨1, 0, BlockType.Green⟩ := by
    rcases (mem_get_reachable_elim h).2 with ⟨h4, _⟩ | ⟨h4, _⟩ | h4 | h4 <;>
      exact wit_blocks h4
  rcases h3 with rfl | rfl <;> decide

theorem wit_E : ∀ x y b, b ∈ wMap.get_reachable x y →
    heurTo ⟨1, 0, BlockType.Green⟩ { location := b } ≤ 1 := by
  intro x y b h
  have h3 : b = ⟨0, 0, BlockType.Green⟩ ∨ b = ⟨1, 0, BlockType.Green⟩ := by
    rcases (mem_get_reachable_elim h).2 with ⟨h4, _⟩ | ⟨h4, _⟩ | h4 | h4 <;>
      exact wit_blocks h4
  rcases h3 with rfl | rfl <;> decide

theorem wit_B : ∀ s c, PathTo wMap { location := ⟨0, 0, BlockType.Green⟩ } s c →
    ∃ c2, c2 ≤ 1 ∧ PathTo wMap { location := ⟨0, 0, BlockType.Green⟩ } s c2 := by
  intro s c hp
  rcases pathTo_last_cases hp with rfl | ⟨x, y, hmem⟩
  · exact ⟨0, Nat.zero_le _,
      ⟨[{ location := ⟨0, 0, BlockType.Green⟩ }], rfl, rfl, rfl, rfl⟩⟩
  · have h3 : s.location = ⟨0, 0, BlockType.Green⟩ ∨
        s.location = ⟨1, 0, BlockType.Green⟩ := by
      rcases (mem_get_reachable_elim hmem).2 with ⟨h4, _⟩ | ⟨h4, _⟩ | h4 | h4 <;>
        exact wit_blocks h4
    have hs : s = { location := s.location } := rfl
    rcases h3 with h5 | h5
    · refine ⟨0, Nat.zero_le _,
        ⟨[{ location := ⟨0, 0, BlockType.Green⟩ }], rfl, rfl, ?_, rfl⟩⟩
      rw [hs, h5]
      rfl
    · refine ⟨1, Nat.le_refl 1,
        ⟨[{ location := ⟨0, 0, BlockType.Green⟩ },
          { location := ⟨1, 0, BlockType.Green⟩ }], by decide, rfl, ?_, rfl⟩⟩
      rw [hs, h5]
      rfl

/-- The solution returned on the witness grid. -/
def wSol : Solution :=
  { states := [{ location := ⟨0, 0, BlockType.Green⟩ },
               { location := ⟨1, 0, BlockType.Green⟩ }]
    map := { width := 2, height := 1
             blocks := [[⟨0, 0, BlockType.Solution⟩, ⟨1, 0, BlockType.Solution⟩]] }
    cost := 1 }

theorem wit_coordMap : ∀ x y b, wMap.get_block x y = some b →
    b.x < 2 ^ 15 ∧ b.y < 2 ^ 15 := by
  intro x y b h
  rcases wit_blocks h with rfl | rfl <;> decide

theorem claim_C1_witness :
    (∀ x y b, wMap.get_block x y = some b → b.x = x ∧ b.y = y) ∧
    (∀ x y b, wMap.get_block x y = some b → b.x < 2 ^ 15 ∧ b.y < 2 ^ 15) ∧
    ((0 : Nat) < 2 ^ 15 ∧ (0 : Nat) < 2 ^ 15) ∧
    ((1 : Nat) < 2 ^ 15 ∧ (0 : Nat) < 2 ^ 15) ∧
    (∀ x y b, b ∈ wMap.get_reachable x y → b.speed32 ≤ 1) ∧
    (∀ x y b, b ∈ wMap.get_reachable x y →
      heurTo ⟨1, 0, BlockType.Green⟩ { location := b } ≤ 1) ∧
    heurTo ⟨1, 0, BlockType.Green⟩ { location := ⟨0, 0, BlockType.Green⟩ } ≤ 1 ∧
    (∀ s c, PathTo wMap { location := ⟨0, 0, BlockType.Green⟩ } s c →
      ∃ c2, c2 ≤ 1 ∧ PathTo wMap { location := ⟨0, 0, BlockType.Green⟩ } s c2) ∧
    1 + 2 * 1 + 1 < 2 ^ 32 ∧
    a_star 10 wMap ⟨0, 0, BlockType.Green⟩ ⟨1, 0, BlockType.Green⟩ =
      some (Except.ok wSol) ∧
    (validSteps wMap wSol.states = true ∧
      wSol.states.head? = some { location := ⟨0, 0, BlockType.Green⟩ } ∧
      wSol.states.getLast? = some { location := ⟨1, 0, BlockType.Green⟩ } ∧
      stepsCost wSol.states = wSol.cost ∧
      ∀ p, validSteps wMap p = true →
        p.head? = some { location := ⟨0, 0, BlockType.Green⟩ } →
        p.getLast? = some { location := ⟨1, 0, BlockType.Green⟩ } →
        wSol.cost ≤ stepsCost p) :=
  ⟨wit_coh, wit_coordMap, by decide, by decide, wit_S, wit_E, by decide, wit_B,
    by decide, rfl,
    claim_C1 wMap ⟨0, 0, BlockType.Green⟩ ⟨1, 0, BlockType.Green⟩ 1 1 1
      wit_coh wit_coordMap (by decide) (by decide) wit_S wit_E (by decide) wit_B
      (by decide) 10 wSol rfl⟩

end Mazes
